import Mathlib

/-!
# Paillier cryptosystem over encoded reals: a verification development

Shallow embedding of the Go package `paillier` (keys.go, encoding.go, ops.go).

* `*big.Int` values are Lean `Int`; `Div` and `Mod` are Euclidean, as in math/big.
* A Go panic is an error of `Except PaillierError`.
* A nil `*big.Int` (the result of a failed `ModInverse`) is `none`; using it panics.
* Random draws (`rand.Int`) are explicit arguments.
* The pointer stored in `PaillierPublicKey.n` is kept as an address next to its value,
  because `Equal` compares the pointers.
* Exponents are integer valued `float64`s and are kept as `Int`.
* A `float64` is a dyadic rational, an infinity or NaN (`Float64`); the sign of zero is
  not kept. Results the Go specification leaves to the implementation, and `math.Log`,
  are fields of `Platform`.
-/

namespace Paillier

/-! ## Panics -/

/-- The panics the package can raise, one constructor per panic site or runtime fault. -/
inductive PaillierError
  /-- Panic "q * p != n". -/
  | productMismatch
  /-- Panic "p shouldn't be equal to q". -/
  | equalPrimes
  /-- Panic "encryptedNumber was encrypted against a different key!" and
  "Attempted to add numbers encrypted against different public keys!". -/
  | keyMismatch
  /-- Panic "intRep should be less than publicKey.maxInt". -/
  | plaintextTooLarge
  /-- Panic "Attempted to decode corrupted number". -/
  | corruptedEncoding
  /-- Panic "Overflow detected in decrypted number". -/
  | overflow
  /-- Panic "New exponent ... should be more negative than old exponent ...". -/
  | exponentRaise
  /-- Panic "Scalar out of bounds: ...". -/
  | scalarOutOfBounds
  /-- Panics of the type switches on `interface` arguments. -/
  | badArgumentType
  /-- Runtime panic: a nil `*big.Int` is used as an operand. -/
  | nilDereference
  /-- Runtime panic: `big.Int` division by zero. -/
  | divisionByZero
  /-- Panic of `rand.Int` when its bound is not positive. -/
  | randBound
  /-- Panic `big.ErrNaN` of `big.Float` (zero times infinity). -/
  | floatNaN
  deriving DecidableEq, Repr

deriving instance DecidableEq for Except

/-! ## The math/big facade -/

/-- Go `new(big.Int).Div(x, y)`: Euclidean quotient; panics when `y = 0`. -/
def bigDiv (x y : Int) : Except PaillierError Int :=
  if y = 0 then .error .divisionByZero else .ok (x / y)

/-- Go `new(big.Int).Mod(x, y)`: Euclidean modulus in `[0, |y|)`; panics when `y = 0`. -/
def bigMod (x y : Int) : Except PaillierError Int :=
  if y = 0 then .error .divisionByZero else .ok (x % y)

/-- Extended Euclid on the remainders `r0, r1` with the cofactors `t0, t1` of `g`: returns
the last non-zero remainder and its cofactor. `fuel` bounds the number of steps. -/
def xgcdLoop : Nat → Nat → Nat → Int → Int → Nat × Int
  | 0, r0, _, t0, _ => (r0, t0)
  | fuel + 1, r0, r1, t0, t1 =>
    if r1 = 0 then (r0, t0)
    else xgcdLoop fuel r1 (r0 % r1) t1 (t0 - ((r0 / r1 : Nat) : Int) * t1)

/-- Go `new(big.Int).ModInverse(g, n)`: the inverse of `g` in `Z/nZ`, taken in `[0, |n|)`,
and nil (`none`) when `g` and `n` are not coprime. The modulus zero is treated as a
failure. -/
def ModInverse (g n : Int) : Option Int :=
  if n = 0 then none
  else
    let res := xgcdLoop (n.natAbs + 1) n.natAbs (g % n).toNat 0 1
    if res.1 = 1 then some (res.2 % n) else none

/-- Square and multiply: `acc * b ^ e mod m`, reading the bits of `e` from the lowest. -/
def powModLoop (m : Int) : Nat → Int → Nat → Int → Int
  | 0, _, _, acc => acc
  | fuel + 1, b, e, acc =>
    if e = 0 then acc
    else powModLoop m fuel (b * b % m) (e / 2) (if e % 2 = 1 then acc * b % m else acc)

/-- Go `new(big.Int).Exp(x, y, m)`: `x ^ y mod |m|` in `[0, |m|)`; with `m = 0` the plain
power; with `y < 0` the power of the modular inverse (nil when there is none, `1` when
`m = 0`). -/
def Exp (x y m : Int) : Option Int :=
  if y < 0 then
    if m = 0 then some 1
    else (ModInverse x m).map (fun inv => powModLoop m y.natAbs inv y.natAbs (1 % m))
  else if m = 0 then some (x ^ y.toNat)
  else some (powModLoop m y.toNat x y.toNat (1 % m))

/-- Use of a possibly nil `*big.Int` as an operand. -/
def deref (v : Option Int) : Except PaillierError Int :=
  match v with
  | some x => .ok x
  | none => .error .nilDereference

/-! ## keys.go -/

/-- Go `PaillierPublicKey`. `nAddr` is the address of the `big.Int` the field `n` points to. -/
structure PaillierPublicKey where
  nAddr : Nat
  g : Int
  n : Int
  nsquare : Int
  maxInt : Int
  deriving DecidableEq, Repr

/-- Go `(*PaillierPublicKey).Init`. -/
def PaillierPublicKey.Init (nAddr : Nat) (n : Int) : PaillierPublicKey :=
  { nAddr := nAddr
    n := n
    g := n + 1
    nsquare := n * n
    maxInt := n / 3 - 1 }

/-- Go `(*PaillierPublicKey).Equal`: `p.n == other.n` on `*big.Int`, a pointer comparison. -/
def PaillierPublicKey.Equal (p other : PaillierPublicKey) : Bool :=
  p.nAddr == other.nAddr

/-- Go `(*PaillierPublicKey).GetRandomItN`; `randValue` is the outcome of
`rand.Int(rand.Reader, n - 1)`, a value of `[0, n - 1)`. -/
def PaillierPublicKey.GetRandomItN (p : PaillierPublicKey) (randValue : Int) :
    Except PaillierError Int :=
  if p.n - 1 ≤ 0 then .error .randBound else .ok (randValue + 1)

/-- Go `(*PaillierPublicKey).RawEncrypt`. `rValue = none` is the nil argument, in which case
the blinding factor comes from the draw `randValue`. -/
def PaillierPublicKey.RawEncrypt (p : PaillierPublicKey) (plaintext : Int)
    (rValue : Option Int) (randValue : Int) : Except PaillierError Int := do
  let nudeCiphertext ←
    if p.n - p.maxInt ≤ plaintext ∧ plaintext < p.n then do
      let negPlaintext := p.n - plaintext
      let negCiphertext ← bigMod (p.n * negPlaintext + 1) p.nsquare
      pure (ModInverse negCiphertext p.nsquare)
    else do
      let c ← bigMod (p.n * plaintext + 1) p.nsquare
      pure (some c)
  let r ← match rValue with
    | none => p.GetRandomItN randValue
    | some r => pure r
  let obfuscator := Exp r p.n p.nsquare
  let nude ← deref nudeCiphertext
  let obf ← deref obfuscator
  bigMod (nude * obf) p.nsquare

/-- Go `PaillierPrivateKey`. The fields set from `ModInverse` may be nil. -/
structure PaillierPrivateKey where
  publicKey : PaillierPublicKey
  p : Int
  q : Int
  psquare : Int
  qsquare : Int
  pInverse : Option Int
  hp : Option Int
  hq : Option Int
  deriving DecidableEq, Repr

/-- Go `(*PaillierPrivateKey).LFunction`. -/
def PaillierPrivateKey.LFunction (x p : Int) : Except PaillierError Int :=
  bigDiv (x - 1) p

/-- Go `(*PaillierPrivateKey).HFunction`; it reads only `pr.publicKey.g` of its receiver. -/
def PaillierPrivateKey.HFunction (publicKey : PaillierPublicKey) (x xsquare : Int) :
    Except PaillierError (Option Int) := do
  let e ← deref (Exp publicKey.g (x - 1) xsquare)
  let l ← PaillierPrivateKey.LFunction e x
  pure (ModInverse l x)

/-- Go `(*PaillierPrivateKey).Init`. -/
def PaillierPrivateKey.Init (publicKey : PaillierPublicKey) (p q : Int) :
    Except PaillierError PaillierPrivateKey :=
  if p * q ≠ publicKey.n then .error .productMismatch
  else if p = q then .error .equalPrimes
  else
    let p1 := if p > q then q else p
    let q1 := if p > q then p else q
    let psquare := p1 * p1
    let qsquare := q1 * q1
    let pInverse := ModInverse p1 q1
    do
      let hp ← PaillierPrivateKey.HFunction publicKey p1 psquare
      let hq ← PaillierPrivateKey.HFunction publicKey q1 qsquare
      pure { publicKey := publicKey, p := p1, q := q1, psquare := psquare,
             qsquare := qsquare, pInverse := pInverse, hp := hp, hq := hq }

/-- Go `(*PaillierPrivateKey).Crt`. -/
def PaillierPrivateKey.Crt (pr : PaillierPrivateKey) (mp mq : Int) :
    Except PaillierError Int := do
  let pInverse ← deref pr.pInverse
  let u ← bigMod ((mq - mp) * pInverse) pr.q
  pure (mp + u * pr.p)

/-- Go `(*PaillierPrivateKey).RawDecrypt`. -/
def PaillierPrivateKey.RawDecrypt (pr : PaillierPrivateKey) (ciphertext : Int) :
    Except PaillierError Int := do
  let ep ← deref (Exp ciphertext (pr.p - 1) pr.psquare)
  let lp ← PaillierPrivateKey.LFunction ep pr.p
  let hp ← deref pr.hp
  let decryptToP ← bigMod (lp * hp) pr.p
  let eq ← deref (Exp ciphertext (pr.q - 1) pr.qsquare)
  let lq ← PaillierPrivateKey.LFunction eq pr.q
  let hq ← deref pr.hq
  let decryptToQ ← bigMod (lq * hq) pr.q
  pr.Crt decryptToP decryptToQ

/-- Go `GeneratePaillierKeypairByPQ`; `nAddr` is the address of the `big.Int` allocated for
the product. -/
def GeneratePaillierKeypairByPQ (nAddr : Nat) (p q : Int) :
    Except PaillierError (PaillierPublicKey × PaillierPrivateKey) := do
  let n := p * q
  let publicKey := PaillierPublicKey.Init nAddr n
  let privateKey ← PaillierPrivateKey.Init publicKey p q
  pure (publicKey, privateKey)

/-! ## float64 -/

/-- Number of bits of a natural number, Go `BitLen`; `fuel` bounds the number of halvings. -/
def bitLenLoop : Nat → Nat → Nat
  | 0, _ => 0
  | fuel + 1, n => if n = 0 then 0 else bitLenLoop fuel (n / 2) + 1

/-- Go `(*big.Int).BitLen` on the absolute value. -/
def bitLen (n : Nat) : Nat := bitLenLoop n n

/-- A Go `float64`: the finite value `num / 2 ^ scale`, an infinity, or NaN. Finite values
are kept with `scale = 0` or `num` odd. -/
inductive Float64
  | finite (num : Int) (scale : Nat)
  | inf (negative : Bool)
  | nan
  deriving DecidableEq, Repr

/-- The finite value `num / 2 ^ scale` with the common factors of two removed. -/
def Float64.normalize : Int → Nat → Float64
  | num, 0 => .finite num 0
  | num, k + 1 => if num % 2 = 0 then Float64.normalize (num / 2) k else .finite num (k + 1)

/-- The `float64` nearest to the dyadic rational `num / 2 ^ scale`, ties to even: 53 bits
of precision, the unit in the last place never below `2 ^ (-1074)`, overflow to infinity
when the rounded magnitude `q1 * 2 ^ ulp` reaches `2 ^ 1024`, that is, has more than 1024
bits. -/
def Float64.ofDyadic (num : Int) (scale : Nat) : Float64 :=
  if num = 0 then .finite 0 0
  else
    let a := num.natAbs
    let top : Int := (bitLen a : Int) - 1 - (scale : Int)
    let ulp : Int := max (top - 52) (-1074)
    let drop : Int := ulp + (scale : Int)
    if drop ≤ 0 then Float64.normalize num scale
    else
      let d : Nat := 2 ^ drop.toNat
      let q := a / d
      let r := a % d
      let q1 := if d < 2 * r ∨ (2 * r = d ∧ q % 2 = 1) then q + 1 else q
      if 0 ≤ ulp then
        if 1024 < (bitLen q1 : Int) + ulp then .inf (decide (num < 0))
        else .finite (num.sign * ((q1 * 2 ^ ulp.toNat : Nat) : Int)) 0
      else Float64.normalize (num.sign * (q1 : Int)) (-ulp).toNat

/-- Go `float64(v)` for an `int64` value `v`. -/
def Float64.ofInt64 (v : Int) : Float64 := Float64.ofDyadic v 0

/-- Go `x <= 0` on `float64`; false for NaN. -/
def Float64.le0 : Float64 → Bool
  | .finite num _ => decide (num ≤ 0)
  | .inf negative => negative
  | .nan => false

/-- Go `x * y` on `float64`. -/
def Float64.mul : Float64 → Float64 → Float64
  | .finite a s, .finite b t => Float64.ofDyadic (a * b) (s + t)
  | .finite a _, .inf negative => if a = 0 then .nan else .inf (xor (decide (a < 0)) negative)
  | .inf negative, .finite b _ => if b = 0 then .nan else .inf (xor negative (decide (b < 0)))
  | .inf n1, .inf n2 => .inf (xor n1 n2)
  | _, _ => .nan

/-- Go `math.Round`: the nearest integer, halves away from zero. -/
def Float64.Round : Float64 → Float64
  | .finite num scale =>
    .finite (num.sign * ((2 * |num| + 2 ^ scale) / (2 * 2 ^ scale))) 0
  | f => f

/-- The binary exponent returned by Go `math.Frexp`: `x = frac * 2 ^ exp` with
`frac` in `[1/2, 1)`; zero for `0`, the infinities and NaN. -/
def Float64.frexpExp : Float64 → Int
  | .finite num scale => if num = 0 then 0 else (bitLen num.natAbs : Int) - (scale : Int)
  | _ => 0

/-- What the Go specification leaves to the implementation, and the library function that
has no closed form: the result of `int64(f)` when `f` is not representable as an `int64`
(some `int64` value), and `math.Floor(math.Log(p) / math.Log(Base))`. -/
structure Platform where
  int64Overflow : Float64 → Int
  int64Overflow_ge : ∀ f, -2 ^ 63 ≤ int64Overflow f
  int64Overflow_lt : ∀ f, int64Overflow f < 2 ^ 63
  floorLogBase : Float64 → Int

/-- A platform for examples: out-of-range conversions give the least `int64`, as the
x86-64 conversion instruction does, and the logarithm floor of a positive finite `p` is
the exact `floor (log2 p / 4)`. -/
def Platform.amd64 : Platform where
  int64Overflow := fun _ => -2 ^ 63
  int64Overflow_ge := fun _ => le_refl _
  int64Overflow_lt := fun _ => by show (-2 ^ 63 : Int) < 2 ^ 63; decide
  floorLogBase := fun p =>
    match p with
    | .finite num scale => ((bitLen num.natAbs : Int) - 1 - (scale : Int)) / 4
    | _ => 0

/-- Go `int64(f)`: truncation toward zero; implementation dependent out of range. -/
def Float64.toInt64 (rt : Platform) (f : Float64) : Int :=
  match f with
  | .finite num scale =>
    let v := Int.tdiv num (2 ^ scale)
    if -2 ^ 63 ≤ v ∧ v < 2 ^ 63 then v else rt.int64Overflow f
  | _ => rt.int64Overflow f

/-! ## encoding.go -/

/-- Go `Base = float64(16)`, as the integer it is. -/
def Base : Int := 16

/-- Go `FloatMantissaBits`. -/
def FloatMantissaBits : Int := 53

/-- Go `MaxExponentUnused = float64(2000)`. -/
def MaxExponentUnused : Int := 2000

/-- Go `PrecisionUnused = float64(0)`. -/
def PrecisionUnused : Float64 := .finite 0 0

/-- Go `Log2Base = math.Log2(Base)`, exactly `4`. -/
def Log2Base : Int := 4

/-- Go `math.Pow(Base, y)` for an integer valued `y`: `16 ^ y = 2 ^ (4 * y)` is exact
while representable, `+Inf` from `2 ^ 1024` on, and `0` below `2 ^ (-1074)`. -/
def mathPowBase (y : Int) : Float64 :=
  if 256 ≤ y then .inf false
  else if 0 ≤ y then .finite (Base ^ y.toNat) 0
  else if -268 ≤ y then .finite 1 (4 * (-y).toNat)
  else .finite 0 0

/-- Go `EncodedNumber`. -/
structure EncodedNumber where
  PublicKey : PaillierPublicKey
  Encoding : Int
  Exponent : Int
  deriving DecidableEq, Repr

/-- Go `EncryptedNumber`. -/
structure EncryptedNumber where
  PublicKey : PaillierPublicKey
  ciphertext : Int
  Exponent : Int
  isObfuscated : Bool
  deriving DecidableEq, Repr

/-- A Go `interface` argument of `Encode`, `Encrypt`, `Add` and `Mul`, by dynamic type.
An `int64` carries a value of `[-2 ^ 63, 2 ^ 63)`. -/
inductive Value
  | encrypted (v : EncryptedNumber)
  | encoded (v : EncodedNumber)
  | float64 (v : Float64)
  | int64 (v : Int)
  | unsupported
  deriving DecidableEq, Repr

/-- Go `(*EncodedNumber).Init`. -/
def EncodedNumber.Init (publicKey : PaillierPublicKey) (encoding : Int) (exponent : Int) :
    EncodedNumber :=
  { PublicKey := publicKey, Encoding := encoding, Exponent := exponent }

/-- Go `(*EncodedNumber).Encode`. In the branch `precision > 0` the variable `_scalar` is
never assigned and keeps its zero value. -/
def EncodedNumber.Encode (rt : Platform) (publicKey : PaillierPublicKey) (scalar : Value)
    (precision : Float64) (maxExponent : Int) : Except PaillierError EncodedNumber := do
  let (precExponent, _scalar) ←
    if precision.le0 then
      match scalar with
      | .int64 v => pure ((0 : Int), Float64.ofInt64 v)
      | .float64 x =>
        let binFltExponent := x.frexpExp
        let binLsbExponent := binFltExponent - FloatMantissaBits
        pure (binLsbExponent / Log2Base, x)
      | _ => throw PaillierError.badArgumentType
    else pure (rt.floorLogBase precision, Float64.finite 0 0)
  let exponent := min precExponent maxExponent
  let intRep := (Float64.Round (_scalar.mul (mathPowBase (-exponent)))).toInt64 rt
  if intRep > publicKey.maxInt then throw PaillierError.plaintextTooLarge
  let encoding ← bigMod intRep publicKey.n
  pure (EncodedNumber.Init publicKey encoding exponent)

/-- Go `new(big.Float).Mul(new(big.Float).SetInt(mantissa),
new(big.Float).SetFloat64(f)).Float64()` for `f` a power of two, zero or `+Inf`: the
product is exact at the precision of the first operand and is then rounded to `float64`;
zero times infinity panics. -/
def bigFloatMul (mantissa : Int) (f : Float64) : Except PaillierError Float64 :=
  match f with
  | .finite num scale => pure (Float64.ofDyadic (mantissa * num) scale)
  | .inf negative =>
    if mantissa = 0 then throw PaillierError.floatNaN
    else pure (.inf (xor negative (decide (mantissa < 0))))
  | .nan => throw PaillierError.floatNaN

/-- Go `(*EncodedNumber).Decode`. -/
def EncodedNumber.Decode (n : EncodedNumber) : Except PaillierError Float64 := do
  let mantissa ←
    if n.Encoding ≥ n.PublicKey.n then throw PaillierError.corruptedEncoding
    else if n.Encoding ≤ n.PublicKey.maxInt then pure n.Encoding
    else if n.Encoding ≥ n.PublicKey.n - n.PublicKey.maxInt then
      pure (n.Encoding - n.PublicKey.n)
    else throw PaillierError.overflow
  bigFloatMul mantissa (mathPowBase n.Exponent)

/-- Go `(*EncodedNumber).DecreaseExponentTo`. -/
def EncodedNumber.DecreaseExponentTo (rt : Platform) (n : EncodedNumber) (newExp : Int) :
    Except PaillierError EncodedNumber := do
  if newExp > n.Exponent then throw PaillierError.exponentRaise
  let factor := (mathPowBase (n.Exponent - newExp)).toInt64 rt
  let newEnc ← bigMod (n.Encoding * factor) n.PublicKey.n
  pure (EncodedNumber.Init n.PublicKey newEnc newExp)

/-! ## ops.go -/

/-- Go `(*EncryptedNumber).Init`. -/
def EncryptedNumber.Init (PublicKey : PaillierPublicKey) (Ciphertext : Int) (Exponent : Int) :
    EncryptedNumber :=
  { PublicKey := PublicKey, ciphertext := Ciphertext, Exponent := Exponent,
    isObfuscated := false }

/-- Go `(*EncryptedNumber).Obfuscate`; returns the receiver after the update. `randValue`
is the draw of `GetRandomItN`. -/
def EncryptedNumber.Obfuscate (n : EncryptedNumber) (randValue : Int) :
    Except PaillierError EncryptedNumber := do
  let r ← n.PublicKey.GetRandomItN randValue
  let rPowN ← deref (Exp r n.PublicKey.n n.PublicKey.nsquare)
  let c ← bigMod (n.ciphertext * rPowN) n.PublicKey.nsquare
  pure { n with ciphertext := c, isObfuscated := true }

/-- Go `(*EncryptedNumber).Ciphertext`; returns the ciphertext and the receiver after the
call. The draw `randValue` is consumed only when the call blinds. -/
def EncryptedNumber.Ciphertext (n : EncryptedNumber) (beSecure : Bool) (randValue : Int) :
    Except PaillierError (Int × EncryptedNumber) := do
  if beSecure && !n.isObfuscated then
    let n1 ← n.Obfuscate randValue
    pure (n1.ciphertext, n1)
  else pure (n.ciphertext, n)

/-- Go `(*EncryptedNumber).rawAdd`. -/
def EncryptedNumber.rawAdd (n : EncryptedNumber) (eA eB : Int) : Except PaillierError Int :=
  bigMod (eA * eB) n.PublicKey.nsquare

/-- Go `(*EncryptedNumber).rawMul`. `n.Ciphertext(false)` draws nothing, so the draw passed
to it is a placeholder. The exponents passed to `Exp` are not negative, so its result is
not nil. -/
def EncryptedNumber.rawMul (n : EncryptedNumber) (plaintext : Int) :
    Except PaillierError Int := do
  if plaintext < 0 ∨ plaintext ≥ n.PublicKey.n then throw PaillierError.scalarOutOfBounds
  if n.PublicKey.n - n.PublicKey.maxInt ≤ plaintext then
    let (c, _) ← n.Ciphertext false 0
    let negC ← deref (ModInverse c n.PublicKey.nsquare)
    let negScalar := n.PublicKey.n - plaintext
    deref (Exp negC negScalar n.PublicKey.nsquare)
  else
    let (c, _) ← n.Ciphertext false 0
    deref (Exp c plaintext n.PublicKey.nsquare)

/-- Go `(*EncryptedNumber).Mul`. -/
def EncryptedNumber.Mul (rt : Platform) (n : EncryptedNumber) (other : Value) :
    Except PaillierError EncryptedNumber := do
  let encoding ←
    match other with
    | .encoded v => pure v
    | .float64 _ | .int64 _ =>
      EncodedNumber.Encode rt n.PublicKey other PrecisionUnused MaxExponentUnused
    | _ => throw PaillierError.badArgumentType
  let product ← n.rawMul encoding.Encoding
  let exponent := n.Exponent + encoding.Exponent
  pure (EncryptedNumber.Init n.PublicKey product exponent)

/-- Go `(*EncryptedNumber).DecreaseExponentTo`. -/
def EncryptedNumber.DecreaseExponentTo (rt : Platform) (n : EncryptedNumber) (newExp : Int) :
    Except PaillierError EncryptedNumber := do
  if newExp > n.Exponent then throw PaillierError.exponentRaise
  let multiplied ← n.Mul rt (.int64 ((mathPowBase (n.Exponent - newExp)).toInt64 rt))
  pure { multiplied with Exponent := newExp }

/-- Go `(*EncryptedNumber).addEncrypted`. -/
def EncryptedNumber.addEncrypted (rt : Platform) (n other : EncryptedNumber) :
    Except PaillierError EncryptedNumber := do
  if !n.PublicKey.Equal other.PublicKey then throw PaillierError.keyMismatch
  let (a, b) ←
    if n.Exponent > other.Exponent then do
      let a1 ← n.DecreaseExponentTo rt other.Exponent
      pure (a1, other)
    else if n.Exponent < other.Exponent then do
      let b1 ← other.DecreaseExponentTo rt n.Exponent
      pure (n, b1)
    else pure (n, other)
  let (cA, _) ← a.Ciphertext false 0
  let (cB, _) ← b.Ciphertext false 0
  let sumCiphertext ← a.rawAdd cA cB
  pure (EncryptedNumber.Init a.PublicKey sumCiphertext a.Exponent)

/-- Go `(*EncryptedNumber).addEncoded`. -/
def EncryptedNumber.addEncoded (rt : Platform) (n : EncryptedNumber) (encoded : EncodedNumber) :
    Except PaillierError EncryptedNumber := do
  if !n.PublicKey.Equal encoded.PublicKey then throw PaillierError.keyMismatch
  let (a, b) ←
    if n.Exponent > encoded.Exponent then do
      let a1 ← n.DecreaseExponentTo rt encoded.Exponent
      pure (a1, encoded)
    else if n.Exponent < encoded.Exponent then do
      let b1 ← encoded.DecreaseExponentTo rt n.Exponent
      pure (n, b1)
    else pure (n, encoded)
  let encryptedScalar ← a.PublicKey.RawEncrypt b.Encoding (some 1) 0
  let (cA, _) ← a.Ciphertext false 0
  let sumCiphertext ← a.rawAdd cA encryptedScalar
  pure (EncryptedNumber.Init a.PublicKey sumCiphertext a.Exponent)

/-- Go `(*EncryptedNumber).addScalar`. -/
def EncryptedNumber.addScalar (rt : Platform) (n : EncryptedNumber) (scalar : Value) :
    Except PaillierError EncryptedNumber := do
  let encoded ← EncodedNumber.Encode rt n.PublicKey scalar PrecisionUnused n.Exponent
  n.addEncoded rt encoded

/-- Go `(*EncryptedNumber).Add`. -/
def EncryptedNumber.Add (rt : Platform) (n : EncryptedNumber) (other : Value) :
    Except PaillierError EncryptedNumber :=
  match other with
  | .encrypted v => n.addEncrypted rt v
  | .encoded v => n.addEncoded rt v
  | .float64 _ | .int64 _ => n.addScalar rt other
  | .unsupported => throw PaillierError.badArgumentType

/-! ## keys.go, the operations on encoded and encrypted numbers -/

/-- Go `(*PaillierPublicKey).EncryptEncoded`. `rValue = none` is the nil argument;
`randValue` is then the draw of the blinding. -/
def PaillierPublicKey.EncryptEncoded (p : PaillierPublicKey) (encoding : EncodedNumber)
    (rValue : Option Int) (randValue : Int) : Except PaillierError EncryptedNumber := do
  let obfuscator : Int :=
    match rValue with
    | none => 1
    | some r => r
  let ciphertext ← p.RawEncrypt encoding.Encoding (some obfuscator) 0
  let encryptedNumber := EncryptedNumber.Init p ciphertext encoding.Exponent
  match rValue with
  | none => encryptedNumber.Obfuscate randValue
  | some _ => pure encryptedNumber

/-- Go `(*PaillierPublicKey).Encrypt`. -/
def PaillierPublicKey.Encrypt (rt : Platform) (p : PaillierPublicKey) (value : Value)
    (precision : Float64) (rValue : Option Int) (randValue : Int) :
    Except PaillierError EncryptedNumber := do
  let encoding ←
    match value with
    | .encoded v => pure v
    | .float64 _ | .int64 _ => EncodedNumber.Encode rt p value precision MaxExponentUnused
    | _ => throw PaillierError.badArgumentType
  p.EncryptEncoded encoding rValue randValue

/-- Go `(*PaillierPrivateKey).DecryptEncoded`. -/
def PaillierPrivateKey.DecryptEncoded (pr : PaillierPrivateKey)
    (encryptedNumber : EncryptedNumber) : Except PaillierError EncodedNumber := do
  if !pr.publicKey.Equal encryptedNumber.PublicKey then throw PaillierError.keyMismatch
  let (c, _) ← encryptedNumber.Ciphertext false 0
  let encoded ← pr.RawDecrypt c
  pure (EncodedNumber.Init pr.publicKey encoded encryptedNumber.Exponent)

/-- Go `(*PaillierPrivateKey).Decrypt`. -/
def PaillierPrivateKey.Decrypt (pr : PaillierPrivateKey) (encryptedNumber : EncryptedNumber) :
    Except PaillierError Float64 := do
  let encoded ← pr.DecryptEncoded encryptedNumber
  encoded.Decode

/-! ## keys.go, key generation from a source of primes -/

/-- The variables of the loop of `GeneratePaillierKeypair`: `nLen`, the possibly nil
`n`, `p`, `q`, and the number of calls of `rand.Prime` made so far. -/
structure KeygenState where
  nLen : Int
  n : Option Int
  p : Option Int
  q : Option Int
  calls : Nat
  deriving DecidableEq, Repr

/-- The inner loop `for q == nil || q.Cmp(p) == 0` of `GeneratePaillierKeypair`, each pass
assigning to `q` the next outcome of `rand.Prime`. `primes i` is the outcome of call
number `i` (`none` for an error, which leaves a nil prime). Returns `q` and the number of
calls made, `none` when `fuel` passes do not end the loop. -/
def drawOtherPrime (primes : Nat → Option Int) (p : Int) :
    Nat → Nat → Option Int → Option (Int × Nat)
  | 0, _, _ => none
  | fuel + 1, calls, q =>
    match q with
    | some v =>
      if v = p then drawOtherPrime primes p fuel (calls + 1) (primes calls)
      else some (v, calls)
    | none => drawOtherPrime primes p fuel (calls + 1) (primes calls)

/-- One pass through the body of the loop `for nLen != NLength` of
`GeneratePaillierKeypair`: `p` is drawn, `q` is left to the inner loop, and the product and
its bit length are stored. A failed draw of `p` ends the pass at once (`continue`). `none`
when the inner loop needs more than `fuel` passes. -/
def keypairPass (primes : Nat → Option Int) (fuel : Nat) (s : KeygenState) :
    Option KeygenState :=
  match primes s.calls with
  | none => some { s with p := none, calls := s.calls + 1 }
  | some p =>
    match drawOtherPrime primes p fuel (s.calls + 1) s.q with
    | none => none
    | some (q, calls) =>
      let n := p * q
      some { nLen := (bitLen n.natAbs : Int), n := some n, p := some p, q := some q,
             calls := calls }

/-- The loop `for nLen != NLength` of `GeneratePaillierKeypair`: `p` is drawn on every
pass, `q` only by the inner loop. `none` when `fuel` passes do not end the loop. -/
def keypairLoop (primes : Nat → Option Int) (NLength : Int) :
    Nat → KeygenState → Option KeygenState
  | 0, _ => none
  | fuel + 1, s =>
    if s.nLen ≠ NLength then
      match keypairPass primes fuel s with
      | none => none
      | some next => keypairLoop primes NLength fuel next
    else some s

/-- Go `GeneratePaillierKeypair`, with the outcomes of `rand.Prime` given by `primes` and
the address `nAddr` of the modulus. `none` when the loops need more than `fuel` passes. -/
def GeneratePaillierKeypair (primes : Nat → Option Int) (nAddr : Nat) (NLength : Int)
    (fuel : Nat) : Option (Except PaillierError (PaillierPublicKey × PaillierPrivateKey)) :=
  match keypairLoop primes NLength fuel
      { nLen := 0, n := none, p := none, q := none, calls := 0 } with
  | none => none
  | some s => some (do
      let n ← deref s.n
      let publicKey := PaillierPublicKey.Init nAddr n
      let p ← deref s.p
      let q ← deref s.q
      let privateKey ← PaillierPrivateKey.Init publicKey p q
      pure (publicKey, privateKey))

/-! ## Specification vocabulary -/

/-- What the outer loop of `GeneratePaillierKeypair` keeps true once a modulus of the
requested length is stored. -/
def KeygenState.Settled (s : KeygenState) : Prop :=
  ∀ n, s.n = some n → ∃ p q, s.p = some p ∧ s.q = some q ∧ n = p * q ∧ p ≠ q ∧
    s.nLen = (bitLen n.natAbs : Int)

/-- The integers that Go `crypto/rand.Prime (bits)` can return: `bits` bits long with the
two top bits set. -/
def HasTopTwoBits (bits : Nat) (v : Int) : Prop :=
  3 * 2 ^ (bits - 2) ≤ v ∧ v < 2 ^ bits

/-- The signed mantissa an in-envelope encoding stands for: `e` itself in `[0, max_int]`,
`e - N` in `[N - max_int, N)`, none elsewhere. -/
def signedMantissa (pk : PaillierPublicKey) (e : Int) : Option Int :=
  if 0 ≤ e ∧ e ≤ pk.maxInt then some e
  else if pk.n - pk.maxInt ≤ e ∧ e < pk.n then some (e - pk.n)
  else none

/-- The integer `c` is a Paillier ciphertext of `m` under the modulus `n`: it is
`(1 + n * m) * w ^ n` modulo `n * n` for some `w` coprime to `n`. -/
def IsCiphertextOf (n c m : Int) : Prop :=
  ∃ w : Int, IsCoprime w n ∧ c ≡ (1 + n * m) * w ^ n.toNat [ZMOD n * n]

/-- The private key `pr` holds the primes `P` and `Q` in this order, their squares, and
the three inverses `RawDecrypt` relies on. -/
def PaillierPrivateKey.HoldsPrimes (pr : PaillierPrivateKey) (P Q : Nat) : Prop :=
  P.Prime ∧ Q.Prime ∧ P ≠ Q ∧
  pr.p = (P : Int) ∧ pr.q = (Q : Int) ∧
  pr.psquare = (P : Int) * (P : Int) ∧ pr.qsquare = (Q : Int) * (Q : Int) ∧
  (∃ pinv, pr.pInverse = some pinv ∧ (P : Int) * pinv ≡ 1 [ZMOD (Q : Int)]) ∧
  (∃ h, pr.hp = some h ∧ (((P : Int) - 1) * (Q : Int)) * h ≡ 1 [ZMOD (P : Int)]) ∧
  (∃ h, pr.hq = some h ∧ (((Q : Int) - 1) * (P : Int)) * h ≡ 1 [ZMOD (Q : Int)])

/-- Specification: the textbook Paillier encryption `g ^ m * r ^ N mod N ^ 2` with
`g = N + 1`. -/
def textbookEncrypt (N m r : Int) : Int :=
  (N + 1) ^ m.toNat * r ^ N.toNat % (N * N)

/-- A finite sequence of `Obfuscate` calls on one number, one draw per call. -/
def obfuscateMany (n : EncryptedNumber) : List Int → Except PaillierError EncryptedNumber
  | [] => pure n
  | d :: ds => do
    let n1 ← n.Obfuscate d
    obfuscateMany n1 ds

/-! ## The math/big facade meets its contract -/

theorem xgcdLoop_spec (g n : Int) :
    ∀ (fuel r0 r1 : Nat) (t0 t1 : Int), r1 < fuel →
      t0 * g ≡ (r0 : Int) [ZMOD n] → t1 * g ≡ (r1 : Int) [ZMOD n] →
      (xgcdLoop fuel r0 r1 t0 t1).1 = Nat.gcd r0 r1 ∧
      (xgcdLoop fuel r0 r1 t0 t1).2 * g ≡ ((xgcdLoop fuel r0 r1 t0 t1).1 : Int) [ZMOD n] := by
  intro fuel
  induction fuel with
  | zero => intro r0 r1 t0 t1 h; omega
  | succ k ih =>
    intro r0 r1 t0 t1 hlt h0 h1
    by_cases hr : r1 = 0
    · subst hr
      simp [xgcdLoop, h0]
    · have hpos : 0 < r1 := Nat.pos_of_ne_zero hr
      have hlt2 : r0 % r1 < k := by
        have := Nat.mod_lt r0 hpos
        omega
      have h2 : (t0 - ((r0 / r1 : Nat) : Int) * t1) * g ≡ ((r0 % r1 : Nat) : Int) [ZMOD n] := by
        have e1 : ((r0 % r1 : Nat) : Int) = (r0 : Int) - ((r0 / r1 : Nat) : Int) * (r1 : Int) := by
          have := Nat.div_add_mod r0 r1
          have h3 : ((r1 * (r0 / r1) + r0 % r1 : Nat) : Int) = (r0 : Int) := by rw [this]
          push_cast at h3 ⊢
          linarith
        rw [e1]
        have e2 : (t0 - ((r0 / r1 : Nat) : Int) * t1) * g
            = t0 * g - ((r0 / r1 : Nat) : Int) * (t1 * g) := by ring
        rw [e2]
        exact h0.sub (h1.mul_left _)
      obtain ⟨ha, hb⟩ := ih r1 (r0 % r1) t1 (t0 - ((r0 / r1 : Nat) : Int) * t1) hlt2 h1 h2
      simp only [xgcdLoop, hr, if_false]
      refine ⟨?_, hb⟩
      rw [ha, Nat.gcd_comm r0 r1, Nat.gcd_rec r1 r0, Nat.gcd_comm]

theorem ModInverse_some {g n x : Int} (h : ModInverse g n = some x) :
    0 ≤ x ∧ x < |n| ∧ g * x ≡ 1 [ZMOD n] := by
  unfold ModInverse at h
  by_cases hn : n = 0
  · simp [hn] at h
  · simp only [hn, if_false] at h
    by_cases hd : (xgcdLoop (n.natAbs + 1) n.natAbs (g % n).toNat 0 1).1 = 1
    · simp only [hd, if_true, Option.some.injEq] at h
      have hnn : 0 ≤ g % n := Int.emod_nonneg _ hn
      have hlt : g % n < |n| := Int.emod_lt _ hn
      have hr1 : (((g % n).toNat : Nat) : Int) = g % n := Int.toNat_of_nonneg hnn
      have hr1lt : (g % n).toNat < n.natAbs + 1 := by
        have : ((n.natAbs : Nat) : Int) = |n| := Int.natCast_natAbs n
        omega
      have h0 : (0 : Int) * g ≡ ((n.natAbs : Nat) : Int) [ZMOD n] := by
        rw [Int.natCast_natAbs, zero_mul]
        apply Int.ModEq.symm
        rw [Int.modEq_zero_iff_dvd]
        exact (dvd_abs n n).mpr dvd_rfl
      have h1 : (1 : Int) * g ≡ (((g % n).toNat : Nat) : Int) [ZMOD n] := by
        rw [hr1, one_mul]
        exact (Int.mod_modEq g n).symm
      obtain ⟨_, hb⟩ := xgcdLoop_spec g n _ _ _ 0 1 hr1lt h0 h1
      rw [hd] at hb
      subst h
      refine ⟨Int.emod_nonneg _ hn, Int.emod_lt _ hn, ?_⟩
      have : (xgcdLoop (n.natAbs + 1) n.natAbs (g % n).toNat 0 1).2 % n * g ≡ 1 [ZMOD n] :=
        ((Int.mod_modEq _ n).mul_right g).trans (by simpa using hb)
      rw [mul_comm]
      exact this
    · simp [hd] at h

theorem ModInverse_eq_of_modEq {g n y : Int} (hn : n ≠ 0) (h : g * y ≡ 1 [ZMOD n]) :
    ModInverse g n = some (y % n) := by
  have hnn : 0 ≤ g % n := Int.emod_nonneg _ hn
  have hlt : g % n < |n| := Int.emod_lt _ hn
  have hr1 : (((g % n).toNat : Nat) : Int) = g % n := Int.toNat_of_nonneg hnn
  have hr1lt : (g % n).toNat < n.natAbs + 1 := by
    have : ((n.natAbs : Nat) : Int) = |n| := Int.natCast_natAbs n
    omega
  have h0 : (0 : Int) * g ≡ ((n.natAbs : Nat) : Int) [ZMOD n] := by
    rw [Int.natCast_natAbs, zero_mul]
    apply Int.ModEq.symm
    rw [Int.modEq_zero_iff_dvd]
    exact (dvd_abs n n).mpr dvd_rfl
  have h1 : (1 : Int) * g ≡ (((g % n).toNat : Nat) : Int) [ZMOD n] := by
    rw [hr1, one_mul]
    exact (Int.mod_modEq g n).symm
  obtain ⟨ha, hb⟩ := xgcdLoop_spec g n _ _ _ 0 1 hr1lt h0 h1
  -- the gcd is one
  have hg : Nat.gcd n.natAbs (g % n).toNat = 1 := by
    have hdvd : ((Nat.gcd n.natAbs (g % n).toNat : Nat) : Int) ∣ 1 := by
      have d1 : ((Nat.gcd n.natAbs (g % n).toNat : Nat) : Int) ∣ n := by
        have := Nat.gcd_dvd_left n.natAbs (g % n).toNat
        exact Int.natCast_dvd.mpr this
      have d2 : ((Nat.gcd n.natAbs (g % n).toNat : Nat) : Int) ∣ g % n := by
        have := Nat.gcd_dvd_right n.natAbs (g % n).toNat
        have h3 := Int.natCast_dvd_natCast.mpr this
        rwa [hr1] at h3
      have d3 : ((Nat.gcd n.natAbs (g % n).toNat : Nat) : Int) ∣ g := by
        have e := Int.emod_add_ediv g n
        have d6 := dvd_add d2 (Dvd.dvd.mul_right d1 (g / n))
        rwa [e] at d6
      have d4 : ((Nat.gcd n.natAbs (g % n).toNat : Nat) : Int) ∣ g * y - 1 := by
        have := (Int.modEq_iff_dvd.mp h.symm)
        exact dvd_trans d1 this
      have d5 : ((Nat.gcd n.natAbs (g % n).toNat : Nat) : Int) ∣ g * y := Dvd.dvd.mul_right d3 _
      have := dvd_sub d5 d4
      simpa using this
    have : (Nat.gcd n.natAbs (g % n).toNat) ∣ 1 := by exact_mod_cast hdvd
    exact Nat.dvd_one.mp this
  rw [hg] at ha
  rw [ha] at hb
  unfold ModInverse
  simp only [hn, if_false, ha, if_true]
  congr 1
  have e1 : (xgcdLoop (n.natAbs + 1) n.natAbs (g % n).toNat 0 1).2 ≡ y [ZMOD n] := by
    have s1 := hb.mul_right y
    have s2 := h.mul_left (xgcdLoop (n.natAbs + 1) n.natAbs (g % n).toNat 0 1).2
    simp only [Nat.cast_one, one_mul, mul_one] at s1 s2
    rw [mul_assoc] at s1
    exact s2.symm.trans s1
  exact e1

theorem powModLoop_spec (m : Int) :
    ∀ (fuel : Nat) (b : Int) (e : Nat) (acc : Int), e ≤ fuel → acc % m = acc →
      powModLoop m fuel b e acc = acc * b ^ e % m := by
  intro fuel
  induction fuel with
  | zero =>
    intro b e acc he hacc
    have : e = 0 := by omega
    subst this
    simp [powModLoop, hacc]
  | succ k ih =>
    intro b e acc he hacc
    by_cases h0 : e = 0
    · subst h0
      simp [powModLoop, hacc]
    · have hk : e / 2 ≤ k := by omega
      simp only [powModLoop, h0, if_false]
      by_cases hodd : e % 2 = 1
      · simp only [hodd, if_true]
        rw [ih _ _ _ hk (Int.emod_emod_of_dvd _ dvd_rfl)]
        have he2 : e = 2 * (e / 2) + 1 := by omega
        conv_rhs => rw [he2]
        apply Int.ModEq.eq
        have : acc * b ^ (2 * (e / 2) + 1) = (acc * b) * (b * b) ^ (e / 2) := by
          rw [pow_succ, pow_mul, ← sq]; ring
        rw [this]
        exact ((Int.mod_modEq _ m).mul ((Int.mod_modEq _ m).pow _))
      · simp only [hodd, if_false]
        rw [ih _ _ _ hk hacc]
        have he2 : e = 2 * (e / 2) := by omega
        conv_rhs => rw [he2]
        apply Int.ModEq.eq
        rw [pow_mul, ← sq]
        exact (Int.ModEq.refl acc).mul ((Int.mod_modEq _ m).pow _)

theorem Exp_of_nonneg {x y m : Int} (hy : 0 ≤ y) (hm : m ≠ 0) :
    Exp x y m = some (x ^ y.toNat % m) := by
  unfold Exp
  have : ¬ y < 0 := by omega
  simp only [this, if_false, hm]
  rw [powModLoop_spec m _ _ _ _ le_rfl (Int.emod_emod_of_dvd _ dvd_rfl)]
  congr 1
  apply Int.ModEq.eq
  have := (Int.mod_modEq 1 m).mul_right (x ^ y.toNat)
  simpa using this

/-! ## Number theory behind the scheme -/

theorem one_add_mul_pow (n t : Int) (k : Nat) :
    (1 + n * t) ^ k ≡ 1 + n * ((k : Int) * t) [ZMOD n * n] := by
  induction k with
  | zero => simp
  | succ k ih =>
    rw [pow_succ]
    have h1 := ih.mul_right (1 + n * t)
    refine h1.trans ?_
    apply Int.modEq_iff_dvd.mpr
    refine ⟨-((k : Int) * t * t), ?_⟩
    push_cast
    ring

theorem one_add_mul_emod (p t : Int) (hp : 2 ≤ p) :
    (1 + p * t) % (p * p) = 1 + p * (t % p) := by
  have hsplit : 1 + p * t = (1 + p * (t % p)) + (p * p) * (t / p) := by
    have := Int.emod_add_ediv t p
    calc 1 + p * t = 1 + p * (t % p + p * (t / p)) := by rw [this]
      _ = (1 + p * (t % p)) + (p * p) * (t / p) := by ring
  rw [hsplit, Int.add_mul_emod_self_left]
  have h0 : 0 ≤ t % p := Int.emod_nonneg _ (by omega)
  have h1 : t % p < p := Int.emod_lt_of_pos _ (by omega)
  apply Int.emod_eq_of_lt
  · positivity
  · nlinarith

theorem LFunction_of_modEq (p t x : Int) (hp : 2 ≤ p)
    (hx : x ≡ 1 + p * t [ZMOD p * p]) :
    PaillierPrivateKey.LFunction (x % (p * p)) p = .ok (t % p) := by
  have h1 : x % (p * p) = 1 + p * (t % p) := by
    rw [← one_add_mul_emod p t hp]
    exact hx
  have hp0 : p ≠ 0 := by omega
  simp only [PaillierPrivateKey.LFunction, bigDiv, hp0, if_false, h1]
  congr 1
  have : 1 + p * (t % p) - 1 = p * (t % p) := by ring
  rw [this, Int.mul_ediv_cancel_left _ hp0]

theorem pow_totient_sq (u : Int) (P : Nat) (hP : P.Prime) (h : IsCoprime u (P : Int)) :
    u ^ (P * (P - 1)) ≡ 1 [ZMOD (P : Int) * (P : Int)] := by
  have hcop : IsCoprime u ((P : Int) * (P : Int)) := IsCoprime.mul_right h h
  obtain ⟨a, b, hab⟩ := hcop
  have hz : ((u : ZMod (P * P))) * (a : ZMod (P * P)) = 1 := by
    have := congrArg (fun z : Int => (z : ZMod (P * P))) hab
    simp only [Int.cast_add, Int.cast_mul, Int.cast_one, Int.cast_natCast] at this
    have hzero : ((P : ZMod (P * P)) * (P : ZMod (P * P))) = 0 := by
      rw [← Nat.cast_mul]; exact ZMod.natCast_self (P * P)
    rw [hzero, mul_zero, add_zero] at this
    rw [← this]; ring
  have hunit : IsUnit (u : ZMod (P * P)) := isUnit_of_mul_eq_one _ _ hz
  obtain ⟨x, hx⟩ := hunit
  have hphi : Nat.totient (P * P) = P * (P - 1) := by
    have := Nat.totient_prime_pow hP (n := 2) (by norm_num)
    rw [sq] at this
    simpa using this
  have hpow := ZMod.pow_totient x
  rw [hphi] at hpow
  have h2 : ((u : ZMod (P * P))) ^ (P * (P - 1)) = 1 := by
    rw [← hx, ← Units.val_pow_eq_pow_val, hpow]; rfl
  have h3 : ((u ^ (P * (P - 1)) : Int) : ZMod (P * P)) = ((1 : Int) : ZMod (P * P)) := by
    push_cast; exact h2
  have := (ZMod.intCast_eq_intCast_iff _ _ _).mp h3
  simpa using this

theorem crt_recompose (P Q m pinv : Int) (hP : 0 < P) (hQ : 0 < Q)
    (hcop : Nat.Coprime P.natAbs Q.natAbs) (hinv : P * pinv ≡ 1 [ZMOD Q]) :
    m % P + ((m % Q - m % P) * pinv) % Q * P = m % (P * Q) := by
  set u := ((m % Q - m % P) * pinv) % Q with hu
  have hu0 : 0 ≤ u := Int.emod_nonneg _ (by omega)
  have hu1 : u < Q := Int.emod_lt_of_pos _ hQ
  have hm0 : 0 ≤ m % P := Int.emod_nonneg _ (by omega)
  have hm1 : m % P < P := Int.emod_lt_of_pos _ hP
  have hmodP : m % P + u * P ≡ m [ZMOD P] := by
    have : m % P + u * P ≡ m % P + 0 [ZMOD P] := by
      apply Int.ModEq.add_left
      apply Int.modEq_zero_iff_dvd.mpr
      exact Dvd.intro_left u rfl
    rw [add_zero] at this
    exact this.trans (Int.mod_modEq m P)
  have hmodQ : m % P + u * P ≡ m [ZMOD Q] := by
    have h1 : u ≡ (m % Q - m % P) * pinv [ZMOD Q] := Int.mod_modEq _ _
    have h2 : u * P ≡ (m % Q - m % P) * pinv * P [ZMOD Q] := h1.mul_right P
    have h3 : (m % Q - m % P) * pinv * P ≡ (m % Q - m % P) * 1 [ZMOD Q] := by
      rw [mul_assoc]
      apply Int.ModEq.mul_left
      rw [mul_comm]; exact hinv
    have h4 : m % P + u * P ≡ m % P + (m % Q - m % P) * 1 [ZMOD Q] :=
      Int.ModEq.add_left _ (h2.trans h3)
    have h5 : m % P + (m % Q - m % P) * 1 = m % Q := by ring
    rw [h5] at h4
    exact h4.trans (Int.mod_modEq m Q)
  have hmod : m % P + u * P ≡ m [ZMOD P * Q] :=
    (Int.modEq_and_modEq_iff_modEq_mul hcop).mp ⟨hmodP, hmodQ⟩
  have hlt : m % P + u * P < P * Q := by nlinarith
  have hge : 0 ≤ m % P + u * P := by positivity
  rw [← Int.emod_eq_of_lt hge hlt]
  exact hmod

/-! ## Key generation and raw decryption -/

theorem prime_coprime_cast {P Q : Nat} (hP : P.Prime) (hQ : Q.Prime) (h : P ≠ Q) :
    IsCoprime (P : Int) (Q : Int) :=
  Nat.isCoprime_iff_coprime.mpr ((Nat.coprime_primes hP hQ).mpr h)

theorem HFunction_spec (pk : PaillierPublicKey) (P Q : Nat) (hP : P.Prime) (hQ : Q.Prime)
    (hne : P ≠ Q) (hg : pk.g = 1 + (P : Int) * (Q : Int)) :
    ∃ h, PaillierPrivateKey.HFunction pk P ((P : Int) * P) = .ok (some h) ∧
      (((P : Int) - 1) * (Q : Int)) * h ≡ 1 [ZMOD (P : Int)] := by
  have hP2 : (2 : Int) ≤ P := by exact_mod_cast hP.two_le
  have hPP : (P : Int) * P ≠ 0 := by positivity
  have hexp : Exp pk.g ((P : Int) - 1) ((P : Int) * P)
      = some (pk.g ^ ((P : Int) - 1).toNat % ((P : Int) * P)) :=
    Exp_of_nonneg (by omega) hPP
  have hk : ((((P : Int) - 1).toNat : Nat) : Int) = (P : Int) - 1 :=
    Int.toNat_of_nonneg (by omega)
  have hmod : pk.g ^ ((P : Int) - 1).toNat
      ≡ 1 + (P : Int) * (((P : Int) - 1) * Q) [ZMOD (P : Int) * P] := by
    rw [hg]
    have := one_add_mul_pow (P : Int) Q ((P : Int) - 1).toNat
    rwa [hk] at this
  have hL := LFunction_of_modEq (P : Int) (((P : Int) - 1) * Q) _ hP2 hmod
  have hcop : IsCoprime (((P : Int) - 1) * Q) (P : Int) := by
    apply IsCoprime.mul_left
    · exact ⟨-1, 1, by ring⟩
    · exact (prime_coprime_cast hP hQ hne).symm
  obtain ⟨a, b, hab⟩ := hcop
  have hinv : ((((P : Int) - 1) * Q) % P) * a ≡ 1 [ZMOD (P : Int)] := by
    have h1 : ((((P : Int) - 1) * Q) % P) * a ≡ (((P : Int) - 1) * Q) * a [ZMOD (P : Int)] :=
      (Int.mod_modEq _ _).mul_right a
    refine h1.trans ?_
    apply Int.modEq_iff_dvd.mpr
    exact ⟨b, by linarith⟩
  have hMI := ModInverse_eq_of_modEq (by omega : (P : Int) ≠ 0) hinv
  refine ⟨a % P, ?_, ?_⟩
  · simp only [PaillierPrivateKey.HFunction, hexp, deref, hL, hMI, bind, Except.bind, pure,
      Except.pure]
  · have h2 : (((P : Int) - 1) * Q) * (a % P) ≡ (((P : Int) - 1) * Q) * a [ZMOD (P : Int)] :=
      (Int.mod_modEq _ _).mul_left _
    refine h2.trans ?_
    apply Int.modEq_iff_dvd.mpr
    exact ⟨b, by linarith⟩

theorem ModInverse_of_isCoprime {g n : Int} (hn : n ≠ 0) (h : IsCoprime g n) :
    ∃ x, ModInverse g n = some x ∧ g * x ≡ 1 [ZMOD n] := by
  obtain ⟨a, b, hab⟩ := h
  have hinv : g * a ≡ 1 [ZMOD n] := by
    apply Int.modEq_iff_dvd.mpr
    exact ⟨b, by linarith⟩
  refine ⟨a % n, ModInverse_eq_of_modEq hn hinv, ?_⟩
  exact ((Int.mod_modEq a n).mul_left g).trans hinv

theorem PrivateKey_Init_sorted (pk : PaillierPublicKey) (P Q : Nat) (hP : P.Prime)
    (hQ : Q.Prime) (hlt : P < Q) (hn : pk.n = (P : Int) * Q) (hg : pk.g = 1 + (P : Int) * Q)
    (a b : Int) (hab : (a = P ∧ b = Q) ∨ (a = Q ∧ b = P)) :
    ∃ sk, PaillierPrivateKey.Init pk a b = .ok sk ∧ sk.publicKey = pk ∧
      sk.HoldsPrimes P Q := by
  have hne : P ≠ Q := Nat.ne_of_lt hlt
  have hltz : (P : Int) < Q := by exact_mod_cast hlt
  have hprod : a * b = pk.n := by
    rcases hab with ⟨h1, h2⟩ | ⟨h1, h2⟩ <;> rw [h1, h2, hn]
    ring
  have hneq : a ≠ b := by
    rcases hab with ⟨h1, h2⟩ | ⟨h1, h2⟩ <;> rw [h1, h2] <;> omega
  have hp1 : (if a > b then b else a) = (P : Int) := by
    rcases hab with ⟨h1, h2⟩ | ⟨h1, h2⟩ <;> rw [h1, h2]
    · rw [if_neg (by omega)]
    · rw [if_pos (by omega)]
  have hq1 : (if a > b then a else b) = (Q : Int) := by
    rcases hab with ⟨h1, h2⟩ | ⟨h1, h2⟩ <;> rw [h1, h2]
    · rw [if_neg (by omega)]
    · rw [if_pos (by omega)]
  obtain ⟨h1, hh1, hh1m⟩ := HFunction_spec pk P Q hP hQ hne hg
  obtain ⟨h2, hh2, hh2m⟩ := HFunction_spec pk Q P hQ hP (Ne.symm hne)
    (by rw [hg]; ring)
  have hQ0 : (Q : Int) ≠ 0 := by
    have := hQ.pos
    omega
  obtain ⟨pinv, hpinv, hpinvm⟩ := ModInverse_of_isCoprime hQ0 (prime_coprime_cast hP hQ hne)
  refine ⟨{ publicKey := pk, p := P, q := Q, psquare := (P : Int) * P, qsquare := (Q : Int) * Q,
            pInverse := some pinv, hp := some h1, hq := some h2 }, ?_, rfl, ?_⟩
  · unfold PaillierPrivateKey.Init
    rw [if_neg (not_not.mpr hprod), if_neg hneq]
    simp only [hp1, hq1, hh1, hh2, hpinv, bind, Except.bind, pure, Except.pure]
  · exact ⟨hP, hQ, hne, rfl, rfl, rfl, rfl, ⟨pinv, rfl, hpinvm⟩, ⟨h1, rfl, hh1m⟩,
      ⟨h2, rfl, hh2m⟩⟩

theorem keypair_spec (addr : Nat) (p q : Nat) (hp : p.Prime) (hq : q.Prime) (hne : p ≠ q) :
    ∃ sk P Q, GeneratePaillierKeypairByPQ addr p q
        = .ok (PaillierPublicKey.Init addr ((p : Int) * q), sk) ∧
      sk.publicKey = PaillierPublicKey.Init addr ((p : Int) * q) ∧
      sk.HoldsPrimes P Q ∧ (P : Int) * Q = (p : Int) * q := by
  rcases Nat.lt_or_gt_of_ne hne with hlt | hgt
  · obtain ⟨sk, hsk, hpub, hold⟩ := PrivateKey_Init_sorted
      (PaillierPublicKey.Init addr ((p : Int) * q)) p q hp hq hlt rfl
      (by simp only [PaillierPublicKey.Init]; ring) p q (Or.inl ⟨rfl, rfl⟩)
    refine ⟨sk, p, q, ?_, hpub, hold, rfl⟩
    simp only [GeneratePaillierKeypairByPQ, hsk, bind, Except.bind, pure, Except.pure]
  · obtain ⟨sk, hsk, hpub, hold⟩ := PrivateKey_Init_sorted
      (PaillierPublicKey.Init addr ((p : Int) * q)) q p hq hp hgt
      (by simp only [PaillierPublicKey.Init]; ring)
      (by simp only [PaillierPublicKey.Init]; ring) p q (Or.inr ⟨rfl, rfl⟩)
    refine ⟨sk, q, p, ?_, hpub, hold, by ring⟩
    simp only [GeneratePaillierKeypairByPQ, hsk, bind, Except.bind, pure, Except.pure]

theorem blinding_pow_pred (P Q : Nat) (hP : P.Prime) (w : Int) (hw : IsCoprime w (P : Int)) :
    (w ^ (P * Q)) ^ (P - 1) ≡ 1 [ZMOD (P : Int) * P] := by
  have e : (w ^ (P * Q)) ^ (P - 1) = (w ^ (P * (P - 1))) ^ Q := by
    rw [← pow_mul, ← pow_mul]
    congr 1
    ring
  rw [e]
  have := (pow_totient_sq w P hP hw).pow Q
  simpa using this

theorem toNat_cast_mul (P Q : Nat) : ((P : Int) * Q).toNat = P * Q := by
  have : ((P : Int) * Q) = ((P * Q : Nat) : Int) := by push_cast; rfl
  rw [this, Int.toNat_natCast]

theorem pow_pred_of_ciphertext (P Q : Nat) (hP : P.Prime) (c m : Int)
    (hc : IsCiphertextOf ((P : Int) * Q) c m) :
    c ^ ((P : Int) - 1).toNat ≡ 1 + (P : Int) * (((P : Int) - 1) * (Q * m))
      [ZMOD (P : Int) * P] := by
  obtain ⟨w, hw, hcw⟩ := hc
  have hP1 : 1 ≤ P := hP.one_le
  have hkn : ((P : Int) - 1).toNat = P - 1 := by omega
  have hdvd : (P : Int) * P ∣ ((P : Int) * Q) * ((P : Int) * Q) :=
    ⟨(Q : Int) * Q, by ring⟩
  have hc2 : c ≡ (1 + (P : Int) * Q * m) * w ^ (P * Q) [ZMOD (P : Int) * P] := by
    rw [toNat_cast_mul] at hcw
    exact Int.ModEq.of_dvd hdvd hcw
  have hw1 := blinding_pow_pred P Q hP w (IsCoprime.of_mul_right_left hw)
  have h1 : (1 + (P : Int) * Q * m) ^ (P - 1)
      ≡ 1 + (P : Int) * (((P : Int) - 1) * (Q * m)) [ZMOD (P : Int) * P] := by
    have := one_add_mul_pow (P : Int) (Q * m) (P - 1)
    have e : (((P - 1 : Nat)) : Int) = (P : Int) - 1 := by omega
    rw [e] at this
    have e2 : (1 + (P : Int) * Q * m) = 1 + (P : Int) * (Q * m) := by ring
    rw [e2]
    exact this
  rw [hkn]
  have h3 := hc2.pow (P - 1)
  rw [mul_pow] at h3
  refine h3.trans ?_
  have := h1.mul hw1
  rwa [mul_one] at this

theorem decrypt_component (P Q m h : Int)
    (hh : ((P - 1) * Q) * h ≡ 1 [ZMOD P]) :
    ((P - 1) * (Q * m)) % P * h % P = m % P := by
  apply Int.ModEq.eq
  have a1 : ((P - 1) * (Q * m)) % P * h ≡ ((P - 1) * (Q * m)) * h [ZMOD P] :=
    (Int.mod_modEq _ _).mul_right _
  have a2 : ((P - 1) * (Q * m)) * h = m * (((P - 1) * Q) * h) := by ring
  have a3 : m * (((P - 1) * Q) * h) ≡ m * 1 [ZMOD P] := hh.mul_left m
  rw [a2] at a1
  rw [mul_one] at a3
  exact a1.trans a3

theorem RawDecrypt_of_ciphertext (sk : PaillierPrivateKey) (P Q : Nat)
    (hk : sk.HoldsPrimes P Q) (c m : Int) (hc : IsCiphertextOf ((P : Int) * Q) c m) :
    sk.RawDecrypt c = .ok (m % ((P : Int) * Q)) := by
  obtain ⟨hP, hQ, hne, hp, hq, hps, hqs, ⟨pinv, hpi, hpim⟩, ⟨h1, hh1, hh1m⟩,
    ⟨h2, hh2, hh2m⟩⟩ := hk
  have hcQ : IsCiphertextOf ((Q : Int) * P) c m := by
    rw [mul_comm (Q : Int) (P : Int)]
    exact hc
  have e1 := pow_pred_of_ciphertext P Q hP c m hc
  have e2 := pow_pred_of_ciphertext Q P hQ c m hcQ
  have hP2 : (2 : Int) ≤ P := by exact_mod_cast hP.two_le
  have hQ2 : (2 : Int) ≤ Q := by exact_mod_cast hQ.two_le
  have hP0 : (P : Int) ≠ 0 := by omega
  have hQ0 : (Q : Int) ≠ 0 := by omega
  have hexpP : Exp c (sk.p - 1) sk.psquare
      = some (c ^ ((P : Int) - 1).toNat % ((P : Int) * P)) := by
    rw [hp, hps]
    exact Exp_of_nonneg (by omega) (by positivity)
  have hexpQ : Exp c (sk.q - 1) sk.qsquare
      = some (c ^ ((Q : Int) - 1).toNat % ((Q : Int) * Q)) := by
    rw [hq, hqs]
    exact Exp_of_nonneg (by omega) (by positivity)
  have hLP := LFunction_of_modEq (P : Int) (((P : Int) - 1) * (Q * m)) _ hP2 e1
  have hLQ := LFunction_of_modEq (Q : Int) (((Q : Int) - 1) * (P * m)) _ hQ2 e2
  have hmp := decrypt_component (P : Int) Q m h1 hh1m
  have hmq := decrypt_component (Q : Int) P m h2 hh2m
  have hcop : Nat.Coprime (P : Int).natAbs (Q : Int).natAbs := by
    simpa using (Nat.coprime_primes hP hQ).mpr hne
  have hcrt := crt_recompose (P : Int) Q m pinv (by omega) (by omega) hcop hpim
  unfold PaillierPrivateKey.RawDecrypt PaillierPrivateKey.Crt
  rw [hexpP, hexpQ]
  simp only [deref, bind, Except.bind, hp, hq, hLP, hLQ, hh1, hh2, hpi, bigMod, hP0, hQ0,
    if_false, hmp, hmq, pure, Except.pure, hcrt]

theorem Exp_blinded (P Q : Nat) (hP : P.Prime) (c r : Int) (hr : IsCoprime r (P : Int)) :
    Exp (c * (r ^ (P * Q) % ((P : Int) * Q * ((P : Int) * Q))) % ((P : Int) * Q * ((P : Int) * Q)))
        ((P : Int) - 1) ((P : Int) * P)
      = Exp c ((P : Int) - 1) ((P : Int) * P) := by
  have hP1 : 1 ≤ P := hP.one_le
  have hPP : (P : Int) * P ≠ 0 := by
    have : (P : Int) ≠ 0 := by omega
    exact mul_ne_zero this this
  rw [Exp_of_nonneg (by omega) hPP, Exp_of_nonneg (by omega) hPP]
  congr 1
  have hkn : ((P : Int) - 1).toNat = P - 1 := by omega
  rw [hkn]
  have hdvd : (P : Int) * P ∣ ((P : Int) * Q) * ((P : Int) * Q) :=
    ⟨(Q : Int) * Q, by ring⟩
  have h1 : c * (r ^ (P * Q) % ((P : Int) * Q * ((P : Int) * Q))) % ((P : Int) * Q * ((P : Int) * Q))
      ≡ c * r ^ (P * Q) [ZMOD (P : Int) * P] :=
    Int.ModEq.of_dvd hdvd ((Int.mod_modEq _ _).trans ((Int.mod_modEq _ _).mul_left c))
  have h2 := h1.pow (P - 1)
  rw [mul_pow] at h2
  have h3 := (blinding_pow_pred P Q hP r hr).mul_left (c ^ (P - 1))
  rw [mul_one] at h3
  exact h2.trans h3

theorem RawDecrypt_blinded (sk : PaillierPrivateKey) (P Q : Nat) (hk : sk.HoldsPrimes P Q)
    (c r : Int) (hr : IsCoprime r ((P : Int) * Q)) :
    sk.RawDecrypt (c * (r ^ (P * Q) % ((P : Int) * Q * ((P : Int) * Q)))
        % ((P : Int) * Q * ((P : Int) * Q)))
      = sk.RawDecrypt c := by
  obtain ⟨hP, hQ, _, hp, hq, hps, hqs, _, _, _⟩ := hk
  have e1 := Exp_blinded P Q hP c r (IsCoprime.of_mul_right_left hr)
  have e2 := Exp_blinded Q P hQ c r (IsCoprime.of_mul_right_right hr)
  rw [mul_comm Q P, mul_comm (Q : Int) (P : Int)] at e2
  unfold PaillierPrivateKey.RawDecrypt
  rw [hp, hq, hps, hqs, e1, e2]

/-! ## Ciphertexts are closed under the homomorphic operations -/

theorem IsCiphertextOf.congr {n c c1 m : Int} (h : IsCiphertextOf n c m)
    (hc : c1 ≡ c [ZMOD n * n]) : IsCiphertextOf n c1 m := by
  obtain ⟨w, hw, hcw⟩ := h
  exact ⟨w, hw, hc.trans hcw⟩

theorem IsCiphertextOf.mul {n c1 c2 m1 m2 : Int} (h1 : IsCiphertextOf n c1 m1)
    (h2 : IsCiphertextOf n c2 m2) : IsCiphertextOf n (c1 * c2 % (n * n)) (m1 + m2) := by
  obtain ⟨w1, hw1, hc1⟩ := h1
  obtain ⟨w2, hw2, hc2⟩ := h2
  refine ⟨w1 * w2, IsCoprime.mul_left hw1 hw2, ?_⟩
  refine (Int.mod_modEq _ _).trans ((hc1.mul hc2).trans ?_)
  apply Int.modEq_iff_dvd.mpr
  refine ⟨-(m1 * m2 * (w1 * w2) ^ n.toNat), ?_⟩
  rw [mul_pow]
  ring

theorem IsCiphertextOf.pow {n c m : Int} (h : IsCiphertextOf n c m) (s : Nat) :
    IsCiphertextOf n (c ^ s % (n * n)) (m * s) := by
  obtain ⟨w, hw, hc⟩ := h
  refine ⟨w ^ s, IsCoprime.pow_left hw, ?_⟩
  refine (Int.mod_modEq _ _).trans ((hc.pow s).trans ?_)
  rw [mul_pow]
  have e : (w ^ n.toNat) ^ s = (w ^ s) ^ n.toNat := by
    rw [← pow_mul, ← pow_mul, mul_comm]
  rw [e]
  apply Int.ModEq.mul_right
  have := one_add_mul_pow n m s
  rwa [mul_comm (s : Int) m] at this

theorem IsCiphertextOf.exists_inverse {n c m : Int} (h : IsCiphertextOf n c m) :
    ∃ d, c * d ≡ 1 [ZMOD n * n] ∧ IsCiphertextOf n d (-m) := by
  obtain ⟨w, hw, hc⟩ := h
  obtain ⟨a, b, hab⟩ := (IsCoprime.mul_right hw hw : IsCoprime w (n * n))
  have hwa : w * a ≡ 1 [ZMOD n * n] := by
    apply Int.modEq_iff_dvd.mpr
    exact ⟨b, by linarith⟩
  have ha : IsCoprime a n := ⟨w, b * n, by linarith⟩
  refine ⟨(1 + n * (-m)) * a ^ n.toNat, ?_, a, ha, Int.ModEq.refl _⟩
  have h1 : c * ((1 + n * (-m)) * a ^ n.toNat)
      ≡ ((1 + n * m) * w ^ n.toNat) * ((1 + n * (-m)) * a ^ n.toNat) [ZMOD n * n] :=
    hc.mul_right _
  refine h1.trans ?_
  have e : ((1 + n * m) * w ^ n.toNat) * ((1 + n * (-m)) * a ^ n.toNat)
      = ((1 + n * m) * (1 + n * (-m))) * (w * a) ^ n.toNat := by
    rw [mul_pow]; ring
  rw [e]
  have h2 : (w * a) ^ n.toNat ≡ 1 [ZMOD n * n] := by
    have := hwa.pow n.toNat
    rwa [one_pow] at this
  have h3 : (1 + n * m) * (1 + n * (-m)) ≡ 1 [ZMOD n * n] := by
    apply Int.modEq_iff_dvd.mpr
    exact ⟨m * m, by ring⟩
  have := h3.mul h2
  rwa [mul_one] at this

theorem ModInverse_of_ciphertext {n c m : Int} (hn : n ≠ 0) (h : IsCiphertextOf n c m) :
    ∃ d, ModInverse c (n * n) = some d ∧ IsCiphertextOf n d (-m) := by
  obtain ⟨d, hd, hdc⟩ := h.exists_inverse
  have hnn : n * n ≠ 0 := mul_ne_zero hn hn
  exact ⟨d % (n * n), ModInverse_eq_of_modEq hnn hd, hdc.congr (Int.mod_modEq _ _)⟩

/-! ## Raw encryption -/

theorem RawEncrypt_eq (addr : Nat) (N m r draw : Int) (hN : 1 ≤ N) :
    (PaillierPublicKey.Init addr N).RawEncrypt m (some r) draw
      = .ok ((1 + N * m) * r ^ N.toNat % (N * N)) := by
  have hNN : N * N ≠ 0 := by positivity
  have hexp : Exp r N (N * N) = some (r ^ N.toNat % (N * N)) :=
    Exp_of_nonneg (by omega) hNN
  have hfin : ((1 + N * m) % (N * N)) * (r ^ N.toNat % (N * N)) % (N * N)
      = (1 + N * m) * r ^ N.toNat % (N * N) := by
    apply Int.ModEq.eq
    exact (Int.mod_modEq _ _).mul (Int.mod_modEq _ _)
  unfold PaillierPublicKey.RawEncrypt
  simp only [PaillierPublicKey.Init]
  by_cases hb : N - (N / 3 - 1) ≤ m ∧ m < N
  · have hinv : ((N * (N - m) + 1) % (N * N)) * (1 + N * m) ≡ 1 [ZMOD N * N] := by
      refine ((Int.mod_modEq _ _).mul_right _).trans ?_
      apply Int.modEq_iff_dvd.mpr
      exact ⟨-(1 + (N - m) * m), by ring⟩
    have hMI := ModInverse_eq_of_modEq hNN hinv
    simp only [hb, and_self, if_true, bigMod, hNN, if_false, bind, Except.bind, pure,
      Except.pure, hMI, hexp, deref, hfin]
  · have e : N * m + 1 = 1 + N * m := by ring
    simp only [hb, if_false, bigMod, hNN, bind, Except.bind, pure, Except.pure, hexp, deref,
      e, hfin]

theorem RawEncrypt_isCiphertext (addr : Nat) (N m r draw : Int) (hN : 1 ≤ N)
    (hr : IsCoprime r N) :
    ∃ c, (PaillierPublicKey.Init addr N).RawEncrypt m (some r) draw = .ok c ∧
      IsCiphertextOf N c m :=
  ⟨_, RawEncrypt_eq addr N m r draw hN, r, hr, Int.mod_modEq _ _⟩

/-! ## Claims on raw encryption and decryption -/

/-- C1, as stated, fails: with the key of the primes 3 and 5 (N = 15, max_int = 4), the
plaintext 1 and the blinding factor 3 of `[1, N)`, `RawEncrypt` returns 162 and `RawDecrypt`
returns 11, not 1. The factor 3 is not coprime to N. -/
theorem C1_counterexample :
    ∃ pk sk, GeneratePaillierKeypairByPQ 0 3 5 = .ok (pk, sk) ∧
      pk.n = 15 ∧ pk.maxInt = 4 ∧
      pk.RawEncrypt 1 (some 3) 0 = .ok 162 ∧
      sk.RawDecrypt 162 = .ok 11 ∧ sk.RawDecrypt 162 ≠ .ok 1 := by
  refine ⟨⟨0, 16, 15, 225, 4⟩, ⟨⟨0, 16, 15, 225, 4⟩, 3, 5, 9, 25, some 2, some 1, some 3⟩,
    ?_, rfl, rfl, ?_, ?_, ?_⟩ <;> decide

/-- C1 (amended): for a key built from two distinct primes p, q (N = p * q,
max_int = floor(N / 3) - 1), for every plaintext m in `[0, max_int]` or `[N - max_int, N)`
and every blinding factor r in `[1, N)` that is coprime to N,
`RawDecrypt (RawEncrypt (m, r)) = m`. -/
theorem C1_raw_decrypt_raw_encrypt (addr p q : Nat) (hp : p.Prime) (hq : q.Prime)
    (hpq : p ≠ q) :
    ∃ pk sk, GeneratePaillierKeypairByPQ addr p q = .ok (pk, sk) ∧
      pk.n = (p : Int) * q ∧ pk.maxInt = pk.n / 3 - 1 ∧
      ∀ m r draw : Int,
        ((0 ≤ m ∧ m ≤ pk.maxInt) ∨ (pk.n - pk.maxInt ≤ m ∧ m < pk.n)) →
        1 ≤ r → r < pk.n → Int.gcd r pk.n = 1 →
        ∃ c, pk.RawEncrypt m (some r) draw = .ok c ∧ sk.RawDecrypt c = .ok m := by
  obtain ⟨sk, P, Q, hgen, _, hold, hPQ⟩ := keypair_spec addr p q hp hq hpq
  refine ⟨_, sk, hgen, rfl, rfl, ?_⟩
  intro m r draw hm _ _ hr
  have hN : (1 : Int) ≤ (p : Int) * q := by
    have h1 : (1 : Int) ≤ p := by exact_mod_cast hp.one_le
    have h2 : (1 : Int) ≤ q := by exact_mod_cast hq.one_le
    nlinarith
  simp only [PaillierPublicKey.Init] at hm hr ⊢
  have hcop : IsCoprime r ((p : Int) * q) := Int.isCoprime_iff_gcd_eq_one.mpr hr
  obtain ⟨c, hc, hcm⟩ := RawEncrypt_isCiphertext addr ((p : Int) * q) m r draw hN hcop
  refine ⟨c, hc, ?_⟩
  rw [← hPQ] at hcm
  rw [RawDecrypt_of_ciphertext sk P Q hold c m hcm, hPQ]
  congr 1
  apply Int.emod_eq_of_lt <;> omega

/-- C1 (amended), at the key of the primes 3 and 5. -/
theorem C1_raw_decrypt_raw_encrypt_witness :
    ∃ pk sk, GeneratePaillierKeypairByPQ 0 3 5 = .ok (pk, sk) ∧
      pk.n = ((3 : Nat) : Int) * (5 : Nat) ∧ pk.maxInt = pk.n / 3 - 1 ∧
      ∀ m r draw : Int,
        ((0 ≤ m ∧ m ≤ pk.maxInt) ∨ (pk.n - pk.maxInt ≤ m ∧ m < pk.n)) →
        1 ≤ r → r < pk.n → Int.gcd r pk.n = 1 →
        ∃ c, pk.RawEncrypt m (some r) draw = .ok c ∧ sk.RawDecrypt c = .ok m :=
  C1_raw_decrypt_raw_encrypt 0 3 5 (by norm_num) (by norm_num) (by decide)

theorem Ciphertext_false (n : EncryptedNumber) (draw : Int) :
    n.Ciphertext false draw = .ok (n.ciphertext, n) := by
  simp [EncryptedNumber.Ciphertext, pure, Except.pure]

theorem prime_mul_ge {p q : Nat} (hp : p.Prime) (hq : q.Prime) :
    (4 : Int) ≤ (p : Int) * q := by
  have h1 : (2 : Int) ≤ p := by exact_mod_cast hp.two_le
  have h2 : (2 : Int) ≤ q := by exact_mod_cast hq.two_le
  nlinarith

/-- C2: additive homomorphism at the raw level. For a key from distinct primes, every a, b
in `[0, N)` and every blinding factors r1, r2 in `[1, N)` coprime to N,
`RawDecrypt (rawAdd (RawEncrypt (a, r1), RawEncrypt (b, r2))) = (a + b) mod N`; and on the
`addEncoded` path (r2 = 1, equal exponents) adding an encoded operand to a ciphertext of a
yields a ciphertext that decrypts to `(a + Encoding) mod N`. -/
theorem C2_raw_add_homomorphic (addr p q : Nat) (hp : p.Prime) (hq : q.Prime) (hpq : p ≠ q) :
    ∃ pk sk, GeneratePaillierKeypairByPQ addr p q = .ok (pk, sk) ∧
      pk.n = (p : Int) * q ∧
      (∀ (en : EncryptedNumber) (a b r1 r2 d1 d2 : Int), en.PublicKey = pk →
        0 ≤ a → a < pk.n → 0 ≤ b → b < pk.n →
        1 ≤ r1 → r1 < pk.n → Int.gcd r1 pk.n = 1 →
        1 ≤ r2 → r2 < pk.n → Int.gcd r2 pk.n = 1 →
        ∃ ca cb s, pk.RawEncrypt a (some r1) d1 = .ok ca ∧
          pk.RawEncrypt b (some r2) d2 = .ok cb ∧
          en.rawAdd ca cb = .ok s ∧ sk.RawDecrypt s = .ok ((a + b) % pk.n)) ∧
      (∀ (rt : Platform) (en : EncryptedNumber) (k : EncodedNumber) (a r1 d1 : Int),
        en.PublicKey = pk → k.PublicKey = pk → en.Exponent = k.Exponent →
        0 ≤ a → a < pk.n → 0 ≤ k.Encoding → k.Encoding < pk.n →
        1 ≤ r1 → r1 < pk.n → Int.gcd r1 pk.n = 1 →
        pk.RawEncrypt a (some r1) d1 = .ok en.ciphertext →
        ∃ res, en.addEncoded rt k = .ok res ∧ res.Exponent = en.Exponent ∧
          sk.RawDecrypt res.ciphertext = .ok ((a + k.Encoding) % pk.n)) := by
  obtain ⟨sk, P, Q, hgen, _, hold, hPQ⟩ := keypair_spec addr p q hp hq hpq
  have hN4 := prime_mul_ge hp hq
  have hN : (1 : Int) ≤ (p : Int) * q := by omega
  have hNN : (p : Int) * q * ((p : Int) * q) ≠ 0 := by positivity
  have hn : (PaillierPublicKey.Init addr ((p : Int) * q)).n = (p : Int) * q := rfl
  have hnsq : (PaillierPublicKey.Init addr ((p : Int) * q)).nsquare
      = (p : Int) * q * ((p : Int) * q) := rfl
  refine ⟨_, sk, hgen, rfl, ?_, ?_⟩
  · intro en a b r1 r2 d1 d2 hen _ _ _ _ _ _ hr1 _ _ hr2
    rw [hn] at hr1 hr2 ⊢
    obtain ⟨ca, hca, hcam⟩ := RawEncrypt_isCiphertext addr ((p : Int) * q) a r1 d1 hN
      (Int.isCoprime_iff_gcd_eq_one.mpr hr1)
    obtain ⟨cb, hcb, hcbm⟩ := RawEncrypt_isCiphertext addr ((p : Int) * q) b r2 d2 hN
      (Int.isCoprime_iff_gcd_eq_one.mpr hr2)
    have hsum := hcam.mul hcbm
    refine ⟨ca, cb, ca * cb % ((p : Int) * q * ((p : Int) * q)), hca, hcb, ?_, ?_⟩
    · simp only [EncryptedNumber.rawAdd, hen, hnsq, bigMod, hNN, if_false]
    · rw [← hPQ] at hsum ⊢
      exact RawDecrypt_of_ciphertext sk P Q hold _ _ hsum
  · intro rt en k a r1 d1 hen hk hexp _ _ _ _ _ _ hr1 hca
    rw [hn] at hr1 ⊢
    obtain ⟨ca, hca2, hcam⟩ := RawEncrypt_isCiphertext addr ((p : Int) * q) a r1 d1 hN
      (Int.isCoprime_iff_gcd_eq_one.mpr hr1)
    have hceq : ca = en.ciphertext := by
      rw [hca2] at hca
      exact Except.ok.inj hca
    rw [hceq] at hcam
    obtain ⟨cb, hcb, hcbm⟩ := RawEncrypt_isCiphertext addr ((p : Int) * q) k.Encoding 1 0 hN
      isCoprime_one_left
    have hsum := hcam.mul hcbm
    refine ⟨EncryptedNumber.Init en.PublicKey
      (en.ciphertext * cb % ((p : Int) * q * ((p : Int) * q))) en.Exponent, ?_, rfl, ?_⟩
    · unfold EncryptedNumber.addEncoded
      simp only [hen, hk, PaillierPublicKey.Equal, beq_self_eq_true, Bool.not_true,
        Bool.false_eq_true, if_false, hexp, gt_iff_lt, lt_self_iff_false, bind, Except.bind,
        pure, Except.pure, hcb, Ciphertext_false, EncryptedNumber.rawAdd,
        hnsq, bigMod, hNN]
    · simp only [EncryptedNumber.Init]
      rw [← hPQ] at hsum ⊢
      exact RawDecrypt_of_ciphertext sk P Q hold _ _ hsum

/-- C2, at the key of the primes 3 and 5. -/
theorem C2_raw_add_homomorphic_witness :
    ∃ pk sk, GeneratePaillierKeypairByPQ 0 3 5 = .ok (pk, sk) ∧
      pk.n = ((3 : Nat) : Int) * (5 : Nat) ∧
      (∀ (en : EncryptedNumber) (a b r1 r2 d1 d2 : Int), en.PublicKey = pk →
        0 ≤ a → a < pk.n → 0 ≤ b → b < pk.n →
        1 ≤ r1 → r1 < pk.n → Int.gcd r1 pk.n = 1 →
        1 ≤ r2 → r2 < pk.n → Int.gcd r2 pk.n = 1 →
        ∃ ca cb s, pk.RawEncrypt a (some r1) d1 = .ok ca ∧
          pk.RawEncrypt b (some r2) d2 = .ok cb ∧
          en.rawAdd ca cb = .ok s ∧ sk.RawDecrypt s = .ok ((a + b) % pk.n)) ∧
      (∀ (rt : Platform) (en : EncryptedNumber) (k : EncodedNumber) (a r1 d1 : Int),
        en.PublicKey = pk → k.PublicKey = pk → en.Exponent = k.Exponent →
        0 ≤ a → a < pk.n → 0 ≤ k.Encoding → k.Encoding < pk.n →
        1 ≤ r1 → r1 < pk.n → Int.gcd r1 pk.n = 1 →
        pk.RawEncrypt a (some r1) d1 = .ok en.ciphertext →
        ∃ res, en.addEncoded rt k = .ok res ∧ res.Exponent = en.Exponent ∧
          sk.RawDecrypt res.ciphertext = .ok ((a + k.Encoding) % pk.n)) :=
  C2_raw_add_homomorphic 0 3 5 (by norm_num) (by norm_num) (by decide)

theorem rawMul_of_ciphertext (en : EncryptedNumber) (addr : Nat) (N m s : Int) (hN : 1 ≤ N)
    (hen : en.PublicKey = PaillierPublicKey.Init addr N)
    (hc : IsCiphertextOf N en.ciphertext m) (hs0 : 0 ≤ s) (hs1 : s < N) :
    ∃ c t, en.rawMul s = .ok c ∧ IsCiphertextOf N c t ∧ t ≡ m * s [ZMOD N] := by
  have hN0 : N ≠ 0 := by omega
  have hNN : N * N ≠ 0 := mul_ne_zero hN0 hN0
  have hn : (PaillierPublicKey.Init addr N).n = N := rfl
  have hnsq : (PaillierPublicKey.Init addr N).nsquare = N * N := rfl
  have hguard : ¬ (s < 0 ∨ s ≥ N) := by omega
  by_cases hb : N - (PaillierPublicKey.Init addr N).maxInt ≤ s
  · obtain ⟨d, hd, hdc⟩ := ModInverse_of_ciphertext hN0 hc
    have hexp : Exp d (N - s) (N * N) = some (d ^ (N - s).toNat % (N * N)) :=
      Exp_of_nonneg (by omega) hNN
    refine ⟨_, _, ?_, hdc.pow (N - s).toNat, ?_⟩
    · unfold EncryptedNumber.rawMul
      simp only [hen, hn, hguard, if_false, hb, if_true, Ciphertext_false, hnsq, hd, deref,
        hexp, bind, Except.bind, pure, Except.pure]
    · have e : (((N - s).toNat : Nat) : Int) = N - s := Int.toNat_of_nonneg (by omega)
      rw [e]
      apply Int.modEq_iff_dvd.mpr
      exact ⟨m, by ring⟩
  · have hexp : Exp en.ciphertext s (N * N) = some (en.ciphertext ^ s.toNat % (N * N)) :=
      Exp_of_nonneg hs0 hNN
    refine ⟨_, _, ?_, hc.pow s.toNat, ?_⟩
    · unfold EncryptedNumber.rawMul
      simp only [hen, hn, hguard, if_false, hb, Ciphertext_false, hnsq, deref,
        hexp, bind, Except.bind, pure, Except.pure]
    · rw [Int.toNat_of_nonneg hs0]

/-- C3: scalar multiplication homomorphism. For a key from distinct primes, a number `en`
whose ciphertext is `RawEncrypt (m, r)` with m in `[0, N)` and r coprime to N, and an
EncodedNumber `k` whose encoding s lies in `[0, max_int]` or `[N - max_int, N)`,
`en.Mul (k)` returns a number whose exponent is `en.Exponent + k.Exponent` and whose
ciphertext raw-decrypts to `(m * s) mod N`. -/
theorem C3_mul_homomorphic (addr p q : Nat) (hp : p.Prime) (hq : q.Prime) (hpq : p ≠ q) :
    ∃ pk sk, GeneratePaillierKeypairByPQ addr p q = .ok (pk, sk) ∧
      pk.n = (p : Int) * q ∧ pk.maxInt = pk.n / 3 - 1 ∧
      ∀ (rt : Platform) (en : EncryptedNumber) (k : EncodedNumber) (m r d : Int),
        en.PublicKey = pk → 0 ≤ m → m < pk.n → Int.gcd r pk.n = 1 →
        pk.RawEncrypt m (some r) d = .ok en.ciphertext →
        ((0 ≤ k.Encoding ∧ k.Encoding ≤ pk.maxInt) ∨
          (pk.n - pk.maxInt ≤ k.Encoding ∧ k.Encoding < pk.n)) →
        ∃ res, en.Mul rt (.encoded k) = .ok res ∧
          res.Exponent = en.Exponent + k.Exponent ∧
          sk.RawDecrypt res.ciphertext = .ok ((m * k.Encoding) % pk.n) := by
  obtain ⟨sk, P, Q, hgen, _, hold, hPQ⟩ := keypair_spec addr p q hp hq hpq
  have hN4 := prime_mul_ge hp hq
  have hN : (1 : Int) ≤ (p : Int) * q := by omega
  have hn : (PaillierPublicKey.Init addr ((p : Int) * q)).n = (p : Int) * q := rfl
  have hmax : (PaillierPublicKey.Init addr ((p : Int) * q)).maxInt
      = (p : Int) * q / 3 - 1 := rfl
  refine ⟨_, sk, hgen, rfl, rfl, ?_⟩
  intro rt en k m r d hen _ _ hr hca hs
  rw [hn] at hr hs ⊢
  rw [hmax] at hs
  obtain ⟨ca, hca2, hcam⟩ := RawEncrypt_isCiphertext addr ((p : Int) * q) m r d hN
    (Int.isCoprime_iff_gcd_eq_one.mpr hr)
  have hceq : ca = en.ciphertext := by
    rw [hca2] at hca
    exact Except.ok.inj hca
  rw [hceq] at hcam
  have hs0 : 0 ≤ k.Encoding := by omega
  have hs1 : k.Encoding < (p : Int) * q := by omega
  obtain ⟨c, t, hc, hct, htm⟩ :=
    rawMul_of_ciphertext en addr ((p : Int) * q) m k.Encoding hN hen hcam hs0 hs1
  refine ⟨EncryptedNumber.Init en.PublicKey c (en.Exponent + k.Exponent), ?_, rfl, ?_⟩
  · simp only [EncryptedNumber.Mul, hc, bind, Except.bind, pure, Except.pure]
  · simp only [EncryptedNumber.Init]
    rw [← hPQ] at hct htm ⊢
    rw [RawDecrypt_of_ciphertext sk P Q hold c t hct]
    congr 1

/-- C3, at the key of the primes 3 and 5. -/
theorem C3_mul_homomorphic_witness :
    ∃ pk sk, GeneratePaillierKeypairByPQ 0 3 5 = .ok (pk, sk) ∧
      pk.n = ((3 : Nat) : Int) * (5 : Nat) ∧ pk.maxInt = pk.n / 3 - 1 ∧
      ∀ (rt : Platform) (en : EncryptedNumber) (k : EncodedNumber) (m r d : Int),
        en.PublicKey = pk → 0 ≤ m → m < pk.n → Int.gcd r pk.n = 1 →
        pk.RawEncrypt m (some r) d = .ok en.ciphertext →
        ((0 ≤ k.Encoding ∧ k.Encoding ≤ pk.maxInt) ∨
          (pk.n - pk.maxInt ≤ k.Encoding ∧ k.Encoding < pk.n)) →
        ∃ res, en.Mul rt (.encoded k) = .ok res ∧
          res.Exponent = en.Exponent + k.Exponent ∧
          sk.RawDecrypt res.ciphertext = .ok ((m * k.Encoding) % pk.n) :=
  C3_mul_homomorphic 0 3 5 (by norm_num) (by norm_num) (by decide)

theorem RawDecrypt_total (sk : PaillierPrivateKey) (P Q : Nat) (hk : sk.HoldsPrimes P Q)
    (c : Int) : ∃ v, sk.RawDecrypt c = .ok v := by
  obtain ⟨hP, hQ, _, hp, hq, hps, hqs, ⟨pinv, hpi, _⟩, ⟨h1, hh1, _⟩, ⟨h2, hh2, _⟩⟩ := hk
  have hP2 : (2 : Int) ≤ P := by exact_mod_cast hP.two_le
  have hQ2 : (2 : Int) ≤ Q := by exact_mod_cast hQ.two_le
  have hP0 : (P : Int) ≠ 0 := by omega
  have hQ0 : (Q : Int) ≠ 0 := by omega
  have hexpP : Exp c (sk.p - 1) sk.psquare
      = some (c ^ ((P : Int) - 1).toNat % ((P : Int) * P)) := by
    rw [hp, hps]
    exact Exp_of_nonneg (by omega) (mul_ne_zero hP0 hP0)
  have hexpQ : Exp c (sk.q - 1) sk.qsquare
      = some (c ^ ((Q : Int) - 1).toNat % ((Q : Int) * Q)) := by
    rw [hq, hqs]
    exact Exp_of_nonneg (by omega) (mul_ne_zero hQ0 hQ0)
  unfold PaillierPrivateKey.RawDecrypt PaillierPrivateKey.Crt PaillierPrivateKey.LFunction
  rw [hexpP, hexpQ]
  simp only [deref, bind, Except.bind, hp, hq, hh1, hh2, hpi, bigMod, bigDiv, hP0, hQ0,
    if_false, pure, Except.pure]
  exact ⟨_, rfl⟩

theorem Obfuscate_eq (en : EncryptedNumber) (addr : Nat) (N d : Int) (hN : 2 ≤ N)
    (hen : en.PublicKey = PaillierPublicKey.Init addr N) :
    en.Obfuscate d = .ok { en with
      ciphertext := en.ciphertext * ((d + 1) ^ N.toNat % (N * N)) % (N * N),
      isObfuscated := true } := by
  have hN0 : N ≠ 0 := by omega
  have hNN : N * N ≠ 0 := mul_ne_zero hN0 hN0
  have hn : (PaillierPublicKey.Init addr N).n = N := rfl
  have hnsq : (PaillierPublicKey.Init addr N).nsquare = N * N := rfl
  have hexp : Exp (d + 1) N (N * N) = some ((d + 1) ^ N.toNat % (N * N)) :=
    Exp_of_nonneg (by omega) hNN
  have hb : ¬ (N - 1 ≤ 0) := by omega
  unfold EncryptedNumber.Obfuscate
  simp only [hen, PaillierPublicKey.GetRandomItN, hn, hb, if_false, hnsq, hexp, deref, bigMod,
    hNN, bind, Except.bind, pure, Except.pure]

/-- C4: blinding is plaintext-neutral. For a key from distinct primes, every ciphertext c
in `[0, N ^ 2)` and every finite sequence of `Obfuscate` calls whose drawn factors r in
`[1, N)` are coprime to N, the calls succeed and `RawDecrypt` of the blinded ciphertext
returns the value `RawDecrypt (c)` returns. -/
theorem C4_obfuscate_plaintext_neutral (addr p q : Nat) (hp : p.Prime) (hq : q.Prime)
    (hpq : p ≠ q) :
    ∃ pk sk, GeneratePaillierKeypairByPQ addr p q = .ok (pk, sk) ∧
      pk.n = (p : Int) * q ∧
      ∀ (draws : List Int) (en : EncryptedNumber), en.PublicKey = pk →
        0 ≤ en.ciphertext → en.ciphertext < pk.nsquare →
        (∀ d ∈ draws, 1 ≤ d + 1 ∧ d + 1 < pk.n ∧ Int.gcd (d + 1) pk.n = 1) →
        ∃ res v, obfuscateMany en draws = .ok res ∧
          sk.RawDecrypt en.ciphertext = .ok v ∧ sk.RawDecrypt res.ciphertext = .ok v := by
  obtain ⟨sk, P, Q, hgen, _, hold, hPQ⟩ := keypair_spec addr p q hp hq hpq
  have hN4 := prime_mul_ge hp hq
  have hn : (PaillierPublicKey.Init addr ((p : Int) * q)).n = (p : Int) * q := rfl
  refine ⟨_, sk, hgen, rfl, ?_⟩
  intro draws
  induction draws with
  | nil =>
    intro en _ _ _ _
    obtain ⟨v, hv⟩ := RawDecrypt_total sk P Q hold en.ciphertext
    exact ⟨en, v, rfl, hv, hv⟩
  | cons d ds ih =>
    intro en hen _ _ hd
    have hd1 := hd d (List.mem_cons_self d ds)
    rw [hn] at hd1
    have hstep := Obfuscate_eq en addr ((p : Int) * q) d (by omega) hen
    have hblind : sk.RawDecrypt (en.ciphertext *
          ((d + 1) ^ ((p : Int) * q).toNat % ((p : Int) * q * ((p : Int) * q)))
          % ((p : Int) * q * ((p : Int) * q)))
        = sk.RawDecrypt en.ciphertext := by
      have hcop : IsCoprime (d + 1) ((P : Int) * Q) := by
        rw [hPQ]
        exact Int.isCoprime_iff_gcd_eq_one.mpr hd1.2.2
      have := RawDecrypt_blinded sk P Q hold en.ciphertext (d + 1) hcop
      rw [← toNat_cast_mul P Q, hPQ] at this
      exact this
    have hnn : (0 : Int) ≤ en.ciphertext * ((d + 1) ^ ((p : Int) * q).toNat
        % ((p : Int) * q * ((p : Int) * q))) % ((p : Int) * q * ((p : Int) * q)) :=
      Int.emod_nonneg _ (by positivity)
    have hlt : en.ciphertext * ((d + 1) ^ ((p : Int) * q).toNat
        % ((p : Int) * q * ((p : Int) * q))) % ((p : Int) * q * ((p : Int) * q))
        < (PaillierPublicKey.Init addr ((p : Int) * q)).nsquare :=
      Int.emod_lt_of_pos _ (by positivity)
    obtain ⟨res, v, hres, hv1, hv2⟩ := ih
      { en with
        ciphertext := en.ciphertext * ((d + 1) ^ ((p : Int) * q).toNat
          % ((p : Int) * q * ((p : Int) * q))) % ((p : Int) * q * ((p : Int) * q)),
        isObfuscated := true }
      hen hnn hlt (fun x hx => hd x (List.mem_cons_of_mem d hx))
    refine ⟨res, v, ?_, ?_, hv2⟩
    · simp only [obfuscateMany, hstep, bind, Except.bind]
      exact hres
    · rw [← hblind]
      exact hv1

/-- C4, at the key of the primes 3 and 5. -/
theorem C4_obfuscate_plaintext_neutral_witness :
    ∃ pk sk, GeneratePaillierKeypairByPQ 0 3 5 = .ok (pk, sk) ∧
      pk.n = ((3 : Nat) : Int) * (5 : Nat) ∧
      ∀ (draws : List Int) (en : EncryptedNumber), en.PublicKey = pk →
        0 ≤ en.ciphertext → en.ciphertext < pk.nsquare →
        (∀ d ∈ draws, 1 ≤ d + 1 ∧ d + 1 < pk.n ∧ Int.gcd (d + 1) pk.n = 1) →
        ∃ res v, obfuscateMany en draws = .ok res ∧
          sk.RawDecrypt en.ciphertext = .ok v ∧ sk.RawDecrypt res.ciphertext = .ok v :=
  C4_obfuscate_plaintext_neutral 0 3 5 (by norm_num) (by norm_num) (by decide)

/-- C5: the negative-plaintext shortcut of `RawEncrypt` is the textbook scheme. For every
`N >= 2`, every m in `[0, N)` (on either branch) and every r, supplied or drawn,
`RawEncrypt (m, r) = ((N + 1) ^ m * r ^ N) mod N ^ 2 = ((1 + N * m) * r ^ N) mod N ^ 2`. -/
theorem C5_raw_encrypt_textbook (addr : Nat) (N m r draw : Int) (hN : 2 ≤ N) (hm0 : 0 ≤ m)
    (_hm1 : m < N) :
    (PaillierPublicKey.Init addr N).RawEncrypt m (some r) draw = .ok (textbookEncrypt N m r) ∧
    (PaillierPublicKey.Init addr N).RawEncrypt m none draw
      = .ok (textbookEncrypt N m (draw + 1)) ∧
    textbookEncrypt N m r = (1 + N * m) * r ^ N.toNat % (N * N) := by
  have key : ∀ x : Int, textbookEncrypt N m x = (1 + N * m) * x ^ N.toNat % (N * N) := by
    intro x
    unfold textbookEncrypt
    apply Int.ModEq.eq
    apply Int.ModEq.mul_right
    have h := one_add_mul_pow N 1 m.toNat
    rw [Int.toNat_of_nonneg hm0, mul_one, mul_one, add_comm 1 N] at h
    exact h
  have hnone : (PaillierPublicKey.Init addr N).RawEncrypt m none draw
      = (PaillierPublicKey.Init addr N).RawEncrypt m (some (draw + 1)) draw := by
    have hn : (PaillierPublicKey.Init addr N).n = N := rfl
    have hb : ¬ (N - 1 ≤ 0) := by omega
    simp only [PaillierPublicKey.RawEncrypt, PaillierPublicKey.GetRandomItN, hn, hb, if_false,
      bind, Except.bind, pure, Except.pure]
  refine ⟨?_, ?_, key r⟩
  · rw [key r]
    exact RawEncrypt_eq addr N m r draw (by omega)
  · rw [hnone, key (draw + 1)]
    exact RawEncrypt_eq addr N m (draw + 1) draw (by omega)

/-- C5, at `N = 15`, the plaintext 13 of the modular-inverse branch and `r = 7`. -/
theorem C5_raw_encrypt_textbook_witness :
    (PaillierPublicKey.Init 0 15).RawEncrypt 13 (some 7) 0 = .ok (textbookEncrypt 15 13 7) ∧
    (PaillierPublicKey.Init 0 15).RawEncrypt 13 none 0
      = .ok (textbookEncrypt 15 13 (0 + 1)) ∧
    textbookEncrypt 15 13 7 = (1 + 15 * 13) * 7 ^ (15 : Int).toNat % (15 * 15) :=
  C5_raw_encrypt_textbook 0 15 13 7 0 (by decide) (by decide) (by decide)

/-! ## float64 conversions of small integers -/

theorem bitLenLoop_le (fuel : Nat) :
    ∀ n k : Nat, n ≤ fuel → n < 2 ^ k → bitLenLoop fuel n ≤ k := by
  induction fuel with
  | zero =>
    intro n k _ _
    simp [bitLenLoop]
  | succ f ih =>
    intro n k hn hk
    by_cases h0 : n = 0
    · simp [bitLenLoop, h0]
    · simp only [bitLenLoop, h0, if_false]
      cases k with
      | zero =>
        simp only [pow_zero] at hk
        omega
      | succ j =>
        have h2 : n / 2 < 2 ^ j := by
          rw [pow_succ] at hk
          omega
        have := ih (n / 2) j (by omega) h2
        omega

theorem ofDyadic_int (x : Int) (h : |x| ≤ 2 ^ 53) : Float64.ofDyadic x 0 = .finite x 0 := by
  by_cases hx0 : x = 0
  · subst hx0
    rfl
  · by_cases htop : |x| = 2 ^ 53
    · rcases (abs_eq (by norm_num : (0 : Int) ≤ 2 ^ 53)).mp htop with h1 | h1
      · rw [h1]; decide
      · rw [h1]; decide
    · have hlt : x.natAbs < 2 ^ 53 := by
        have h1 : |x| < 2 ^ 53 := lt_of_le_of_ne h htop
        have h2 : ((x.natAbs : Nat) : Int) = |x| := Int.natCast_natAbs x
        have h3 : ((x.natAbs : Nat) : Int) < ((2 ^ 53 : Nat) : Int) := by
          rw [h2]; exact_mod_cast h1
        exact_mod_cast h3
      have hb : bitLen x.natAbs ≤ 53 := bitLenLoop_le _ _ _ le_rfl hlt
      have hdrop : max ((bitLen x.natAbs : Int) - 1 - ((0 : Nat) : Int) - 52) (-1074)
          + ((0 : Nat) : Int) ≤ 0 := by
        have : ((bitLen x.natAbs : Nat) : Int) ≤ 53 := by exact_mod_cast hb
        simp only [Nat.cast_zero, sub_zero, add_zero]
        omega
      simp only [Float64.ofDyadic, hx0, if_false, hdrop, if_true, Float64.normalize]

theorem mathPowBase_zero : mathPowBase 0 = .finite 1 0 := by decide

theorem Round_int (x : Int) : Float64.Round (.finite x 0) = .finite x 0 := by
  simp only [Float64.Round, pow_zero, mul_one]
  congr 1
  have h1 : 0 ≤ |x| := abs_nonneg x
  have h2 : (2 * |x| + 1) / 2 = |x| := by omega
  rw [h2]
  exact Int.sign_mul_abs x

theorem toInt64_int (rt : Platform) (x : Int) (h1 : -2 ^ 63 ≤ x) (h2 : x < 2 ^ 63) :
    Float64.toInt64 rt (.finite x 0) = x := by
  simp only [Float64.toInt64, pow_zero, Int.tdiv_one, h1, h2, and_self, if_true]

theorem mul_one_of_exact (x : Int) (hrep : Float64.ofInt64 x = .finite x 0) :
    (Float64.ofInt64 x).mul (mathPowBase (-0)) = .finite x 0 := by
  rw [neg_zero, mathPowBase_zero, hrep]
  simp only [Float64.mul, mul_one, add_zero]
  exact hrep

theorem Encode_int64 (rt : Platform) (addr : Nat) (N x : Int) (hN : N ≠ 0)
    (hrep : Float64.ofInt64 x = .finite x 0) (h1 : -2 ^ 63 ≤ x) (h2 : x < 2 ^ 63) :
    EncodedNumber.Encode rt (PaillierPublicKey.Init addr N) (.int64 x) PrecisionUnused
        MaxExponentUnused
      = if x > N / 3 - 1 then .error .plaintextTooLarge
        else .ok ⟨PaillierPublicKey.Init addr N, x % N, 0⟩ := by
  have hmax : (PaillierPublicKey.Init addr N).maxInt = N / 3 - 1 := rfl
  have hn : (PaillierPublicKey.Init addr N).n = N := rfl
  have hle : PrecisionUnused.le0 = true := by decide
  have hmin : min (0 : Int) MaxExponentUnused = 0 := by decide
  have hmul := mul_one_of_exact x hrep
  have hconv : Float64.toInt64 rt (Float64.Round (.finite x 0)) = x := by
    rw [Round_int]
    exact toInt64_int rt x h1 h2
  unfold EncodedNumber.Encode
  simp only [hle, if_true, bind, Except.bind, pure, Except.pure, hmin, hmul, hconv, hmax, hn,
    bigMod, hN, if_false, EncodedNumber.Init]

/-! ## Claims on encoding -/

/-- C6, as stated, fails: with the key of the package tests (N = 14627327510445924371,
max_int = 4875775836815308122) the integer scalar `2 ^ 53 + 1 = 9007199254740993` is within
max_int, but `Encode` passes it through `float64` and yields the encoding `2 ^ 53`, not
`x mod N = x`; `Decode` then returns `2 ^ 53`. -/
theorem C6_counterexample :
    |(9007199254740993 : Int)| ≤ (PaillierPublicKey.Init 0 14627327510445924371).maxInt ∧
    (9007199254740993 : Int) % 14627327510445924371 = 9007199254740993 ∧
    (∀ rt : Platform,
      EncodedNumber.Encode rt (PaillierPublicKey.Init 0 14627327510445924371)
          (.int64 9007199254740993) PrecisionUnused MaxExponentUnused
        = .ok ⟨PaillierPublicKey.Init 0 14627327510445924371, 9007199254740992, 0⟩) ∧
    EncodedNumber.Decode ⟨PaillierPublicKey.Init 0 14627327510445924371, 9007199254740992, 0⟩
      = .ok (.finite 9007199254740992 0) :=
  ⟨by decide, by decide, fun _ => rfl, by decide⟩

/-- C6 (amended): for every `int64` scalar x with `|x| <= max_int` that `float64`
represents exactly (every x with `|x| <= 2 ^ 53` does),
`Encode (pk, x, PrecisionUnused, MaxExponentUnused)` yields exponent 0 and encoding
`x mod N`, and `Decode` of that EncodedNumber recovers exactly x (mantissa x, scale
`B ^ 0`). -/
theorem C6_encode_decode_int (rt : Platform) (addr : Nat) (N x : Int)
    (hx : |x| ≤ (PaillierPublicKey.Init addr N).maxInt)
    (hi : -2 ^ 63 ≤ x ∧ x < 2 ^ 63)
    (hrep : |x| ≤ 2 ^ 53 ∨ Float64.ofInt64 x = .finite x 0) :
    ∃ enc, EncodedNumber.Encode rt (PaillierPublicKey.Init addr N) (.int64 x) PrecisionUnused
        MaxExponentUnused = .ok enc ∧
      enc.Exponent = 0 ∧ enc.Encoding = x % N ∧ enc.Decode = .ok (.finite x 0) := by
  have hmax : (PaillierPublicKey.Init addr N).maxInt = N / 3 - 1 := rfl
  have hn : (PaillierPublicKey.Init addr N).n = N := rfl
  rw [hmax] at hx
  have habs := abs_le.mp hx
  have hnn : 0 ≤ |x| := abs_nonneg x
  have hN : 3 ≤ N := by omega
  have hexact : Float64.ofInt64 x = .finite x 0 := by
    rcases hrep with h | h
    · exact ofDyadic_int x h
    · exact h
  refine ⟨⟨PaillierPublicKey.Init addr N, x % N, 0⟩, ?_, rfl, rfl, ?_⟩
  · rw [Encode_int64 rt addr N x (by omega) hexact hi.1 hi.2, if_neg (by omega)]
  · have hfin : bigFloatMul x (mathPowBase 0) = .ok (.finite x 0) := by
      rw [mathPowBase_zero]
      simp only [bigFloatMul, mul_one, pure, Except.pure]
      exact congrArg Except.ok hexact
    unfold EncodedNumber.Decode
    simp only [hn, hmax, ge_iff_le, bind, Except.bind, pure, Except.pure]
    by_cases hpos : 0 ≤ x
    · have e : x % N = x := Int.emod_eq_of_lt hpos (by omega)
      rw [e, if_neg (by omega), if_pos (by omega)]
      exact hfin
    · have e : x % N = x + N := by
        rw [← Int.add_emod_self]
        exact Int.emod_eq_of_lt (by omega) (by omega)
      rw [e, if_neg (by omega), if_neg (by omega), if_pos (by omega)]
      simp only [add_sub_cancel_right]
      exact hfin

/-- C6 (amended), at `N = 899` (the primes 29 and 31) and the scalar `-7`. -/
theorem C6_encode_decode_int_witness :
    ∃ enc, EncodedNumber.Encode Platform.amd64 (PaillierPublicKey.Init 0 899) (.int64 (-7))
        PrecisionUnused MaxExponentUnused = .ok enc ∧
      enc.Exponent = 0 ∧ enc.Encoding = (-7) % 899 ∧ enc.Decode = .ok (.finite (-7) 0) :=
  C6_encode_decode_int Platform.amd64 0 899 (-7) (by decide) (by decide)
    (Or.inl (by decide))

/-- C7, what the code does instead: `Encode` compares the mantissa with max_int on the
positive side only. Every negative integer scalar x with `x < -max_int` (and
`-2 ^ 53 <= x`, so that the conversion to `float64` is exact) is accepted and encoded as
`x mod N`. -/
theorem C7_negative_mantissa_accepted (rt : Platform) (addr : Nat) (N x : Int) (hN : 3 ≤ N)
    (hx : x < -(PaillierPublicKey.Init addr N).maxInt) (h53 : -2 ^ 53 ≤ x) :
    EncodedNumber.Encode rt (PaillierPublicKey.Init addr N) (.int64 x) PrecisionUnused
        MaxExponentUnused
      = .ok ⟨PaillierPublicKey.Init addr N, x % N, 0⟩ := by
  have hmax : (PaillierPublicKey.Init addr N).maxInt = N / 3 - 1 := rfl
  rw [hmax] at hx
  have habs : |x| ≤ 2 ^ 53 := abs_le.mpr ⟨by omega, by omega⟩
  rw [Encode_int64 rt addr N x (by omega) (ofDyadic_int x habs) (by omega) (by omega),
    if_neg (by omega)]

/-- C7, at `N = 899` (the primes 29 and 31, max_int = 298) and the scalar `-299`: the
encoding is `600`, inside the overflow band. -/
theorem C7_negative_mantissa_accepted_witness :
    EncodedNumber.Encode Platform.amd64 (PaillierPublicKey.Init 0 899) (.int64 (-299))
        PrecisionUnused MaxExponentUnused
      = .ok ⟨PaillierPublicKey.Init 0 899, (-299) % 899, 0⟩ :=
  C7_negative_mantissa_accepted Platform.amd64 0 899 (-299) (by decide) (by decide)
    (by decide)

theorem bigFloatMul_ne (m : Int) (f : Float64) :
    bigFloatMul m f ≠ .error .corruptedEncoding ∧ bigFloatMul m f ≠ .error .overflow := by
  cases f with
  | finite num scale => simp [bigFloatMul, pure, Except.pure]
  | inf negative =>
    by_cases h : m = 0 <;> simp [bigFloatMul, h, pure, Except.pure, throw, throwThe,
      MonadExceptOf.throw]
  | nan => simp [bigFloatMul, throw, throwThe, MonadExceptOf.throw]

/-- C8: `Decode` classifies the encoding exactly as specified. For a modulus `N >= 3` and
every encoding `e >= 0`, `Decode` fails with CorruptedEncoding iff `e >= N`; fails with
Overflow iff `max_int < e < N - max_int`; otherwise it multiplies the scale by the
mantissa `e` when `e <= max_int` and by the mantissa `e - N` when
`N - max_int <= e < N`. -/
theorem C8_decode_classifies (addr : Nat) (N e ex : Int) (hN : 3 ≤ N) (_he : 0 ≤ e) :
    ((EncodedNumber.mk (PaillierPublicKey.Init addr N) e ex).Decode
        = .error .corruptedEncoding ↔ e ≥ N) ∧
    ((EncodedNumber.mk (PaillierPublicKey.Init addr N) e ex).Decode = .error .overflow ↔
      ((PaillierPublicKey.Init addr N).maxInt < e ∧
        e < N - (PaillierPublicKey.Init addr N).maxInt)) ∧
    (e ≤ (PaillierPublicKey.Init addr N).maxInt →
      (EncodedNumber.mk (PaillierPublicKey.Init addr N) e ex).Decode
        = bigFloatMul e (mathPowBase ex)) ∧
    (N - (PaillierPublicKey.Init addr N).maxInt ≤ e ∧ e < N →
      (EncodedNumber.mk (PaillierPublicKey.Init addr N) e ex).Decode
        = bigFloatMul (e - N) (mathPowBase ex)) := by
  have hmax : (PaillierPublicKey.Init addr N).maxInt = N / 3 - 1 := rfl
  have hn : (PaillierPublicKey.Init addr N).n = N := rfl
  rw [hmax]
  have h1 := bigFloatMul_ne e (mathPowBase ex)
  have h2 := bigFloatMul_ne (e - N) (mathPowBase ex)
  have key : (EncodedNumber.mk (PaillierPublicKey.Init addr N) e ex).Decode
      = if N ≤ e then .error .corruptedEncoding
        else if e ≤ N / 3 - 1 then bigFloatMul e (mathPowBase ex)
        else if N - (N / 3 - 1) ≤ e then bigFloatMul (e - N) (mathPowBase ex)
        else .error .overflow := by
    unfold EncodedNumber.Decode
    simp only [hn, hmax, ge_iff_le, bind, Except.bind, pure, Except.pure, throw, throwThe,
      MonadExceptOf.throw]
  rw [key]
  by_cases c1 : N ≤ e
  · rw [if_pos c1]
    refine ⟨⟨fun _ => c1, fun _ => rfl⟩, ⟨fun h => ?_, fun h => ?_⟩, fun h => ?_, fun h => ?_⟩
    · cases h
    · omega
    · omega
    · omega
  · rw [if_neg c1]
    by_cases c2 : e ≤ N / 3 - 1
    · rw [if_pos c2]
      refine ⟨⟨fun h => absurd h h1.1, fun h => absurd h c1⟩,
        ⟨fun h => absurd h h1.2, fun h => ?_⟩, fun _ => rfl, fun h => ?_⟩
      · omega
      · omega
    · rw [if_neg c2]
      by_cases c3 : N - (N / 3 - 1) ≤ e
      · rw [if_pos c3]
        refine ⟨⟨fun h => absurd h h2.1, fun h => absurd h c1⟩,
          ⟨fun h => absurd h h2.2, fun h => ?_⟩, fun h => ?_, fun _ => rfl⟩
        · omega
        · omega
      · rw [if_neg c3]
        refine ⟨⟨fun h => ?_, fun h => absurd h c1⟩, ⟨fun _ => ?_, fun _ => rfl⟩,
          fun h => ?_, fun h => ?_⟩
        · cases h
        · omega
        · omega
        · omega

/-- C8, at `N = 899` (max_int = 298), the encoding `600` and the exponent `0`. -/
theorem C8_decode_classifies_witness :
    ((EncodedNumber.mk (PaillierPublicKey.Init 0 899) 600 0).Decode
        = .error .corruptedEncoding ↔ (600 : Int) ≥ 899) ∧
    ((EncodedNumber.mk (PaillierPublicKey.Init 0 899) 600 0).Decode = .error .overflow ↔
      ((PaillierPublicKey.Init 0 899).maxInt < 600 ∧
        600 < 899 - (PaillierPublicKey.Init 0 899).maxInt)) ∧
    ((600 : Int) ≤ (PaillierPublicKey.Init 0 899).maxInt →
      (EncodedNumber.mk (PaillierPublicKey.Init 0 899) 600 0).Decode
        = bigFloatMul 600 (mathPowBase 0)) ∧
    (899 - (PaillierPublicKey.Init 0 899).maxInt ≤ 600 ∧ (600 : Int) < 899 →
      (EncodedNumber.mk (PaillierPublicKey.Init 0 899) 600 0).Decode
        = bigFloatMul (600 - 899) (mathPowBase 0)) :=
  C8_decode_classifies 0 899 600 0 (by decide) (by decide)

theorem zero_mul_mathPowBase (y : Int) (hy : y < 256) :
    (Float64.finite 0 0).mul (mathPowBase y) = .finite 0 0 := by
  unfold mathPowBase
  rw [if_neg (by omega)]
  by_cases h0 : 0 ≤ y
  · rw [if_pos h0]
    simp only [Float64.mul, zero_mul, Float64.ofDyadic, if_true]
  · rw [if_neg h0]
    by_cases h1 : -268 ≤ y
    · rw [if_pos h1]
      simp only [Float64.mul, zero_mul, Float64.ofDyadic, if_true]
    · rw [if_neg h1]
      simp only [Float64.mul, zero_mul, Float64.ofDyadic, if_true]

/-- C9, what the code does instead: in the branch `precision > 0` of `Encode` the scalar
is never read (`_scalar` keeps its zero value), so whatever the scalar, the encoding is 0.
Here for every modulus `N >= 3`, every argument `scalar`, every precision that is not
`<= 0` and every maxExponent, as long as the chosen exponent is above `-256` (so that
`math.Pow (Base, -exponent)` is finite). -/
theorem C9_precision_branch_ignores_scalar (rt : Platform) (addr : Nat) (N : Int)
    (scalar : Value) (precision : Float64) (maxExponent : Int) (hN : 3 ≤ N)
    (hprec : precision.le0 = false)
    (hexp : -256 < min (rt.floorLogBase precision) maxExponent) :
    EncodedNumber.Encode rt (PaillierPublicKey.Init addr N) scalar precision maxExponent
      = .ok ⟨PaillierPublicKey.Init addr N, 0, min (rt.floorLogBase precision) maxExponent⟩ := by
  have hmax : (PaillierPublicKey.Init addr N).maxInt = N / 3 - 1 := rfl
  have hn : (PaillierPublicKey.Init addr N).n = N := rfl
  have hmul := zero_mul_mathPowBase (-(min (rt.floorLogBase precision) maxExponent))
    (by omega)
  have hconv : Float64.toInt64 rt (Float64.Round (.finite 0 0)) = 0 := by
    rw [Round_int]
    exact toInt64_int rt 0 (by decide) (by decide)
  have hN0 : N ≠ 0 := by omega
  have hgt : ¬ (0 > N / 3 - 1) := by omega
  unfold EncodedNumber.Encode
  simp only [hprec, Bool.false_eq_true, if_false, bind, Except.bind, pure, Except.pure, hmul,
    hconv, hmax, hn, hgt, bigMod, hN0, Int.zero_emod, EncodedNumber.Init]

/-- C9, at the failing input: `N = 899` (the primes 29 and 31, max_int = 298), the integer
scalar 5, precision 1 and MaxExponentUnused give encoding 0 and exponent 0, while
`5 mod N = 5`. -/
theorem C9_precision_branch_ignores_scalar_witness :
    EncodedNumber.Encode Platform.amd64 (PaillierPublicKey.Init 0 899) (.int64 5)
        (.finite 1 0) MaxExponentUnused
      = .ok ⟨PaillierPublicKey.Init 0 899, 0,
          min (Platform.amd64.floorLogBase (.finite 1 0)) MaxExponentUnused⟩ :=
  C9_precision_branch_ignores_scalar Platform.amd64 0 899 (.int64 5) (.finite 1 0)
    MaxExponentUnused (by decide) (by decide) (by decide)

/-- C10, at the failing input, a drop of 16: `math.Pow (16, 16) = 2 ^ 64` does not fit an
`int64`, so the factor is whatever `int64` the platform's conversion gives, never
`16 ^ 16`. With `N = 4951760154835678088235319297` (the Mersenne primes `2 ^ 31 - 1` and
`2 ^ 61 - 1`), encoding 1 and exponent 16 lowered to 0, on every platform the call
succeeds with an encoding other than `(1 * 16 ^ 16) mod N`. With the key of the package
tests on x86-64 the encoding is `5403955473591148563`, while
`(1 * 16 ^ 16) mod N = 3819416563263627245`. -/
theorem C10_large_drop_wrong_factor :
    (4951760154835678088235319297 : Int) = (2 ^ 31 - 1) * (2 ^ 61 - 1) ∧
    (∀ rt : Platform, ∃ res,
      EncodedNumber.DecreaseExponentTo rt
          ⟨PaillierPublicKey.Init 0 4951760154835678088235319297, 1, 16⟩ 0 = .ok res ∧
        res.Exponent = 0 ∧
        res.Encoding ≠ (1 * 16 ^ 16) % 4951760154835678088235319297) ∧
    EncodedNumber.DecreaseExponentTo Platform.amd64
        ⟨PaillierPublicKey.Init 0 14627327510445924371, 1, 16⟩ 0
      = .ok ⟨PaillierPublicKey.Init 0 14627327510445924371, 5403955473591148563, 0⟩ ∧
    (1 * 16 ^ 16 : Int) % 14627327510445924371 = 3819416563263627245 := by
  refine ⟨by norm_num, fun rt => ?_, by decide, by decide⟩
  have h1 := rt.int64Overflow_ge (.finite (16 ^ 16) 0)
  have h2 := rt.int64Overflow_lt (.finite (16 ^ 16) 0)
  refine ⟨⟨PaillierPublicKey.Init 0 4951760154835678088235319297,
    (1 * rt.int64Overflow (.finite (16 ^ 16) 0)) % 4951760154835678088235319297, 0⟩,
    rfl, rfl, ?_⟩
  show (1 * rt.int64Overflow (.finite (16 ^ 16) 0)) % 4951760154835678088235319297
    ≠ (1 * 16 ^ 16) % 4951760154835678088235319297
  norm_num at h1 h2 ⊢
  omega

theorem mathPowBase_toInt64 (rt : Platform) (d : Int) (h0 : 0 ≤ d) (h1 : d ≤ 15) :
    (mathPowBase d).toInt64 rt = 16 ^ d.toNat := by
  have hle : d.toNat ≤ 15 := by omega
  have hpow : (16 : Int) ^ d.toNat ≤ 16 ^ 15 :=
    pow_le_pow_right₀ (by norm_num) hle
  have hpos : (0 : Int) < 16 ^ d.toNat := by positivity
  unfold mathPowBase
  rw [if_neg (by omega), if_pos h0]
  exact toInt64_int rt _ (by unfold Base; omega) (by unfold Base; omega)

/-- `EncodedNumber.DecreaseExponentTo (new_exp)` fails when `new_exp > exponent`, and for
every `new_exp <= exponent` whose drop `D = exponent - new_exp` is at most 15 returns an
EncodedNumber with exponent new_exp and encoding `(encoding * 16 ^ D) mod N`, where
`16 ^ D` is the exact integer power. -/
theorem DecreaseExponentTo_small_drop (rt : Platform) (addr : Nat) (N enc ex : Int)
    (hN : 1 ≤ N) :
    (∀ newExp : Int, newExp > ex →
      EncodedNumber.DecreaseExponentTo rt ⟨PaillierPublicKey.Init addr N, enc, ex⟩ newExp
        = .error .exponentRaise) ∧
    (∀ newExp : Int, newExp ≤ ex → ex - newExp ≤ 15 →
      EncodedNumber.DecreaseExponentTo rt ⟨PaillierPublicKey.Init addr N, enc, ex⟩ newExp
        = .ok ⟨PaillierPublicKey.Init addr N, (enc * 16 ^ (ex - newExp).toNat) % N,
            newExp⟩) := by
  have hn : (PaillierPublicKey.Init addr N).n = N := rfl
  have hN0 : N ≠ 0 := by omega
  constructor
  · intro newExp h
    unfold EncodedNumber.DecreaseExponentTo
    simp only [h, if_true, bind, Except.bind, throw, throwThe, MonadExceptOf.throw]
  · intro newExp h hd
    have hng : ¬ (newExp > ex) := by omega
    have hf := mathPowBase_toInt64 rt (ex - newExp) (by omega) hd
    unfold EncodedNumber.DecreaseExponentTo
    simp only [hng, if_false, bind, Except.bind, pure, Except.pure, hf, hn, bigMod, hN0,
      EncodedNumber.Init]

/-! ## float64 rounding does not depend on the representation of the dyadic -/

theorem bitLenLoop_fuel (f1 : Nat) :
    ∀ (f2 n : Nat), n ≤ f1 → n ≤ f2 → bitLenLoop f1 n = bitLenLoop f2 n := by
  induction f1 with
  | zero =>
    intro f2 n h1 _
    have : n = 0 := by omega
    subst this
    cases f2 <;> simp [bitLenLoop]
  | succ k ih =>
    intro f2 n h1 h2
    cases f2 with
    | zero =>
      have : n = 0 := by omega
      subst this
      simp [bitLenLoop]
    | succ j =>
      by_cases h0 : n = 0
      · simp [bitLenLoop, h0]
      · simp only [bitLenLoop, h0, if_false]
        rw [ih j (n / 2) (by omega) (by omega)]

theorem bitLen_double (a : Nat) (ha : a ≠ 0) : bitLen (2 * a) = bitLen a + 1 := by
  unfold bitLen
  have h2 : 2 * a = (2 * a - 1) + 1 := by omega
  conv_lhs => rw [h2]
  have hne : ¬ (2 * a - 1 + 1 = 0) := by omega
  simp only [bitLenLoop, hne, if_false]
  have hdiv : (2 * a - 1 + 1) / 2 = a := by omega
  rw [hdiv, bitLenLoop_fuel (2 * a - 1) a a (by omega) le_rfl]

theorem bitLen_mul_two_pow (a k : Nat) (ha : a ≠ 0) : bitLen (a * 2 ^ k) = bitLen a + k := by
  induction k with
  | zero => simp
  | succ j ih =>
    have e : a * 2 ^ (j + 1) = 2 * (a * 2 ^ j) := by rw [pow_succ]; ring
    have hne : a * 2 ^ j ≠ 0 := Nat.mul_ne_zero ha (by positivity)
    rw [e, bitLen_double _ hne, ih]
    omega

theorem normalize_shift (k : Nat) :
    ∀ (n : Int) (sc : Nat), Float64.normalize (n * 2 ^ k) (sc + k) = Float64.normalize n sc := by
  induction k with
  | zero =>
    intro n sc
    simp
  | succ j ih =>
    intro n sc
    have e : n * 2 ^ (j + 1) = (n * 2 ^ j) * 2 := by rw [pow_succ]; ring
    have hs : sc + (j + 1) = (sc + j) + 1 := by omega
    rw [hs, Float64.normalize]
    have hmod : n * 2 ^ (j + 1) % 2 = 0 := by
      rw [e]
      exact Int.mul_emod_left _ _
    have hdiv : n * 2 ^ (j + 1) / 2 = n * 2 ^ j := by
      rw [e]
      exact Int.mul_ediv_cancel _ (by norm_num)
    rw [if_pos hmod, hdiv]
    exact ih n sc

theorem ofDyadic_shift (n : Int) (sc k : Nat) :
    Float64.ofDyadic (n * 2 ^ k) (sc + k) = Float64.ofDyadic n sc := by
  by_cases hn : n = 0
  · subst hn
    simp [Float64.ofDyadic]
  have hpow : (0 : Int) < 2 ^ k := by positivity
  have hn2 : n * 2 ^ k ≠ 0 := mul_ne_zero hn (ne_of_gt hpow)
  have habs : (n * 2 ^ k).natAbs = n.natAbs * 2 ^ k := by
    rw [Int.natAbs_mul, Int.natAbs_pow]
    rfl
  have ha : n.natAbs ≠ 0 := Int.natAbs_ne_zero.mpr hn
  have hbl : bitLen (n.natAbs * 2 ^ k) = bitLen n.natAbs + k := bitLen_mul_two_pow _ _ ha
  have hsign : (n * 2 ^ k).sign = n.sign := by
    rw [Int.sign_mul, Int.sign_eq_one_of_pos hpow, mul_one]
  have hneg : decide (n * 2 ^ k < 0) = decide (n < 0) := by
    have : (n * 2 ^ k < 0) ↔ (n < 0) := by
      constructor
      · intro h
        by_contra hc
        have : 0 ≤ n * 2 ^ k := mul_nonneg (by omega) (le_of_lt hpow)
        omega
      · intro h
        exact mul_neg_of_neg_of_pos h hpow
    simp only [this]
  have hnab : n.sign * (n.natAbs : Int) = n := by
    rw [Int.natCast_natAbs]
    exact Int.sign_mul_abs n
  unfold Float64.ofDyadic
  simp only [hn, hn2, if_false, habs, hbl, hsign, hneg, Nat.cast_add]
  have htop : (bitLen n.natAbs : Int) + (k : Int) - 1 - ((sc : Int) + (k : Int)) - 52
      = (bitLen n.natAbs : Int) - 1 - (sc : Int) - 52 := by ring
  rw [htop]
  generalize hu : max ((bitLen n.natAbs : Int) - 1 - (sc : Int) - 52) (-1074) = u
  generalize hadef : n.natAbs = a at hu hnab ha ⊢
  generalize hsg : n.sign = sg at hnab ⊢
  generalize hng : decide (n < 0) = ng
  by_cases hA : u + ((sc : Int) + (k : Int)) ≤ 0
  · have hA2 : u + (sc : Int) ≤ 0 := by omega
    rw [if_pos hA, if_pos hA2]
    exact normalize_shift k n sc
  · rw [if_neg hA]
    by_cases hB : u + (sc : Int) ≤ 0
    · rw [if_pos hB]
      obtain ⟨j, hj⟩ : ∃ j : Nat, (u + ((sc : Int) + (k : Int))).toNat = j := ⟨_, rfl⟩
      have hjk : j ≤ k := by omega
      have hsplit : a * 2 ^ k = a * 2 ^ (k - j) * 2 ^ j := by
        rw [mul_assoc, ← pow_add]
        congr 2
        omega
      have hmod : a * 2 ^ k % 2 ^ j = 0 := by
        rw [hsplit]
        exact Nat.mul_mod_left _ _
      have hdiv : a * 2 ^ k / 2 ^ j = a * 2 ^ (k - j) := by
        rw [hsplit]
        exact Nat.mul_div_cancel _ (by positivity)
      have hjpos : 0 < 2 ^ j := by positivity
      have hc : ¬ (2 ^ j < 2 * 0 ∨ 2 * 0 = 2 ^ j ∧ a * 2 ^ (k - j) % 2 = 1) := by
        omega
      rw [hj, hmod, hdiv, if_neg hc]
      by_cases hu0 : 0 ≤ u
      · have hsc : sc = 0 := by omega
        have hu00 : u = 0 := by omega
        subst hsc
        have hjk2 : j = k := by omega
        subst hjk2
        have hbits : (bitLen a : Int) ≤ 53 := by
          rw [hu00] at hu
          have := le_max_left ((bitLen a : Int) - 1 - ((0 : Nat) : Int) - 52) (-1074)
          rw [hu] at this
          simpa using this
        rw [if_pos hu0, hu00]
        simp only [Nat.sub_self, pow_zero, mul_one, Int.toNat_zero, add_zero]
        rw [if_neg (by omega), hnab]
        rfl
      · rw [if_neg hu0]
        have hsh : (-u).toNat = sc + (k - j) := by omega
        rw [hsh]
        have hval : sg * ((a * 2 ^ (k - j) : Nat) : Int) = n * 2 ^ (k - j) := by
          push_cast
          rw [← mul_assoc, hnab]
        rw [hval]
        exact normalize_shift (k - j) n sc
    · rw [if_neg hB]
      obtain ⟨j0, hj0⟩ : ∃ j0 : Nat, (u + (sc : Int)).toNat = j0 := ⟨_, rfl⟩
      have hj : (u + ((sc : Int) + (k : Int))).toNat = j0 + k := by omega
      have hmod : a * 2 ^ k % 2 ^ (j0 + k) = a % 2 ^ j0 * 2 ^ k := by
        rw [pow_add]
        exact Nat.mul_mod_mul_right _ _ _
      have hdiv : a * 2 ^ k / 2 ^ (j0 + k) = a / 2 ^ j0 := by
        rw [pow_add]
        exact Nat.mul_div_mul_right _ _ (by positivity)
      have hkpos : 0 < 2 ^ k := by positivity
      have hc1 : 2 ^ (j0 + k) < 2 * (a % 2 ^ j0 * 2 ^ k) ↔ 2 ^ j0 < 2 * (a % 2 ^ j0) := by
        rw [pow_add, ← mul_assoc]
        exact Nat.mul_lt_mul_right hkpos
      have hc2 : 2 * (a % 2 ^ j0 * 2 ^ k) = 2 ^ (j0 + k) ↔ 2 * (a % 2 ^ j0) = 2 ^ j0 := by
        rw [pow_add, ← mul_assoc]
        exact Nat.mul_left_inj (by omega)
      rw [hj, hj0, hmod, hdiv]
      simp only [hc1, hc2]

theorem mathPowBase_of_range (y : Int) (h1 : -268 ≤ y) (h2 : y ≤ 255) :
    mathPowBase y = if 0 ≤ y then .finite (16 ^ y.toNat) 0 else .finite 1 (4 * (-y).toNat) := by
  unfold mathPowBase Base
  rw [if_neg (by omega)]
  by_cases h0 : 0 ≤ y
  · rw [if_pos h0, if_pos h0]
  · rw [if_neg h0, if_neg h0, if_pos h1]

theorem bigFloatMul_rescale (s ex newExp : Int) (h1 : -268 ≤ newExp) (h2 : newExp ≤ ex)
    (h3 : ex ≤ 255) :
    bigFloatMul (s * 16 ^ (ex - newExp).toNat) (mathPowBase newExp)
      = bigFloatMul s (mathPowBase ex) := by
  rw [mathPowBase_of_range newExp h1 (by omega), mathPowBase_of_range ex (by omega) h3]
  have h16 : ∀ j : Nat, (16 : Int) ^ j = 2 ^ (4 * j) := by
    intro j
    rw [pow_mul]
    norm_num
  by_cases c1 : 0 ≤ newExp
  · rw [if_pos c1, if_pos (by omega)]
    simp only [bigFloatMul]
    have e : (ex - newExp).toNat + newExp.toNat = ex.toNat := by omega
    rw [mul_assoc, ← pow_add, e]
  · rw [if_neg c1]
    by_cases c2 : 0 ≤ ex
    · rw [if_pos c2]
      simp only [bigFloatMul, mul_one]
      have e : (ex - newExp).toNat = ex.toNat + (-newExp).toNat := by omega
      have e2 : s * 16 ^ (ex - newExp).toNat
          = (s * 16 ^ ex.toNat) * 2 ^ (4 * (-newExp).toNat) := by
        rw [e, pow_add, h16 (-newExp).toNat]
        ring
      have e3 := ofDyadic_shift (s * 16 ^ ex.toNat) 0 (4 * (-newExp).toNat)
      rw [Nat.zero_add] at e3
      rw [e2, e3]
    · rw [if_neg c2]
      simp only [bigFloatMul, mul_one]
      have e : 4 * (-newExp).toNat = 4 * (-ex).toNat + 4 * (ex - newExp).toNat := by omega
      rw [e, h16 (ex - newExp).toNat]
      exact congrArg Except.ok (ofDyadic_shift s _ _)

theorem Decode_eq (addr : Nat) (N e ex : Int) :
    (EncodedNumber.mk (PaillierPublicKey.Init addr N) e ex).Decode
      = if N ≤ e then .error .corruptedEncoding
        else if e ≤ N / 3 - 1 then bigFloatMul e (mathPowBase ex)
        else if N - (N / 3 - 1) ≤ e then bigFloatMul (e - N) (mathPowBase ex)
        else .error .overflow := by
  have hmax : (PaillierPublicKey.Init addr N).maxInt = N / 3 - 1 := rfl
  have hn : (PaillierPublicKey.Init addr N).n = N := rfl
  unfold EncodedNumber.Decode
  simp only [hn, hmax, ge_iff_le, bind, Except.bind, pure, Except.pure, throw, throwThe,
    MonadExceptOf.throw]

theorem Decode_of_signedMantissa (addr : Nat) (N e ex s : Int)
    (hs : signedMantissa (PaillierPublicKey.Init addr N) e = some s) :
    (EncodedNumber.mk (PaillierPublicKey.Init addr N) e ex).Decode
      = bigFloatMul s (mathPowBase ex) := by
  have hmax : (PaillierPublicKey.Init addr N).maxInt = N / 3 - 1 := rfl
  have hn : (PaillierPublicKey.Init addr N).n = N := rfl
  unfold signedMantissa at hs
  rw [hmax, hn] at hs
  rw [Decode_eq]
  by_cases c1 : 0 ≤ e ∧ e ≤ N / 3 - 1
  · rw [if_pos c1] at hs
    have : e = s := Option.some.inj hs
    subst this
    rw [if_neg (by omega), if_pos c1.2]
  · rw [if_neg c1] at hs
    by_cases c2 : N - (N / 3 - 1) ≤ e ∧ e < N
    · rw [if_pos c2] at hs
      have : e - N = s := Option.some.inj hs
      subst this
      rw [if_neg (by omega), if_neg (by omega), if_pos c2.1]
    · rw [if_neg c2] at hs
      cases hs

theorem signedMantissa_rescale (addr : Nat) (N e s P : Int) (hP : 0 < P)
    (hs : signedMantissa (PaillierPublicKey.Init addr N) e = some s)
    (hfit : |s| * P ≤ (PaillierPublicKey.Init addr N).maxInt) :
    signedMantissa (PaillierPublicKey.Init addr N) (e * P % N) = some (s * P) := by
  have hmax : (PaillierPublicKey.Init addr N).maxInt = N / 3 - 1 := rfl
  have hn : (PaillierPublicKey.Init addr N).n = N := rfl
  unfold signedMantissa at hs ⊢
  rw [hmax, hn] at hs ⊢
  rw [hmax] at hfit
  have hnn : 0 ≤ |s| * P := mul_nonneg (abs_nonneg s) (le_of_lt hP)
  by_cases c1 : 0 ≤ e ∧ e ≤ N / 3 - 1
  · rw [if_pos c1] at hs
    have : e = s := Option.some.inj hs
    subst this
    rw [abs_of_nonneg c1.1] at hfit hnn
    have hmod : e * P % N = e * P := Int.emod_eq_of_lt hnn (by omega)
    rw [hmod, if_pos ⟨hnn, hfit⟩]
  · rw [if_neg c1] at hs
    by_cases c2 : N - (N / 3 - 1) ≤ e ∧ e < N
    · rw [if_pos c2] at hs
      have hse : e - N = s := Option.some.inj hs
      have hneg : s < 0 := by omega
      rw [abs_of_neg hneg] at hfit hnn
      have hsp : s * P < 0 := mul_neg_of_neg_of_pos hneg hP
      have hsp2 : -s * P = -(s * P) := by ring
      rw [hsp2] at hfit hnn
      have he : e * P = (s * P + N) + N * (P - 1) := by
        rw [← hse]
        ring
      have hmod : e * P % N = s * P + N := by
        rw [he, Int.add_mul_emod_self_left]
        exact Int.emod_eq_of_lt (by omega) (by omega)
      rw [hmod, if_neg (by omega), if_pos (by omega)]
      congr 1
      ring
    · rw [if_neg c2] at hs
      cases hs

/-! ## Claims on rescaling -/

/-- C11, as stated, fails for low exponents: with `N = 899` (the primes 29 and 31,
max_int = 298), the encoding 1 (signed mantissa 1) at exponent -267 and the drop `D = 2`
(`1 * 16 ^ 2 = 256 <= max_int`), `DecreaseExponentTo (-269)` returns the encoding 256, yet
the two numbers decode to different values: `Decode` of the original is `2 ^ (-1068)`,
`Decode` of the result is 0, because `math.Pow (16, -269)` underflows to 0. -/
theorem C11_counterexample :
    signedMantissa (PaillierPublicKey.Init 0 899) 1 = some 1 ∧
    |(1 : Int)| * 16 ^ 2 ≤ (PaillierPublicKey.Init 0 899).maxInt ∧
    (∀ rt : Platform,
      EncodedNumber.DecreaseExponentTo rt ⟨PaillierPublicKey.Init 0 899, 1, -267⟩ (-269)
        = .ok ⟨PaillierPublicKey.Init 0 899, 256, -269⟩) ∧
    EncodedNumber.Decode ⟨PaillierPublicKey.Init 0 899, 1, -267⟩ = .ok (.finite 1 1068) ∧
    EncodedNumber.Decode ⟨PaillierPublicKey.Init 0 899, 256, -269⟩ = .ok (.finite 0 0) :=
  ⟨by decide, by decide, fun _ => rfl, by decide, by decide⟩

/-- C11 (amended): for every in-envelope EncodedNumber with signed mantissa s and every
drop `D = exponent - new_exp` with `0 <= D <= 15` and `|s| * 16 ^ D <= max_int`, the result
of `DecreaseExponentTo (new_exp)` has exponent new_exp and is in envelope with signed
mantissa `s * 16 ^ D`, so `s' * B ^ new_exp = s * B ^ exponent`; and when
`-268 <= new_exp` and `exponent <= 255` (the exponents at which `math.Pow (16, _)` is
exact) both decode to the same value. -/
theorem C11_rescale_invariance (rt : Platform) (addr : Nat) (N e ex newExp s : Int)
    (hs : signedMantissa (PaillierPublicKey.Init addr N) e = some s)
    (hD0 : newExp ≤ ex) (hD1 : ex - newExp ≤ 15)
    (hfit : |s| * 16 ^ (ex - newExp).toNat ≤ (PaillierPublicKey.Init addr N).maxInt) :
    ∃ res, EncodedNumber.DecreaseExponentTo rt ⟨PaillierPublicKey.Init addr N, e, ex⟩ newExp
        = .ok res ∧
      res.Exponent = newExp ∧
      signedMantissa (PaillierPublicKey.Init addr N) res.Encoding
        = some (s * 16 ^ (ex - newExp).toNat) ∧
      ((s * 16 ^ (ex - newExp).toNat : Int) : ℚ) * (16 : ℚ) ^ newExp = (s : ℚ) * (16 : ℚ) ^ ex ∧
      (-268 ≤ newExp → ex ≤ 255 →
        ∃ v, res.Decode = .ok v ∧
          (EncodedNumber.mk (PaillierPublicKey.Init addr N) e ex).Decode = .ok v) := by
  have hmax : (PaillierPublicKey.Init addr N).maxInt = N / 3 - 1 := rfl
  have hP : (0 : Int) < 16 ^ (ex - newExp).toNat := by positivity
  have hN : 1 ≤ N := by
    have := mul_nonneg (abs_nonneg s) (le_of_lt hP)
    rw [hmax] at hfit
    omega
  have hstep := (DecreaseExponentTo_small_drop rt addr N e ex hN).2 newExp hD0 hD1
  have hsm := signedMantissa_rescale addr N e s _ hP hs hfit
  refine ⟨_, hstep, rfl, hsm, ?_, ?_⟩
  · have hD : (((ex - newExp).toNat : Nat) : Int) = ex - newExp := Int.toNat_of_nonneg (by omega)
    have h16 : (16 : ℚ) ≠ 0 := by norm_num
    have hsplit : (16 : ℚ) ^ ex = (16 : ℚ) ^ (ex - newExp).toNat * (16 : ℚ) ^ newExp := by
      rw [← zpow_natCast, ← zpow_add₀ h16, hD]
      congr 1
      ring
    rw [hsplit]
    push_cast
    ring
  · intro h1 h2
    have hd1 := Decode_of_signedMantissa addr N _ newExp _ hsm
    have hd2 := Decode_of_signedMantissa addr N e ex s hs
    have hre := bigFloatMul_rescale s ex newExp h1 hD0 h2
    have hok : ∃ v, bigFloatMul s (mathPowBase ex) = .ok v := by
      rw [mathPowBase_of_range ex (by omega) h2]
      by_cases c : 0 ≤ ex
      · rw [if_pos c]
        exact ⟨_, rfl⟩
      · rw [if_neg c]
        exact ⟨_, rfl⟩
    obtain ⟨v, hv⟩ := hok
    refine ⟨v, ?_, ?_⟩
    · rw [hd1, hre, hv]
    · rw [hd2, hv]

/-- C11 (amended), at `N = 899`, the encoding 898 (signed mantissa -1), exponent -12
lowered to -13, as in the package test. -/
theorem C11_rescale_invariance_witness :
    ∃ res, EncodedNumber.DecreaseExponentTo Platform.amd64
        ⟨PaillierPublicKey.Init 0 899, 898, -12⟩ (-13) = .ok res ∧
      res.Exponent = -13 ∧
      signedMantissa (PaillierPublicKey.Init 0 899) res.Encoding
        = some (-1 * 16 ^ ((-12 : Int) - (-13)).toNat) ∧
      (((-1 : Int) * 16 ^ ((-12 : Int) - (-13)).toNat : Int) : ℚ) * (16 : ℚ) ^ (-13 : Int)
        = ((-1 : Int) : ℚ) * (16 : ℚ) ^ (-12 : Int) ∧
      (-268 ≤ (-13 : Int) → (-12 : Int) ≤ 255 →
        ∃ v, res.Decode = .ok v ∧
          (EncodedNumber.mk (PaillierPublicKey.Init 0 899) 898 (-12)).Decode = .ok v) :=
  C11_rescale_invariance Platform.amd64 0 899 898 (-12) (-13) (-1) (by decide) (by decide)
    (by decide) (by decide)

theorem ofInt64_pow16 (j : Nat) (hj : j ≤ 15) :
    Float64.ofInt64 (16 ^ j) = .finite (16 ^ j) 0 := by
  interval_cases j <;> decide

theorem EncryptedNumber_DecreaseExponentTo_small_drop (rt : Platform) (addr : Nat)
    (N m newExp : Int) (en : EncryptedNumber) (hN : 1 ≤ N)
    (hen : en.PublicKey = PaillierPublicKey.Init addr N)
    (hc : IsCiphertextOf N en.ciphertext m)
    (hD0 : newExp ≤ en.Exponent) (hD1 : en.Exponent - newExp ≤ 15)
    (hfit : 16 ^ (en.Exponent - newExp).toNat ≤ (PaillierPublicKey.Init addr N).maxInt) :
    ∃ c t, en.DecreaseExponentTo rt newExp
        = .ok ⟨PaillierPublicKey.Init addr N, c, newExp, false⟩ ∧
      IsCiphertextOf N c t ∧ t ≡ m * 16 ^ (en.Exponent - newExp).toNat [ZMOD N] := by
  have hmax : (PaillierPublicKey.Init addr N).maxInt = N / 3 - 1 := rfl
  rw [hmax] at hfit
  have hP : (0 : Int) < 16 ^ (en.Exponent - newExp).toNat := by positivity
  have hle : (en.Exponent - newExp).toNat ≤ 15 := by omega
  have hpow : (16 : Int) ^ (en.Exponent - newExp).toNat ≤ 16 ^ 15 :=
    pow_le_pow_right₀ (by norm_num) hle
  have hf := mathPowBase_toInt64 rt (en.Exponent - newExp) (by omega) hD1
  have henc := Encode_int64 rt addr N (16 ^ (en.Exponent - newExp).toNat) (by omega)
    (ofInt64_pow16 _ hle) (by omega) (by omega)
  rw [if_neg (by omega)] at henc
  have hmod : (16 : Int) ^ (en.Exponent - newExp).toNat % N
      = 16 ^ (en.Exponent - newExp).toNat := Int.emod_eq_of_lt (le_of_lt hP) (by omega)
  rw [hmod] at henc
  obtain ⟨c, t, hmul, hct, htm⟩ := rawMul_of_ciphertext en addr N m
    (16 ^ (en.Exponent - newExp).toNat) hN hen hc (le_of_lt hP) (by omega)
  refine ⟨c, t, ?_, hct, htm⟩
  have hng : ¬ (newExp > en.Exponent) := by omega
  unfold EncryptedNumber.DecreaseExponentTo EncryptedNumber.Mul
  simp only [hng, if_false, hf, hen, henc, hmul, bind, Except.bind, pure, Except.pure,
    EncryptedNumber.Init]

theorem EncryptedNumber_DecreaseExponentTo_too_large (rt : Platform) (addr : Nat)
    (N newExp : Int) (en : EncryptedNumber) (hN : N ≠ 0)
    (hen : en.PublicKey = PaillierPublicKey.Init addr N)
    (hD0 : newExp ≤ en.Exponent) (hD1 : en.Exponent - newExp ≤ 15)
    (hbig : (PaillierPublicKey.Init addr N).maxInt < 16 ^ (en.Exponent - newExp).toNat) :
    en.DecreaseExponentTo rt newExp = .error .plaintextTooLarge := by
  have hmax : (PaillierPublicKey.Init addr N).maxInt = N / 3 - 1 := rfl
  rw [hmax] at hbig
  have hP : (0 : Int) < 16 ^ (en.Exponent - newExp).toNat := by positivity
  have hle : (en.Exponent - newExp).toNat ≤ 15 := by omega
  have hpow : (16 : Int) ^ (en.Exponent - newExp).toNat ≤ 16 ^ 15 :=
    pow_le_pow_right₀ (by norm_num) hle
  have hf := mathPowBase_toInt64 rt (en.Exponent - newExp) (by omega) hD1
  have henc := Encode_int64 rt addr N (16 ^ (en.Exponent - newExp).toNat) hN
    (ofInt64_pow16 _ hle) (by omega) (by omega)
  rw [if_pos (by omega)] at henc
  have hng : ¬ (newExp > en.Exponent) := by omega
  unfold EncryptedNumber.DecreaseExponentTo EncryptedNumber.Mul
  simp only [hng, if_false, hf, hen, henc, bind, Except.bind, pure, Except.pure]

/-- C12, as stated, fails when the factor exceeds max_int: with the key of the primes 29
and 31 (N = 899, max_int = 298), a ciphertext of 1 at exponent 3 and `new_exp = 0`, the
factor `16 ^ 3 = 4096` is encoded by `Mul` and rejected by `Encode`, so
`DecreaseExponentTo` panics (PlaintextTooLarge) instead of returning a ciphertext of
`(1 * 16 ^ 3) mod N`. -/
theorem C12_counterexample :
    ∃ pk sk, GeneratePaillierKeypairByPQ 0 29 31 = .ok (pk, sk) ∧
      pk.n = 899 ∧ pk.maxInt = 298 ∧
      pk.RawEncrypt 1 (some 2) 0 = .ok 202167 ∧
      ∀ rt : Platform, (EncryptedNumber.Init pk 202167 3).DecreaseExponentTo rt 0
        = .error .plaintextTooLarge := by
  refine ⟨PaillierPublicKey.Init 0 899,
    ⟨PaillierPublicKey.Init 0 899, 29, 31, 841, 961, some 15, some 14, some 16⟩,
    by decide, rfl, rfl, by decide, fun rt => ?_⟩
  exact EncryptedNumber_DecreaseExponentTo_too_large rt 0 899 0
    (EncryptedNumber.Init (PaillierPublicKey.Init 0 899) 202167 3) (by decide) rfl
    (by decide) (by decide) (by decide)

/-- C12 (amended): for every EncryptedNumber `en` (ciphertext `RawEncrypt (m, r)`, r
coprime to N) and every `new_exp <= en.Exponent` whose drop `D = en.Exponent - new_exp` is
at most 15 and whose factor satisfies `16 ^ D <= max_int`, `en.DecreaseExponentTo (new_exp)`
returns a number with exponent new_exp whose raw decryption is `(m * 16 ^ D) mod N`;
`DecryptEncoded` of it is the EncodedNumber that `DecryptEncoded (en)` rescaled by
`DecreaseExponentTo (new_exp)` is. -/
theorem C12_ciphertext_rescale (addr p q : Nat) (hp : p.Prime) (hq : q.Prime) (hpq : p ≠ q) :
    ∃ pk sk, GeneratePaillierKeypairByPQ addr p q = .ok (pk, sk) ∧
      pk.n = (p : Int) * q ∧ pk.maxInt = pk.n / 3 - 1 ∧
      ∀ (rt : Platform) (en : EncryptedNumber) (m r d newExp : Int),
        en.PublicKey = pk → 0 ≤ m → m < pk.n → Int.gcd r pk.n = 1 →
        pk.RawEncrypt m (some r) d = .ok en.ciphertext →
        newExp ≤ en.Exponent → en.Exponent - newExp ≤ 15 →
        16 ^ (en.Exponent - newExp).toNat ≤ pk.maxInt →
        ∃ res plain low, en.DecreaseExponentTo rt newExp = .ok res ∧
          res.Exponent = newExp ∧
          sk.RawDecrypt res.ciphertext
            = .ok ((m * 16 ^ (en.Exponent - newExp).toNat) % pk.n) ∧
          sk.DecryptEncoded en = .ok plain ∧
          plain.DecreaseExponentTo rt newExp = .ok low ∧
          sk.DecryptEncoded res = .ok low := by
  obtain ⟨sk, P, Q, hgen, hpub, hold, hPQ⟩ := keypair_spec addr p q hp hq hpq
  have hN4 := prime_mul_ge hp hq
  have hN : (1 : Int) ≤ (p : Int) * q := by omega
  have hn : (PaillierPublicKey.Init addr ((p : Int) * q)).n = (p : Int) * q := rfl
  refine ⟨_, sk, hgen, rfl, rfl, ?_⟩
  intro rt en m r d newExp hen hm0 hm1 hr hca hD0 hD1 hfit
  rw [hn] at hr hm1 ⊢
  obtain ⟨ca, hca2, hcam⟩ := RawEncrypt_isCiphertext addr ((p : Int) * q) m r d hN
    (Int.isCoprime_iff_gcd_eq_one.mpr hr)
  have hceq : ca = en.ciphertext := by
    rw [hca2] at hca
    exact Except.ok.inj hca
  rw [hceq] at hcam
  obtain ⟨c, t, hdec, hct, htm⟩ := EncryptedNumber_DecreaseExponentTo_small_drop rt addr
    ((p : Int) * q) m newExp en hN hen hcam hD0 hD1 hfit
  have hraw1 : sk.RawDecrypt en.ciphertext = .ok m := by
    have h := RawDecrypt_of_ciphertext sk P Q hold en.ciphertext m (by rw [hPQ]; exact hcam)
    rw [h, hPQ]
    congr 1
    exact Int.emod_eq_of_lt hm0 hm1
  have hraw2 : sk.RawDecrypt c
      = .ok ((m * 16 ^ (en.Exponent - newExp).toNat) % ((p : Int) * q)) := by
    have h := RawDecrypt_of_ciphertext sk P Q hold c t (by rw [hPQ]; exact hct)
    rw [h, hPQ]
    congr 1
  have hlow := (DecreaseExponentTo_small_drop rt addr ((p : Int) * q) m en.Exponent hN).2
    newExp hD0 hD1
  refine ⟨_, ⟨PaillierPublicKey.Init addr ((p : Int) * q), m, en.Exponent⟩, _, hdec, rfl,
    hraw2, ?_, hlow, ?_⟩
  · unfold PaillierPrivateKey.DecryptEncoded
    simp only [hpub, hen, PaillierPublicKey.Equal, beq_self_eq_true, Bool.not_true,
      Bool.false_eq_true, if_false, Ciphertext_false, hraw1, bind, Except.bind, pure,
      Except.pure, EncodedNumber.Init]
  · unfold PaillierPrivateKey.DecryptEncoded
    simp only [hpub, PaillierPublicKey.Equal, beq_self_eq_true, Bool.not_true,
      Bool.false_eq_true, if_false, Ciphertext_false, hraw2, bind, Except.bind, pure,
      Except.pure, EncodedNumber.Init]

/-- C12 (amended), at the key of the primes 29 and 31. -/
theorem C12_ciphertext_rescale_witness :
    ∃ pk sk, GeneratePaillierKeypairByPQ 0 29 31 = .ok (pk, sk) ∧
      pk.n = ((29 : Nat) : Int) * (31 : Nat) ∧ pk.maxInt = pk.n / 3 - 1 ∧
      ∀ (rt : Platform) (en : EncryptedNumber) (m r d newExp : Int),
        en.PublicKey = pk → 0 ≤ m → m < pk.n → Int.gcd r pk.n = 1 →
        pk.RawEncrypt m (some r) d = .ok en.ciphertext →
        newExp ≤ en.Exponent → en.Exponent - newExp ≤ 15 →
        16 ^ (en.Exponent - newExp).toNat ≤ pk.maxInt →
        ∃ res plain low, en.DecreaseExponentTo rt newExp = .ok res ∧
          res.Exponent = newExp ∧
          sk.RawDecrypt res.ciphertext
            = .ok ((m * 16 ^ (en.Exponent - newExp).toNat) % pk.n) ∧
          sk.DecryptEncoded en = .ok plain ∧
          plain.DecreaseExponentTo rt newExp = .ok low ∧
          sk.DecryptEncoded res = .ok low :=
  C12_ciphertext_rescale 0 29 31 (by norm_num) (by norm_num) (by decide)

/-! ## Claims on the guards of the homomorphic operations -/

/-- C13, as stated, fails on the overflow band: with `N = 899` (the primes 29 and 31,
max_int = 298) the scalar 400 lies strictly between max_int and `N - max_int = 601`, and
`rawMul (400)` on the ciphertext 2 returns `2 ^ 400 mod N ^ 2 = 338831` instead of
failing. -/
theorem C13_counterexample :
    (PaillierPublicKey.Init 0 899).maxInt < 400 ∧
    (400 : Int) < (PaillierPublicKey.Init 0 899).n - (PaillierPublicKey.Init 0 899).maxInt ∧
    (EncryptedNumber.Init (PaillierPublicKey.Init 0 899) 2 0).rawMul 400 = .ok 338831 ∧
    (2 : Int) ^ 400 % (899 * 899) = 338831 :=
  ⟨by decide, by decide, by decide, by norm_num⟩

theorem ModInverse_none_of_gcd {c N : Int} (hg : Int.gcd c N ≠ 1) :
    ModInverse c (N * N) = none := by
  cases hm : ModInverse c (N * N) with
  | none => rfl
  | some x =>
    exfalso
    apply hg
    have hx := (ModInverse_some hm).2.2
    obtain ⟨k, hk⟩ := Int.modEq_iff_dvd.mp hx
    have hcop : IsCoprime c N := ⟨x, N * k, by linarith⟩
    exact Int.isCoprime_iff_gcd_eq_one.mp hcop

/-- C13 (amended): under a key of modulus `N >= 1`, `rawMul (s)` fails with
ScalarOutOfBounds exactly when s is negative or `s >= N`. For every s in
`[0, N - max_int)` below N, the overflow band `max_int < s < N - max_int` included, it
returns `c ^ s mod N ^ 2`. For every s in `[N - max_int, N)`: when the ciphertext c is
coprime to N it returns `inv ^ (N - s) mod N ^ 2`, where inv is the inverse of c modulo
`N ^ 2` taken in `[0, N ^ 2)`; when c is not coprime to N the modular inverse is nil and
the call ends in a nil dereference, not in ScalarOutOfBounds. -/
theorem C13_rawMul_bounds (addr : Nat) (N : Int) (en : EncryptedNumber) (hN : 1 ≤ N)
    (hen : en.PublicKey = PaillierPublicKey.Init addr N) :
    (∀ s : Int, en.rawMul s = .error .scalarOutOfBounds ↔ (s < 0 ∨ N ≤ s)) ∧
    (∀ s : Int, 0 ≤ s → s < N → s < N - (PaillierPublicKey.Init addr N).maxInt →
      en.rawMul s = .ok (en.ciphertext ^ s.toNat % (N * N))) ∧
    (∀ s : Int, N - (PaillierPublicKey.Init addr N).maxInt ≤ s → 0 ≤ s → s < N →
      Int.gcd en.ciphertext N = 1 →
      ∃ inv, 0 ≤ inv ∧ inv < N * N ∧ en.ciphertext * inv ≡ 1 [ZMOD N * N] ∧
        en.rawMul s = .ok (inv ^ (N - s).toNat % (N * N))) ∧
    (∀ s : Int, N - (PaillierPublicKey.Init addr N).maxInt ≤ s → 0 ≤ s → s < N →
      Int.gcd en.ciphertext N ≠ 1 → en.rawMul s = .error .nilDereference) := by
  have hN0 : N ≠ 0 := by omega
  have hNN : N * N ≠ 0 := mul_ne_zero hN0 hN0
  have hNNpos : 0 < N * N := by positivity
  have hn : (PaillierPublicKey.Init addr N).n = N := rfl
  have hnsq : (PaillierPublicKey.Init addr N).nsquare = N * N := rfl
  have hout : ∀ s : Int, s < 0 ∨ N ≤ s → en.rawMul s = .error .scalarOutOfBounds := by
    intro s hs
    have hguard : s < 0 ∨ s ≥ N := hs
    unfold EncryptedNumber.rawMul
    simp only [hen, hn, hguard, if_true, bind, Except.bind, throw, throwThe,
      MonadExceptOf.throw]
  have hlow : ∀ s : Int, 0 ≤ s → s < N → s < N - (PaillierPublicKey.Init addr N).maxInt →
      en.rawMul s = .ok (en.ciphertext ^ s.toNat % (N * N)) := by
    intro s h0 h1 hb
    have hguard : ¬ (s < 0 ∨ s ≥ N) := by omega
    have hnb : ¬ (N - (PaillierPublicKey.Init addr N).maxInt ≤ s) := by omega
    have hexp : Exp en.ciphertext s (N * N) = some (en.ciphertext ^ s.toNat % (N * N)) :=
      Exp_of_nonneg h0 hNN
    unfold EncryptedNumber.rawMul
    simp only [hen, hn, hguard, if_false, hnb, Ciphertext_false, hnsq, deref, hexp, bind,
      Except.bind, pure, Except.pure]
  have hhigh : ∀ s : Int, N - (PaillierPublicKey.Init addr N).maxInt ≤ s → 0 ≤ s → s < N →
      Int.gcd en.ciphertext N = 1 →
      ∃ inv, 0 ≤ inv ∧ inv < N * N ∧ en.ciphertext * inv ≡ 1 [ZMOD N * N] ∧
        en.rawMul s = .ok (inv ^ (N - s).toNat % (N * N)) := by
    intro s hb h0 h1 hg
    have hguard : ¬ (s < 0 ∨ s ≥ N) := by omega
    have hcop : IsCoprime en.ciphertext (N * N) := by
      have h := Int.isCoprime_iff_gcd_eq_one.mpr hg
      exact IsCoprime.mul_right h h
    obtain ⟨x, hx, hxc⟩ := ModInverse_of_isCoprime hNN hcop
    have hrange := ModInverse_some hx
    have hexp : Exp x (N - s) (N * N) = some (x ^ (N - s).toNat % (N * N)) :=
      Exp_of_nonneg (by omega) hNN
    refine ⟨x, hrange.1, ?_, hxc, ?_⟩
    · have := hrange.2.1
      rwa [abs_of_pos hNNpos] at this
    · unfold EncryptedNumber.rawMul
      simp only [hen, hn, hguard, if_false, hb, if_true, Ciphertext_false, hnsq, deref, hx,
        hexp, bind, Except.bind, pure, Except.pure]
  have hnil : ∀ s : Int, N - (PaillierPublicKey.Init addr N).maxInt ≤ s → 0 ≤ s → s < N →
      Int.gcd en.ciphertext N ≠ 1 → en.rawMul s = .error .nilDereference := by
    intro s hb h0 h1 hg
    have hguard : ¬ (s < 0 ∨ s ≥ N) := by omega
    have hx := ModInverse_none_of_gcd hg
    unfold EncryptedNumber.rawMul
    simp only [hen, hn, hguard, if_false, hb, if_true, Ciphertext_false, hnsq, deref, hx,
      bind, Except.bind, pure, Except.pure]
  refine ⟨fun s => ⟨fun h => ?_, hout s⟩, hlow, hhigh, hnil⟩
  by_contra hc
  have h0 : 0 ≤ s := by omega
  have h1 : s < N := by omega
  by_cases hb : N - (PaillierPublicKey.Init addr N).maxInt ≤ s
  · by_cases hg : Int.gcd en.ciphertext N = 1
    · obtain ⟨inv, _, _, _, hr⟩ := hhigh s hb h0 h1 hg
      rw [hr] at h
      cases h
    · rw [hnil s hb h0 h1 hg] at h
      cases h
  · rw [hlow s h0 h1 (by omega)] at h
    cases h

/-- C13 (amended), at `N = 899` and the ciphertext 2. -/
theorem C13_rawMul_bounds_witness :
    (∀ s : Int, (EncryptedNumber.Init (PaillierPublicKey.Init 0 899) 2 0).rawMul s
        = .error .scalarOutOfBounds ↔ (s < 0 ∨ 899 ≤ s)) ∧
    (∀ s : Int, 0 ≤ s → s < 899 → s < 899 - (PaillierPublicKey.Init 0 899).maxInt →
      (EncryptedNumber.Init (PaillierPublicKey.Init 0 899) 2 0).rawMul s
        = .ok ((EncryptedNumber.Init (PaillierPublicKey.Init 0 899) 2 0).ciphertext
            ^ s.toNat % (899 * 899))) ∧
    (∀ s : Int, 899 - (PaillierPublicKey.Init 0 899).maxInt ≤ s → 0 ≤ s → s < 899 →
      Int.gcd (EncryptedNumber.Init (PaillierPublicKey.Init 0 899) 2 0).ciphertext 899 = 1 →
      ∃ inv, 0 ≤ inv ∧ inv < 899 * 899 ∧
        (EncryptedNumber.Init (PaillierPublicKey.Init 0 899) 2 0).ciphertext * inv
          ≡ 1 [ZMOD 899 * 899] ∧
        (EncryptedNumber.Init (PaillierPublicKey.Init 0 899) 2 0).rawMul s
          = .ok (inv ^ (899 - s).toNat % (899 * 899))) ∧
    (∀ s : Int, 899 - (PaillierPublicKey.Init 0 899).maxInt ≤ s → 0 ≤ s → s < 899 →
      Int.gcd (EncryptedNumber.Init (PaillierPublicKey.Init 0 899) 2 0).ciphertext 899 ≠ 1 →
      (EncryptedNumber.Init (PaillierPublicKey.Init 0 899) 2 0).rawMul s
        = .error .nilDereference) :=
  C13_rawMul_bounds 0 899 (EncryptedNumber.Init (PaillierPublicKey.Init 0 899) 2 0)
    (by decide) rfl

theorem EncryptedNumber_DecreaseExponentTo_exponent (rt : Platform) (n r : EncryptedNumber)
    (e : Int) (h : n.DecreaseExponentTo rt e = .ok r) :
    r.Exponent = e ∧ r.isObfuscated = false := by
  unfold EncryptedNumber.DecreaseExponentTo at h
  by_cases c : e > n.Exponent
  · simp [c, bind, Except.bind, throw, throwThe, MonadExceptOf.throw] at h
  · simp only [c, if_false, bind, Except.bind, pure, Except.pure] at h
    cases hm : n.Mul rt (.int64 ((mathPowBase (n.Exponent - e)).toInt64 rt)) with
    | error err => simp [hm] at h
    | ok v =>
      simp only [hm] at h
      have hv : v.isObfuscated = false := by
        unfold EncryptedNumber.Mul at hm
        simp only [bind, Except.bind, pure, Except.pure] at hm
        split at hm
        · cases hm
        · split at hm
          · cases hm
          · cases hm
            rfl
      cases h
      exact ⟨rfl, hv⟩

theorem addEncrypted_result (rt : Platform) (a b res : EncryptedNumber)
    (h : a.addEncrypted rt b = .ok res) :
    res.Exponent = min a.Exponent b.Exponent ∧ res.isObfuscated = false := by
  unfold EncryptedNumber.addEncrypted at h
  by_cases hk : (!a.PublicKey.Equal b.PublicKey) = true
  · simp [hk, bind, Except.bind, throw, throwThe, MonadExceptOf.throw] at h
  · simp only [hk, Bool.false_eq_true, if_false, bind, Except.bind, pure, Except.pure,
      Ciphertext_false, EncryptedNumber.rawAdd, bigMod] at h
    by_cases c1 : a.Exponent > b.Exponent
    · simp only [c1, if_true] at h
      cases hd : a.DecreaseExponentTo rt b.Exponent with
      | error err => simp [hd] at h
      | ok a1 =>
        have he := (EncryptedNumber_DecreaseExponentTo_exponent rt a a1 _ hd).1
        simp only [hd] at h
        split at h
        · cases h
        · cases h
          simp only [EncryptedNumber.Init]
          exact ⟨by rw [he]; omega, trivial⟩
    · simp only [c1, if_false] at h
      by_cases c2 : a.Exponent < b.Exponent
      · simp only [c2, if_true] at h
        cases hd : b.DecreaseExponentTo rt a.Exponent with
        | error err => simp [hd] at h
        | ok b1 =>
          simp only [hd] at h
          split at h
          · cases h
          · cases h
            simp only [EncryptedNumber.Init]
            exact ⟨by omega, trivial⟩
      · simp only [c2, if_false] at h
        split at h
        · cases h
        · cases h
          simp only [EncryptedNumber.Init]
          exact ⟨by omega, trivial⟩

theorem EncryptedNumber_DecreaseExponentTo_key (rt : Platform) (n r : EncryptedNumber)
    (e : Int) (h : n.DecreaseExponentTo rt e = .ok r) : r.PublicKey = n.PublicKey := by
  unfold EncryptedNumber.DecreaseExponentTo at h
  by_cases c : e > n.Exponent
  · simp [c, bind, Except.bind, throw, throwThe, MonadExceptOf.throw] at h
  · simp only [c, if_false, bind, Except.bind, pure, Except.pure] at h
    cases hm : n.Mul rt (.int64 ((mathPowBase (n.Exponent - e)).toInt64 rt)) with
    | error err => simp [hm] at h
    | ok v =>
      simp only [hm] at h
      have hv : v.PublicKey = n.PublicKey := by
        unfold EncryptedNumber.Mul at hm
        simp only [bind, Except.bind, pure, Except.pure] at hm
        split at hm
        · cases hm
        · split at hm
          · cases hm
          · cases hm
            rfl
      cases h
      exact hv

theorem bigMod_ok {x y v : Int} (h : bigMod x y = .ok v) : v = x % y := by
  unfold bigMod at h
  split at h
  · cases h
  · cases h
    rfl

theorem addEncrypted_ciphertext (rt : Platform) (a b res : EncryptedNumber)
    (h : a.addEncrypted rt b = .ok res) :
    res.PublicKey = a.PublicKey ∧
    (b.Exponent < a.Exponent →
      ∃ a1, a.DecreaseExponentTo rt b.Exponent = .ok a1 ∧
        res.ciphertext = a1.ciphertext * b.ciphertext % a.PublicKey.nsquare) ∧
    (a.Exponent < b.Exponent →
      ∃ b1, b.DecreaseExponentTo rt a.Exponent = .ok b1 ∧
        res.ciphertext = a.ciphertext * b1.ciphertext % a.PublicKey.nsquare) ∧
    (a.Exponent = b.Exponent →
      res.ciphertext = a.ciphertext * b.ciphertext % a.PublicKey.nsquare) := by
  unfold EncryptedNumber.addEncrypted at h
  by_cases hk : (!a.PublicKey.Equal b.PublicKey) = true
  · simp [hk, bind, Except.bind, throw, throwThe, MonadExceptOf.throw] at h
  · simp only [hk, Bool.false_eq_true, if_false, bind, Except.bind, pure, Except.pure,
      Ciphertext_false, EncryptedNumber.rawAdd] at h
    by_cases c1 : a.Exponent > b.Exponent
    · simp only [c1, if_true] at h
      cases hd : a.DecreaseExponentTo rt b.Exponent with
      | error err => simp [hd] at h
      | ok a1 =>
        have hkey := EncryptedNumber_DecreaseExponentTo_key rt a a1 _ hd
        simp only [hd] at h
        cases hm : bigMod (a1.ciphertext * b.ciphertext) a1.PublicKey.nsquare with
        | error err => simp [hm] at h
        | ok v =>
          simp only [hm] at h
          have hv := bigMod_ok hm
          rw [hkey] at hv
          cases h
          refine ⟨hkey, fun _ => ⟨a1, rfl, hv⟩, fun h2 => ?_, fun h2 => ?_⟩
          · omega
          · omega
    · simp only [c1, if_false] at h
      by_cases c2 : a.Exponent < b.Exponent
      · simp only [c2, if_true] at h
        cases hd : b.DecreaseExponentTo rt a.Exponent with
        | error err => simp [hd] at h
        | ok b1 =>
          simp only [hd] at h
          cases hm : bigMod (a.ciphertext * b1.ciphertext) a.PublicKey.nsquare with
          | error err => simp [hm] at h
          | ok v =>
            simp only [hm] at h
            have hv := bigMod_ok hm
            cases h
            exact ⟨rfl, fun h2 => absurd h2 c1, fun _ => ⟨b1, rfl, hv⟩, fun h2 => by omega⟩
      · simp only [c2, if_false] at h
        cases hm : bigMod (a.ciphertext * b.ciphertext) a.PublicKey.nsquare with
        | error err => simp [hm] at h
        | ok v =>
          simp only [hm] at h
          have hv := bigMod_ok hm
          cases h
          exact ⟨rfl, fun h2 => absurd h2 c1, fun h2 => absurd h2 c2, fun _ => hv⟩

/-- C14: exponent alignment. For every two EncryptedNumbers a, b, whenever `a.Add (b)`
returns, the result lies under the key of a, its exponent is
`min (a.Exponent, b.Exponent)`, and the operand with the higher exponent is the one
rescaled: when `a.Exponent > b.Exponent` the ciphertext of the result is the product
modulo `N ^ 2` of the ciphertext of `a.DecreaseExponentTo (b.Exponent)` and the ciphertext
of b as it stands; when `a.Exponent < b.Exponent` it is the product of the ciphertext of a
as it stands and the ciphertext of `b.DecreaseExponentTo (a.Exponent)`; with equal
exponents neither operand is rescaled. -/
theorem C14_add_exponent_min (rt : Platform) (a b res : EncryptedNumber)
    (h : a.Add rt (.encrypted b) = .ok res) :
    res.Exponent = min a.Exponent b.Exponent ∧
    res.PublicKey = a.PublicKey ∧
    (b.Exponent < a.Exponent →
      ∃ a1, a.DecreaseExponentTo rt b.Exponent = .ok a1 ∧ a1.Exponent = b.Exponent ∧
        res.ciphertext = a1.ciphertext * b.ciphertext % a.PublicKey.nsquare) ∧
    (a.Exponent < b.Exponent →
      ∃ b1, b.DecreaseExponentTo rt a.Exponent = .ok b1 ∧ b1.Exponent = a.Exponent ∧
        res.ciphertext = a.ciphertext * b1.ciphertext % a.PublicKey.nsquare) ∧
    (a.Exponent = b.Exponent →
      res.ciphertext = a.ciphertext * b.ciphertext % a.PublicKey.nsquare) := by
  have hc := addEncrypted_ciphertext rt a b res h
  refine ⟨(addEncrypted_result rt a b res h).1, hc.1, fun hlt => ?_, fun hlt => ?_, hc.2.2.2⟩
  · obtain ⟨a1, ha1, hres⟩ := hc.2.1 hlt
    exact ⟨a1, ha1, (EncryptedNumber_DecreaseExponentTo_exponent rt a a1 _ ha1).1, hres⟩
  · obtain ⟨b1, hb1, hres⟩ := hc.2.2.1 hlt
    exact ⟨b1, hb1, (EncryptedNumber_DecreaseExponentTo_exponent rt b b1 _ hb1).1, hres⟩

/-- C14, at `N = 899`: the number with ciphertext 202167 at exponent 1 added to the number
with ciphertext 5 at exponent 0. `Add` returns at exponent 0 with the ciphertext 275267,
which is `(202167 ^ 16 mod N ^ 2) * 5 mod N ^ 2`: the first operand was rescaled, the
second was not. -/
theorem C14_add_exponent_min_witness :
    ∃ res, (EncryptedNumber.Init (PaillierPublicKey.Init 0 899) 202167 1).Add Platform.amd64
        (.encrypted (EncryptedNumber.Init (PaillierPublicKey.Init 0 899) 5 0)) = .ok res ∧
      res.ciphertext = 275267 ∧
      (202167 : Int) ^ 16 % (899 * 899) * 5 % (899 * 899) = 275267 ∧
      res.Exponent = 0 ∧
      ∃ a1, (EncryptedNumber.Init (PaillierPublicKey.Init 0 899) 202167 1).DecreaseExponentTo
          Platform.amd64 0 = .ok a1 ∧ a1.Exponent = 0 ∧
        res.ciphertext = a1.ciphertext * 5 % (899 * 899) :=
  have h : (EncryptedNumber.Init (PaillierPublicKey.Init 0 899) 202167 1).Add Platform.amd64
      (.encrypted (EncryptedNumber.Init (PaillierPublicKey.Init 0 899) 5 0))
      = .ok ⟨PaillierPublicKey.Init 0 899, 275267, 0, false⟩ := by decide
  ⟨_, h, rfl, by norm_num, rfl,
    (C14_add_exponent_min Platform.amd64 _ _ _ h).2.2.1 (by decide)⟩

theorem Equal_false_of_ne (pk1 pk2 : PaillierPublicKey)
    (hheap : pk1.nAddr = pk2.nAddr → pk1.n = pk2.n) (hne : pk1.n ≠ pk2.n) :
    pk1.Equal pk2 = false := by
  unfold PaillierPublicKey.Equal
  have : pk1.nAddr ≠ pk2.nAddr := fun h => hne (hheap h)
  simpa using this

/-- C15: key-mismatch rejection for addition and decryption. Two public keys whose
moduli differ hold pointers to different `big.Int` objects (equal pointers point to one
value); then `Add` with an EncryptedNumber, `Add` with an EncodedNumber, `DecryptEncoded`
and `Decrypt` all fail (KeyMismatch) and produce no result. -/
theorem C15_key_mismatch_rejected (pk1 pk2 : PaillierPublicKey)
    (hheap : pk1.nAddr = pk2.nAddr → pk1.n = pk2.n) (hne : pk1.n ≠ pk2.n) :
    (∀ (rt : Platform) (a b : EncryptedNumber), a.PublicKey = pk1 → b.PublicKey = pk2 →
      a.Add rt (.encrypted b) = .error .keyMismatch) ∧
    (∀ (rt : Platform) (a : EncryptedNumber) (k : EncodedNumber), a.PublicKey = pk1 →
      k.PublicKey = pk2 → a.Add rt (.encoded k) = .error .keyMismatch) ∧
    (∀ (sk : PaillierPrivateKey) (en : EncryptedNumber), sk.publicKey = pk1 →
      en.PublicKey = pk2 →
      sk.DecryptEncoded en = .error .keyMismatch ∧ sk.Decrypt en = .error .keyMismatch) := by
  have hf := Equal_false_of_ne pk1 pk2 hheap hne
  refine ⟨?_, ?_, ?_⟩
  · intro rt a b ha hb
    simp only [EncryptedNumber.Add, EncryptedNumber.addEncrypted, ha, hb, hf, Bool.not_false,
      if_true, bind, Except.bind, throw, throwThe, MonadExceptOf.throw]
  · intro rt a k ha hk
    simp only [EncryptedNumber.Add, EncryptedNumber.addEncoded, ha, hk, hf, Bool.not_false,
      if_true, bind, Except.bind, throw, throwThe, MonadExceptOf.throw]
  · intro sk en hs he
    have hd : sk.DecryptEncoded en = .error .keyMismatch := by
      simp only [PaillierPrivateKey.DecryptEncoded, hs, he, hf, Bool.not_false,
        if_true, bind, Except.bind, throw, throwThe, MonadExceptOf.throw]
    refine ⟨hd, ?_⟩
    simp only [PaillierPrivateKey.Decrypt, hd, bind, Except.bind]

/-- C15, at the keys of the moduli 15 and 899, held at the addresses 0 and 1. -/
theorem C15_key_mismatch_rejected_witness :
    (∀ (rt : Platform) (a b : EncryptedNumber), a.PublicKey = PaillierPublicKey.Init 0 15 →
      b.PublicKey = PaillierPublicKey.Init 1 899 →
      a.Add rt (.encrypted b) = .error .keyMismatch) ∧
    (∀ (rt : Platform) (a : EncryptedNumber) (k : EncodedNumber),
      a.PublicKey = PaillierPublicKey.Init 0 15 →
      k.PublicKey = PaillierPublicKey.Init 1 899 →
      a.Add rt (.encoded k) = .error .keyMismatch) ∧
    (∀ (sk : PaillierPrivateKey) (en : EncryptedNumber),
      sk.publicKey = PaillierPublicKey.Init 0 15 →
      en.PublicKey = PaillierPublicKey.Init 1 899 →
      sk.DecryptEncoded en = .error .keyMismatch ∧ sk.Decrypt en = .error .keyMismatch) :=
  C15_key_mismatch_rejected (PaillierPublicKey.Init 0 15) (PaillierPublicKey.Init 1 899)
    (by decide) (by decide)

/-- C16, what the code does instead: `Mul` never reads the public key of its EncodedNumber
argument, so its result is the one obtained with the receiver's key in its place; at the
failing input, a ciphertext under `N = 899` multiplied by an EncodedNumber of encoding 2
under `N = 15`, it returns the ciphertext `2 ^ 2 mod 899 ^ 2` instead of failing. -/
theorem C16_mul_ignores_key :
    (∀ (rt : Platform) (en : EncryptedNumber) (pk : PaillierPublicKey) (e x : Int),
      en.Mul rt (.encoded ⟨pk, e, x⟩) = en.Mul rt (.encoded ⟨en.PublicKey, e, x⟩)) ∧
    (PaillierPublicKey.Init 0 899).n ≠ (PaillierPublicKey.Init 1 15).n ∧
    (∀ rt : Platform,
      (EncryptedNumber.Init (PaillierPublicKey.Init 0 899) 2 0).Mul rt
          (.encoded ⟨PaillierPublicKey.Init 1 15, 2, 0⟩)
        = .ok ⟨PaillierPublicKey.Init 0 899, 4, 0, false⟩) :=
  ⟨fun _ _ _ _ _ => rfl, by decide, fun _ => rfl⟩

/-- C17, what the code does instead: `Equal` compares the pointers held in the field `n`,
so it holds exactly when the two keys share one `big.Int`. Two keys built by
`GeneratePaillierKeypairByPQ` from the same primes 3 and 5 hold distinct allocations (here
the addresses 0 and 1): they have the same N, are not `Equal`, and a number under one is
rejected by `DecryptEncoded` and by `Add` with the other. -/
theorem C17_equal_is_pointer_identity :
    (∀ p other : PaillierPublicKey, p.Equal other = true ↔ p.nAddr = other.nAddr) ∧
    ∃ pk1 sk1 pk2 sk2, GeneratePaillierKeypairByPQ 0 3 5 = .ok (pk1, sk1) ∧
      GeneratePaillierKeypairByPQ 1 3 5 = .ok (pk2, sk2) ∧
      pk1.n = pk2.n ∧ pk1.Equal pk2 = false ∧
      (∀ c x : Int, sk1.DecryptEncoded (EncryptedNumber.Init pk2 c x) = .error .keyMismatch) ∧
      (∀ (rt : Platform) (c1 x1 c2 x2 : Int),
        (EncryptedNumber.Init pk1 c1 x1).Add rt (.encrypted (EncryptedNumber.Init pk2 c2 x2))
          = .error .keyMismatch) := by
  refine ⟨?_, PaillierPublicKey.Init 0 15,
    ⟨PaillierPublicKey.Init 0 15, 3, 5, 9, 25, some 2, some 1, some 3⟩,
    PaillierPublicKey.Init 1 15,
    ⟨PaillierPublicKey.Init 1 15, 3, 5, 9, 25, some 2, some 1, some 3⟩,
    by decide, by decide, rfl, rfl, fun _ _ => rfl, fun _ _ _ _ _ => rfl⟩
  intro p other
  simp [PaillierPublicKey.Equal]

/-- C18: the envelope `max_int = floor (N / 3) - 1` prevents a silent sign wrap. For every
`N >= 3` and every signed integers a, b with `|a| <= max_int` and `|b| <= max_int`,
decoding the field element `((a mod N) + (b mod N)) mod N` either takes the mantissa
`a + b` exactly (when `|a + b| <= max_int`) or fails with Overflow (when
`|a + b| > max_int`); no other mantissa is ever taken. -/
theorem C18_no_silent_sign_wrap (addr : Nat) (N a b ex : Int) (hN : 3 ≤ N)
    (ha : |a| ≤ (PaillierPublicKey.Init addr N).maxInt)
    (hb : |b| ≤ (PaillierPublicKey.Init addr N).maxInt) :
    (|a + b| ≤ (PaillierPublicKey.Init addr N).maxInt ∧
      (EncodedNumber.mk (PaillierPublicKey.Init addr N) ((a % N + b % N) % N) ex).Decode
        = bigFloatMul (a + b) (mathPowBase ex)) ∨
    ((PaillierPublicKey.Init addr N).maxInt < |a + b| ∧
      (EncodedNumber.mk (PaillierPublicKey.Init addr N) ((a % N + b % N) % N) ex).Decode
        = .error .overflow) := by
  have hmax : (PaillierPublicKey.Init addr N).maxInt = N / 3 - 1 := rfl
  rw [hmax] at ha hb ⊢
  have ha2 := abs_le.mp ha
  have hb2 := abs_le.mp hb
  have hmodeq : (a % N + b % N) % N = (a + b) % N := (Int.add_emod a b N).symm
  rw [hmodeq, Decode_eq]
  have hlt : (a + b) % N < N := Int.emod_lt_of_pos _ (by omega)
  rw [if_neg (by omega)]
  by_cases hs : 0 ≤ a + b
  · have e : (a + b) % N = a + b := Int.emod_eq_of_lt hs (by omega)
    rw [e, abs_of_nonneg hs]
    by_cases hin : a + b ≤ N / 3 - 1
    · left
      rw [if_pos hin]
      exact ⟨hin, rfl⟩
    · right
      rw [if_neg hin, if_neg (by omega)]
      exact ⟨by omega, rfl⟩
  · have e : (a + b) % N = a + b + N := by
      rw [← Int.add_emod_self]
      exact Int.emod_eq_of_lt (by omega) (by omega)
    rw [e, abs_of_neg (by omega)]
    by_cases hin : -(a + b) ≤ N / 3 - 1
    · left
      rw [if_neg (by omega), if_pos (by omega)]
      refine ⟨hin, ?_⟩
      congr 1
      ring
    · right
      rw [if_neg (by omega), if_neg (by omega)]
      exact ⟨by omega, rfl⟩

/-- C18, at `N = 899` (max_int = 298), `a = 200` and `b = 150`: the sum 350 is rejected. -/
theorem C18_no_silent_sign_wrap_witness :
    (|(200 : Int) + 150| ≤ (PaillierPublicKey.Init 0 899).maxInt ∧
      (EncodedNumber.mk (PaillierPublicKey.Init 0 899) ((200 % 899 + 150 % 899) % 899) 0).Decode
        = bigFloatMul (200 + 150) (mathPowBase 0)) ∨
    ((PaillierPublicKey.Init 0 899).maxInt < |(200 : Int) + 150| ∧
      (EncodedNumber.mk (PaillierPublicKey.Init 0 899) ((200 % 899 + 150 % 899) % 899) 0).Decode
        = .error .overflow) :=
  C18_no_silent_sign_wrap 0 899 200 150 0 (by decide) (by decide) (by decide)

/-! ## Claims on the blinding flag and on key generation -/

theorem Mul_flag (rt : Platform) (n res : EncryptedNumber) (other : Value)
    (h : n.Mul rt other = .ok res) : res.isObfuscated = false := by
  unfold EncryptedNumber.Mul at h
  simp only [bind, Except.bind, pure, Except.pure, throw, throwThe,
    MonadExceptOf.throw] at h
  repeat' split at h
  all_goals first | (cases h; rfl) | cases h

theorem addEncoded_flag (rt : Platform) (n res : EncryptedNumber) (k : EncodedNumber)
    (h : n.addEncoded rt k = .ok res) : res.isObfuscated = false := by
  unfold EncryptedNumber.addEncoded at h
  simp only [bind, Except.bind, pure, Except.pure, Ciphertext_false,
    EncryptedNumber.rawAdd, throw, throwThe, MonadExceptOf.throw] at h
  repeat' split at h
  all_goals first | (cases h; rfl) | cases h

theorem Add_flag (rt : Platform) (n res : EncryptedNumber) (other : Value)
    (h : n.Add rt other = .ok res) : res.isObfuscated = false := by
  cases other with
  | encrypted v => exact (addEncrypted_result rt n v res h).2
  | encoded v => exact addEncoded_flag rt n res v h
  | float64 v =>
    simp only [EncryptedNumber.Add, EncryptedNumber.addScalar, bind, Except.bind] at h
    split at h
    · cases h
    · exact addEncoded_flag rt n res _ h
  | int64 v =>
    simp only [EncryptedNumber.Add, EncryptedNumber.addScalar, bind, Except.bind] at h
    split at h
    · cases h
    · exact addEncoded_flag rt n res _ h
  | unsupported =>
    simp [EncryptedNumber.Add, throw, throwThe, MonadExceptOf.throw] at h

/-- C19: the obfuscation flag. Under a key of modulus `N >= 2`: `Obfuscate` returns with
the flag true, and so does `EncryptEncoded` with r omitted; the flag is false on every
result of `Init`, of `EncryptEncoded` with r supplied, and of `Add`, `Mul` and
`DecreaseExponentTo` whenever they return; `Ciphertext (true)` returns the stored
ciphertext of a number whose flag is true, leaving the number untouched if its flag was
true and blinding it once otherwise; `Ciphertext (false)` changes neither ciphertext nor
flag. -/
theorem C19_obfuscation_flag (addr : Nat) (N : Int) (hN : 2 ≤ N) :
    (∀ (en : EncryptedNumber) (d : Int), en.PublicKey = PaillierPublicKey.Init addr N →
      ∃ res, en.Obfuscate d = .ok res ∧ res.isObfuscated = true) ∧
    (∀ (k : EncodedNumber) (d : Int),
      ∃ res, (PaillierPublicKey.Init addr N).EncryptEncoded k none d = .ok res ∧
        res.isObfuscated = true) ∧
    (∀ c x : Int, (EncryptedNumber.Init (PaillierPublicKey.Init addr N) c x).isObfuscated
      = false) ∧
    (∀ (k : EncodedNumber) (r d : Int),
      ∃ res, (PaillierPublicKey.Init addr N).EncryptEncoded k (some r) d = .ok res ∧
        res.isObfuscated = false) ∧
    (∀ (rt : Platform) (en res : EncryptedNumber) (other : Value),
      en.Add rt other = .ok res → res.isObfuscated = false) ∧
    (∀ (rt : Platform) (en res : EncryptedNumber) (other : Value),
      en.Mul rt other = .ok res → res.isObfuscated = false) ∧
    (∀ (rt : Platform) (en res : EncryptedNumber) (e : Int),
      en.DecreaseExponentTo rt e = .ok res → res.isObfuscated = false) ∧
    (∀ (en : EncryptedNumber) (d : Int), en.PublicKey = PaillierPublicKey.Init addr N →
      ∃ c after, en.Ciphertext true d = .ok (c, after) ∧ after.isObfuscated = true ∧
        c = after.ciphertext ∧ (en.isObfuscated = true → after = en) ∧
        (en.isObfuscated = false → en.Obfuscate d = .ok after)) ∧
    (∀ (en : EncryptedNumber) (d : Int), en.Ciphertext false d = .ok (en.ciphertext, en)) := by
  have hob : ∀ (en : EncryptedNumber) (d : Int),
      en.PublicKey = PaillierPublicKey.Init addr N →
      ∃ res, en.Obfuscate d = .ok res ∧ res.isObfuscated = true := by
    intro en d hen
    exact ⟨_, Obfuscate_eq en addr N d hN hen, rfl⟩
  refine ⟨hob, ?_, fun _ _ => rfl, ?_, fun rt en res other h => Add_flag rt en res other h,
    fun rt en res other h => Mul_flag rt en res other h,
    fun rt en res e h => (EncryptedNumber_DecreaseExponentTo_exponent rt en res e h).2,
    ?_, fun en d => Ciphertext_false en d⟩
  · intro k d
    have henc := RawEncrypt_eq addr N k.Encoding 1 0 (by omega)
    obtain ⟨res, hres, hflag⟩ := hob
      (EncryptedNumber.Init (PaillierPublicKey.Init addr N)
        ((1 + N * k.Encoding) * 1 ^ N.toNat % (N * N)) k.Exponent) d rfl
    refine ⟨res, ?_, hflag⟩
    simp only [PaillierPublicKey.EncryptEncoded, henc, bind, Except.bind]
    exact hres
  · intro k r d
    have henc := RawEncrypt_eq addr N k.Encoding r 0 (by omega)
    refine ⟨EncryptedNumber.Init (PaillierPublicKey.Init addr N)
      ((1 + N * k.Encoding) * r ^ N.toNat % (N * N)) k.Exponent, ?_, rfl⟩
    simp only [PaillierPublicKey.EncryptEncoded, henc, bind, Except.bind, pure,
      Except.pure]
  · intro en d hen
    by_cases hflag : en.isObfuscated = true
    · refine ⟨en.ciphertext, en, ?_, hflag, rfl, fun _ => rfl, ?_⟩
      · simp [EncryptedNumber.Ciphertext, hflag, pure, Except.pure]
      · intro h
        rw [h] at hflag
        cases hflag
    · obtain ⟨res, hres, hr⟩ := hob en d hen
      refine ⟨res.ciphertext, res, ?_, hr, rfl, fun h => absurd h hflag, fun _ => hres⟩
      simp [EncryptedNumber.Ciphertext, hflag, hres, bind, Except.bind, pure, Except.pure]

/-- C19, at `N = 15`. -/
theorem C19_obfuscation_flag_witness :
    (∀ (en : EncryptedNumber) (d : Int), en.PublicKey = PaillierPublicKey.Init 0 15 →
      ∃ res, en.Obfuscate d = .ok res ∧ res.isObfuscated = true) ∧
    (∀ (k : EncodedNumber) (d : Int),
      ∃ res, (PaillierPublicKey.Init 0 15).EncryptEncoded k none d = .ok res ∧
        res.isObfuscated = true) ∧
    (∀ c x : Int, (EncryptedNumber.Init (PaillierPublicKey.Init 0 15) c x).isObfuscated
      = false) ∧
    (∀ (k : EncodedNumber) (r d : Int),
      ∃ res, (PaillierPublicKey.Init 0 15).EncryptEncoded k (some r) d = .ok res ∧
        res.isObfuscated = false) ∧
    (∀ (rt : Platform) (en res : EncryptedNumber) (other : Value),
      en.Add rt other = .ok res → res.isObfuscated = false) ∧
    (∀ (rt : Platform) (en res : EncryptedNumber) (other : Value),
      en.Mul rt other = .ok res → res.isObfuscated = false) ∧
    (∀ (rt : Platform) (en res : EncryptedNumber) (e : Int),
      en.DecreaseExponentTo rt e = .ok res → res.isObfuscated = false) ∧
    (∀ (en : EncryptedNumber) (d : Int), en.PublicKey = PaillierPublicKey.Init 0 15 →
      ∃ c after, en.Ciphertext true d = .ok (c, after) ∧ after.isObfuscated = true ∧
        c = after.ciphertext ∧ (en.isObfuscated = true → after = en) ∧
        (en.isObfuscated = false → en.Obfuscate d = .ok after)) ∧
    (∀ (en : EncryptedNumber) (d : Int), en.Ciphertext false d = .ok (en.ciphertext, en)) :=
  C19_obfuscation_flag 0 15 (by decide)


theorem bitLenLoop_of_range (m : Nat) :
    ∀ (fuel n : Nat), n ≤ fuel → 2 ^ m ≤ n → n < 2 ^ (m + 1) →
      bitLenLoop fuel n = m + 1 := by
  induction m with
  | zero =>
    intro fuel n hf h1 h2
    have hn : n = 1 := by
      simp only [pow_zero, zero_add, pow_one] at h1 h2
      omega
    subst hn
    cases fuel with
    | zero => omega
    | succ f =>
      cases f with
      | zero => simp [bitLenLoop]
      | succ g => simp [bitLenLoop]
  | succ j ih =>
    intro fuel n hf h1 h2
    have e1 : 2 ^ (j + 1) = 2 * 2 ^ j := by rw [pow_succ]; ring
    have e2 : 2 ^ (j + 1 + 1) = 2 * 2 ^ (j + 1) := by rw [pow_succ]; ring
    have hpos : 0 < 2 ^ j := by positivity
    cases fuel with
    | zero => omega
    | succ f =>
      have h0 : n ≠ 0 := by omega
      simp only [bitLenLoop, h0, if_false]
      rw [ih f (n / 2) (by omega) (by omega) (by omega)]

theorem bitLen_of_range (m n : Nat) (h1 : 2 ^ m ≤ n) (h2 : n < 2 ^ (m + 1)) :
    bitLen n = m + 1 :=
  bitLenLoop_of_range m n n le_rfl h1 h2

theorem bitLen_mul_top (k : Nat) (hk : 2 ≤ k) (p q : Int) (hp : HasTopTwoBits k p)
    (hq : HasTopTwoBits k q) : bitLen (p * q).natAbs = 2 * k := by
  obtain ⟨j, rfl⟩ : ∃ j, k = j + 2 := ⟨k - 2, by omega⟩
  unfold HasTopTwoBits at hp hq
  simp only [Nat.add_sub_cancel] at hp hq
  have hpos : (0 : Int) < 2 ^ j := by positivity
  have hp0 : 0 ≤ p := by linarith [hp.1]
  have hq0 : 0 ≤ q := by linarith [hq.1]
  lift p to Nat using hp0
  lift q to Nat using hq0
  have e4 : (2 : Int) ^ (j + 2) = 4 * 2 ^ j := by rw [pow_add]; ring
  rw [e4] at hp hq
  have hp1 : 3 * 2 ^ j ≤ p := by exact_mod_cast hp.1
  have hp2 : p < 4 * 2 ^ j := by exact_mod_cast hp.2
  have hq1 : 3 * 2 ^ j ≤ q := by exact_mod_cast hq.1
  have hq2 : q < 4 * 2 ^ j := by exact_mod_cast hq.2
  have hnat : ((p : Int) * (q : Int)).natAbs = p * q := by
    rw [← Nat.cast_mul, Int.natAbs_ofNat]
  rw [hnat]
  have hposn : 0 < 2 ^ j := by positivity
  have elow : 2 ^ (2 * j + 3) = 8 * (2 ^ j * 2 ^ j) := by
    rw [show 2 * j + 3 = j + j + 3 by omega, pow_add, pow_add]; ring
  have ehigh : 2 ^ (2 * j + 3 + 1) = 16 * (2 ^ j * 2 ^ j) := by
    rw [show 2 * j + 3 + 1 = j + j + 4 by omega, pow_add, pow_add]; ring
  have hlow : 2 ^ (2 * j + 3) ≤ p * q := by
    rw [elow]
    calc 8 * (2 ^ j * 2 ^ j) ≤ (3 * 2 ^ j) * (3 * 2 ^ j) := by nlinarith
      _ ≤ p * q := Nat.mul_le_mul hp1 hq1
  have hhigh : p * q < 2 ^ (2 * j + 3 + 1) := by
    rw [ehigh]
    calc p * q < (4 * 2 ^ j) * (4 * 2 ^ j) := Nat.mul_lt_mul'' hp2 hq2
      _ = 16 * (2 ^ j * 2 ^ j) := by ring
  rw [bitLen_of_range (2 * j + 3) (p * q) hlow hhigh]
  omega

theorem drawOtherPrime_ne (primes : Nat → Option Int) (p : Int) (fuel : Nat) :
    ∀ (calls : Nat) (q : Option Int) (v : Int) (c : Nat),
      drawOtherPrime primes p fuel calls q = some (v, c) → v ≠ p ∧ calls ≤ c := by
  induction fuel with
  | zero =>
    intro calls q v c h
    simp [drawOtherPrime] at h
  | succ k ih =>
    intro calls q v c h
    cases q with
    | none =>
      simp only [drawOtherPrime] at h
      have := ih _ _ _ _ h
      exact ⟨this.1, by omega⟩
    | some w =>
      simp only [drawOtherPrime] at h
      split at h
      · have := ih _ _ _ _ h
        exact ⟨this.1, by omega⟩
      · cases h
        exact ⟨by assumption, le_refl _⟩

theorem drawOtherPrime_mem (primes : Nat → Option Int) (R : Int → Prop)
    (hR : ∀ i v, primes i = some v → R v) (p : Int) (fuel : Nat) :
    ∀ (calls : Nat) (q : Option Int) (v : Int) (c : Nat),
      (∀ w, q = some w → R w) → drawOtherPrime primes p fuel calls q = some (v, c) → R v := by
  induction fuel with
  | zero =>
    intro calls q v c _ h
    simp [drawOtherPrime] at h
  | succ k ih =>
    intro calls q v c hq h
    cases q with
    | none =>
      simp only [drawOtherPrime] at h
      exact ih _ _ _ _ (fun w hw => hR _ _ hw) h
    | some w =>
      simp only [drawOtherPrime] at h
      split at h
      · exact ih _ _ _ _ (fun w hw => hR _ _ hw) h
      · cases h
        exact hq _ rfl

theorem drawOtherPrime_draw (primes : Nat → Option Int) (p : Int) (k calls : Nat) :
    drawOtherPrime primes p (k + 1) calls none =
      drawOtherPrime primes p k (calls + 1) (primes calls) := rfl

theorem drawOtherPrime_same (primes : Nat → Option Int) (p : Int) (k calls : Nat) :
    drawOtherPrime primes p (k + 1) calls (some p) =
      drawOtherPrime primes p k (calls + 1) (primes calls) := by
  simp [drawOtherPrime]

theorem drawOtherPrime_keep (primes : Nat → Option Int) (p v : Int) (k calls : Nat)
    (h : v ≠ p) : drawOtherPrime primes p (k + 1) calls (some v) = some (v, calls) := by
  simp [drawOtherPrime, h]

theorem drawOtherPrime_found (primes : Nat → Option Int) (p q : Int) (hne : q ≠ p)
    (j : Nat) :
    ∀ (fuel calls : Nat) (q0 : Option Int), (q0 = none ∨ q0 = some p) →
      (∀ t, t < j → primes (calls + t) = none ∨ primes (calls + t) = some p) →
      primes (calls + j) = some q → j + 2 ≤ fuel →
      drawOtherPrime primes p fuel calls q0 = some (q, calls + j + 1) := by
  induction j with
  | zero =>
    intro fuel calls q0 hq0 _ hq hfuel
    obtain ⟨f, rfl⟩ : ∃ f, fuel = f + 2 := ⟨fuel - 2, by omega⟩
    have hstep : drawOtherPrime primes p (f + 1 + 1) calls q0 =
        drawOtherPrime primes p (f + 1) (calls + 1) (primes calls) := by
      rcases hq0 with h | h <;> rw [h]
      · rfl
      · exact drawOtherPrime_same primes p (f + 1) calls
    rw [show f + 2 = f + 1 + 1 by rfl, hstep]
    rw [Nat.add_zero] at hq
    rw [hq]
    exact drawOtherPrime_keep primes p q f (calls + 1) hne
  | succ i ih =>
    intro fuel calls q0 hq0 hmid hq hfuel
    obtain ⟨f, rfl⟩ : ∃ f, fuel = f + 1 := ⟨fuel - 1, by omega⟩
    have hstep : drawOtherPrime primes p (f + 1) calls q0 =
        drawOtherPrime primes p f (calls + 1) (primes calls) := by
      rcases hq0 with h | h <;> rw [h]
      · rfl
      · exact drawOtherPrime_same primes p f calls
    rw [hstep]
    have h0 := hmid 0 (by omega)
    rw [Nat.add_zero] at h0
    have := ih f (calls + 1) (primes calls) h0
      (fun t ht => by
        have := hmid (t + 1) (by omega)
        rwa [show calls + (t + 1) = calls + 1 + t by omega] at this)
      (by rwa [show calls + (i + 1) = calls + 1 + i by omega] at hq)
      (by omega)
    rw [this]
    congr 2
    omega

theorem keypairLoop_done (primes : Nat → Option Int) (L : Int) (k : Nat) (s : KeygenState)
    (h : s.nLen = L) : keypairLoop primes L (k + 1) s = some s := by
  simp [keypairLoop, h]

theorem keypairLoop_step (primes : Nat → Option Int) (L : Int) (k : Nat)
    (s next : KeygenState) (h : s.nLen ≠ L) (hpass : keypairPass primes k s = some next) :
    keypairLoop primes L (k + 1) s = keypairLoop primes L k next := by
  simp [keypairLoop, h, hpass]

theorem keypairPass_fail (primes : Nat → Option Int) (k : Nat) (s : KeygenState)
    (h : primes s.calls = none) :
    keypairPass primes k s = some { s with p := none, calls := s.calls + 1 } := by
  simp [keypairPass, h]

theorem keypairPass_draw (primes : Nat → Option Int) (k : Nat) (s : KeygenState)
    (p q : Int) (c : Nat) (hp : primes s.calls = some p)
    (hq : drawOtherPrime primes p k (s.calls + 1) s.q = some (q, c)) :
    keypairPass primes k s =
      some { nLen := (bitLen (p * q).natAbs : Int), n := some (p * q), p := some p,
             q := some q, calls := c } := by
  simp [keypairPass, hp, hq]

theorem keypairPass_settled (primes : Nat → Option Int) (L : Int) (k : Nat)
    (s next : KeygenState) (hne : s.nLen ≠ L) (hpass : keypairPass primes k s = some next) :
    next.nLen = L → next.Settled := by
  unfold keypairPass at hpass
  split at hpass
  · cases hpass
    intro hl
    exact absurd hl hne
  · rename_i p hp
    split at hpass
    · cases hpass
    · rename_i q calls hq
      cases hpass
      intro _ n hn
      cases hn
      exact ⟨p, q, rfl, rfl, rfl, (drawOtherPrime_ne primes p k _ _ q calls hq).1.symm, rfl⟩

theorem keypairLoop_spec (primes : Nat → Option Int) (L : Int) (fuel : Nat) :
    ∀ s r : KeygenState, keypairLoop primes L fuel s = some r →
      (s.nLen = L → s.Settled) → r.nLen = L ∧ (r.nLen = L → r.Settled) := by
  induction fuel with
  | zero =>
    intro s r h
    simp [keypairLoop] at h
  | succ k ih =>
    intro s r h hs
    simp only [keypairLoop] at h
    split at h
    · rename_i hne
      split at h
      · cases h
      · rename_i next hpass
        exact ih next r h (keypairPass_settled primes L k s next hne hpass)
    · rename_i heq
      cases h
      have hl : s.nLen = L := by
        by_contra hc
        exact heq hc
      exact ⟨hl, hs⟩

theorem PrivateKey_Init_fields (pk : PaillierPublicKey) (p q : Int) (sk : PaillierPrivateKey)
    (h : PaillierPrivateKey.Init pk p q = .ok sk) :
    sk.p * sk.q = pk.n ∧ sk.p < sk.q ∧ (sk.p = p ∨ sk.p = q) ∧ (sk.q = p ∨ sk.q = q) := by
  unfold PaillierPrivateKey.Init at h
  split at h
  · cases h
  · rename_i hprod
    split at h
    · cases h
    · rename_i hne
      simp only [bind, Except.bind, pure, Except.pure] at h
      split at h
      · cases h
      · split at h
        · cases h
        · cases h
          have hprod2 : p * q = pk.n := by
            by_contra hc
            exact hprod hc
          by_cases hgt : p > q
          · simp only [if_pos hgt]
            exact ⟨by rw [← hprod2]; ring, hgt, Or.inr trivial, Or.inl trivial⟩
          · simp only [if_neg hgt]
            exact ⟨hprod2, by omega, Or.inl trivial, Or.inr trivial⟩

theorem GeneratePaillierKeypair_returned (primes : Nat → Option Int) (addr : Nat) (L : Int)
    (fuel : Nat) (pk : PaillierPublicKey) (sk : PaillierPrivateKey)
    (h : GeneratePaillierKeypair primes addr L fuel = some (.ok (pk, sk))) :
    pk.n = sk.p * sk.q ∧ sk.p < sk.q ∧ (bitLen pk.n.natAbs : Int) = L := by
  unfold GeneratePaillierKeypair at h
  split at h
  · cases h
  · rename_i s hs
    have hspec := keypairLoop_spec primes L fuel _ s hs (fun _ n hn => by cases hn)
    cases hsn : s.n with
    | none =>
      rw [hsn] at h
      simp [deref, bind, Except.bind] at h
    | some n =>
      obtain ⟨p, q, hp, hq, hn, hne, hlen⟩ := hspec.2 hspec.1 n hsn
      rw [hsn, hp, hq] at h
      simp only [deref, bind, Except.bind, pure, Except.pure, Option.some.injEq] at h
      split at h
      · simp at h
      · rename_i sk2 hinit
        simp only [Option.some.injEq, Except.ok.injEq, Prod.mk.injEq] at h
        obtain ⟨hpk, hsk⟩ := h
        subst hpk
        subst hsk
        have hf := PrivateKey_Init_fields _ p q sk2 hinit
        have hnn : (PaillierPublicKey.Init addr n).n = n := rfl
        refine ⟨by rw [hf.1], hf.2.1, ?_⟩
        rw [hnn, ← hlen]
        exact hspec.1

theorem keypairLoop_skip (primes : Nat → Option Int) (L : Int) (i : Nat) :
    ∀ (fuel calls : Nat) (nLen : Int) (n q : Option Int), nLen ≠ L →
      (∀ t, t < i → primes (calls + t) = none) →
      keypairLoop primes L (fuel + i) ⟨nLen, n, none, q, calls⟩ =
        keypairLoop primes L fuel ⟨nLen, n, none, q, calls + i⟩ := by
  induction i with
  | zero =>
    intro fuel calls nLen n q _ _
    rfl
  | succ j ih =>
    intro fuel calls nLen n q hne hfail
    have h0 := hfail 0 (by omega)
    rw [Nat.add_zero] at h0
    rw [show fuel + (j + 1) = fuel + j + 1 by omega]
    rw [keypairLoop_step primes L (fuel + j) ⟨nLen, n, none, q, calls⟩
      ⟨nLen, n, none, q, calls + 1⟩ hne (keypairPass_fail primes _ _ h0)]
    rw [ih fuel (calls + 1) nLen n q hne (fun t ht => by
      have := hfail (t + 1) (by omega)
      rwa [show calls + (t + 1) = calls + 1 + t by omega] at this)]
    rw [show calls + 1 + j = calls + (j + 1) by omega]

theorem keypairLoop_odd_none (primes : Nat → Option Int) (k : Nat) (hk : 2 ≤ k)
    (hstream : ∀ i v, primes i = some v → HasTopTwoBits k v) (fuel : Nat) :
    ∀ s : KeygenState, (s.nLen = 0 ∨ s.nLen = ((2 * k : Nat) : Int)) →
      (∀ w, s.q = some w → HasTopTwoBits k w) →
      keypairLoop primes (((2 * k + 1 : Nat) : Int)) fuel s = none := by
  induction fuel with
  | zero =>
    intro s _ _
    rfl
  | succ f ih =>
    intro s hlen hq
    have hne : s.nLen ≠ ((2 * k + 1 : Nat) : Int) := by
      rcases hlen with h | h <;> rw [h] <;> push_cast <;> omega
    cases hpass : keypairPass primes f s with
    | none =>
      simp only [keypairLoop, hpass]
      split <;> rfl
    | some next =>
      rw [keypairLoop_step primes _ f s next hne hpass]
      unfold keypairPass at hpass
      split at hpass
      · cases hpass
        exact ih _ hlen hq
      · rename_i p hp
        split at hpass
        · cases hpass
        · rename_i q calls hdraw
          cases hpass
          have hqtop : HasTopTwoBits k q :=
            drawOtherPrime_mem primes (HasTopTwoBits k) hstream p f _ _ q calls hq hdraw
          have hptop : HasTopTwoBits k p := hstream _ _ hp
          refine ih _ (Or.inr ?_) (fun w hw => ?_)
          · simp only
            rw [bitLen_mul_top k hk p q hptop hqtop]
          · cases hw
            exact hqtop

/-- C20, as stated, fails on primes that `rand.Prime (6)` delivers (six bits, the two top
bits set): for `L = 13` and the draws 53, 59, 61, the first pass stores
`53 * 59 = 3127`, which has 12 bits, so that the attempt is rejected; the second pass draws
only `p = 61` and keeps the `q = 59` of the rejected attempt, three draws in all, and goes
on with `61 * 59 = 3599`. -/
theorem C20_counterexample :
    HasTopTwoBits 6 53 ∧ HasTopTwoBits 6 59 ∧ HasTopTwoBits 6 61 ∧
    bitLen (53 * 59) = 12 ∧
    ∀ primes : Nat → Option Int,
      primes 0 = some 53 → primes 1 = some 59 → primes 2 = some 61 → ∀ fuel : Nat,
      keypairPass primes (fuel + 2) ⟨0, none, none, none, 0⟩
        = some ⟨12, some 3127, some 53, some 59, 2⟩ ∧
      keypairPass primes (fuel + 2) ⟨12, some 3127, some 53, some 59, 2⟩
        = some ⟨12, some 3599, some 61, some 59, 3⟩ ∧
      keypairLoop primes 13 (fuel + 4) ⟨0, none, none, none, 0⟩
        = keypairLoop primes 13 (fuel + 2) ⟨12, some 3599, some 61, some 59, 3⟩ := by
  refine ⟨by unfold HasTopTwoBits; decide, by unfold HasTopTwoBits; decide,
    by unfold HasTopTwoBits; decide, by decide, ?_⟩
  intro primes h0 h1 h2
  have hpass1 : ∀ f : Nat, keypairPass primes (f + 2) ⟨0, none, none, none, 0⟩
      = some ⟨12, some 3127, some 53, some 59, 2⟩ := by
    intro f
    have hdraw : drawOtherPrime primes 53 (f + 2) (0 + 1) none = some (59, 2) := by
      rw [show f + 2 = f + 1 + 1 by rfl, drawOtherPrime_draw, h1]
      exact drawOtherPrime_keep primes 53 59 f 2 (by decide)
    rw [keypairPass_draw primes (f + 2) ⟨0, none, none, none, 0⟩ 53 59 2 h0 hdraw]
    rfl
  have hpass2 : ∀ f : Nat, keypairPass primes (f + 2) ⟨12, some 3127, some 53, some 59, 2⟩
      = some ⟨12, some 3599, some 61, some 59, 3⟩ := by
    intro f
    have hdraw : drawOtherPrime primes 61 (f + 2) (2 + 1) (some 59) = some (59, 3) :=
      drawOtherPrime_keep primes 61 59 (f + 1) 3 (by decide)
    rw [keypairPass_draw primes (f + 2) ⟨12, some 3127, some 53, some 59, 2⟩ 61 59 3 h2
      hdraw]
    rfl
  intro fuel
  refine ⟨hpass1 fuel, hpass2 fuel, ?_⟩
  rw [show fuel + 4 = fuel + 3 + 1 by rfl,
    keypairLoop_step primes 13 (fuel + 3) _ _ (by decide) (hpass1 (fuel + 1)),
    show fuel + 1 + 2 = fuel + 2 + 1 by rfl,
    keypairLoop_step primes 13 (fuel + 2) _ _ (by decide) (hpass2 fuel)]

/-- C20 (amended): key generation over the primes that `rand.Prime` delivers, `k` bits
with the two top bits set. For an even length `L = 2 * k` with `k >= 2`: whatever draws
fail, once the stream yields a prime P and later a prime Q different from P (failed draws
and repetitions of P in between are skipped by the inner loop), the first attempt is
accepted: the loop ends after these draws with `N = P * Q`, `bitlen (N) = L`, and
`GeneratePaillierKeypair` returns the key of the primes P and Q. For the odd length
`L = 2 * k + 1` no attempt is accepted and the function does not return. In every pass
that finds a `q` left by an earlier attempt and different from the new `p`, that `q` is
kept and only `p` is drawn. For every stream and every L, a returned key has `N = p * q`
with `p < q` and `bitlen (N) = L`. -/
theorem C20_keypair_generation (primes : Nat → Option Int) (addr k P Q i j fuel : Nat)
    (hk : 2 ≤ k) (hP : P.Prime) (hQ : Q.Prime)
    (hPtop : HasTopTwoBits k P) (hQtop : HasTopTwoBits k Q) (hne : Q ≠ P)
    (hfail : ∀ t, t < i → primes t = none) (hp : primes i = some (P : Int))
    (hmid : ∀ t, t < j → primes (i + 1 + t) = none ∨ primes (i + 1 + t) = some (P : Int))
    (hq : primes (i + 1 + j) = some (Q : Int)) (hfuel : i + j + 3 ≤ fuel) :
    (keypairLoop primes ((2 * k : Nat) : Int) fuel ⟨0, none, none, none, 0⟩ =
        some ⟨((2 * k : Nat) : Int), some ((P : Int) * Q), some P, some Q, i + j + 2⟩ ∧
      bitLen (P * Q) = 2 * k ∧
      ∃ sk, GeneratePaillierKeypair primes addr ((2 * k : Nat) : Int) fuel =
          some (.ok (PaillierPublicKey.Init addr ((P : Int) * Q), sk)) ∧
        sk.HoldsPrimes (min P Q) (max P Q)) ∧
    (∀ primes2 : Nat → Option Int, (∀ t v, primes2 t = some v → HasTopTwoBits k v) →
      ∀ fuel2 : Nat,
        GeneratePaillierKeypair primes2 addr ((2 * k + 1 : Nat) : Int) fuel2 = none) ∧
    (∀ (primes2 : Nat → Option Int) (s : KeygenState) (p q0 : Int) (f : Nat),
      primes2 s.calls = some p → s.q = some q0 → q0 ≠ p →
      keypairPass primes2 (f + 1) s =
        some ⟨(bitLen (p * q0).natAbs : Int), some (p * q0), some p, some q0,
          s.calls + 1⟩) ∧
    (∀ (primes2 : Nat → Option Int) (L : Int) (fuel2 : Nat) (pk : PaillierPublicKey)
      (sk : PaillierPrivateKey),
      GeneratePaillierKeypair primes2 addr L fuel2 = some (.ok (pk, sk)) →
        pk.n = sk.p * sk.q ∧ sk.p < sk.q ∧ (bitLen pk.n.natAbs : Int) = L) := by
  have hbits : bitLen ((P : Int) * Q).natAbs = 2 * k := bitLen_mul_top k hk P Q hPtop hQtop
  have hnat : ((P : Int) * (Q : Int)).natAbs = P * Q := by
    rw [← Nat.cast_mul, Int.natAbs_ofNat]
  have hloop : keypairLoop primes ((2 * k : Nat) : Int) fuel ⟨0, none, none, none, 0⟩ =
      some ⟨((2 * k : Nat) : Int), some ((P : Int) * Q), some P, some Q, i + j + 2⟩ := by
    obtain ⟨g, rfl⟩ : ∃ g, fuel = g + 1 + 1 + i := ⟨fuel - i - 2, by omega⟩
    have h0 : (0 : Int) ≠ ((2 * k : Nat) : Int) := by
      push_cast
      omega
    rw [keypairLoop_skip primes _ i (g + 1 + 1) 0 0 none none h0
      (fun t ht => by rw [Nat.zero_add]; exact hfail t ht)]
    have hdraw : drawOtherPrime primes (P : Int) (g + 1) (0 + i + 1) none
        = some ((Q : Int), 0 + i + 1 + j + 1) :=
      drawOtherPrime_found primes P Q (by exact_mod_cast hne) j (g + 1) (0 + i + 1) none
        (Or.inl rfl)
        (fun t ht => by rw [Nat.zero_add]; exact hmid t ht)
        (by rw [Nat.zero_add]; exact hq) (by omega)
    have hp2 : primes (0 + i) = some (P : Int) := by rw [Nat.zero_add]; exact hp
    rw [keypairLoop_step primes _ (g + 1) ⟨0, none, none, none, 0 + i⟩ _ h0
      (keypairPass_draw primes (g + 1) ⟨0, none, none, none, 0 + i⟩ P Q _ hp2 hdraw)]
    rw [keypairLoop_done primes _ g _ (by simp only; rw [hbits])]
    rw [hbits, show 0 + i + 1 + j + 1 = i + j + 2 by omega]
  have hinit : ∃ sk, PaillierPrivateKey.Init (PaillierPublicKey.Init addr ((P : Int) * Q))
      P Q = .ok sk ∧ sk.HoldsPrimes (min P Q) (max P Q) := by
    rcases Nat.lt_or_gt_of_ne hne with hgt | hlt
    · obtain ⟨sk, hsk, _, hold⟩ := PrivateKey_Init_sorted
        (PaillierPublicKey.Init addr ((P : Int) * Q)) Q P hQ hP hgt
        (by simp only [PaillierPublicKey.Init]; ring)
        (by simp only [PaillierPublicKey.Init]; ring) P Q (Or.inr ⟨rfl, rfl⟩)
      refine ⟨sk, hsk, ?_⟩
      rw [Nat.min_eq_right (le_of_lt hgt), Nat.max_eq_left (le_of_lt hgt)]
      exact hold
    · obtain ⟨sk, hsk, _, hold⟩ := PrivateKey_Init_sorted
        (PaillierPublicKey.Init addr ((P : Int) * Q)) P Q hP hQ hlt rfl
        (by simp only [PaillierPublicKey.Init]; ring) P Q (Or.inl ⟨rfl, rfl⟩)
      refine ⟨sk, hsk, ?_⟩
      rw [Nat.min_eq_left (le_of_lt hlt), Nat.max_eq_right (le_of_lt hlt)]
      exact hold
  refine ⟨⟨hloop, by rw [← hnat]; exact hbits, ?_⟩, ?_, ?_, ?_⟩
  · obtain ⟨sk, hsk, hold⟩ := hinit
    refine ⟨sk, ?_, hold⟩
    simp only [GeneratePaillierKeypair, hloop, deref, bind, Except.bind, pure, Except.pure,
      hsk]
  · intro primes2 hstream fuel2
    have := keypairLoop_odd_none primes2 k hk hstream fuel2 ⟨0, none, none, none, 0⟩
      (Or.inl rfl) (fun w hw => by cases hw)
    simp only [GeneratePaillierKeypair, this]
  · intro primes2 s p q0 f hp2 hq0 hne2
    have hdraw : drawOtherPrime primes2 p (f + 1) (s.calls + 1) s.q
        = some (q0, s.calls + 1) := by
      rw [hq0]
      exact drawOtherPrime_keep primes2 p q0 f (s.calls + 1) hne2
    exact keypairPass_draw primes2 (f + 1) s p q0 (s.calls + 1) hp2 hdraw
  · intro primes2 L fuel2 pk sk h
    exact GeneratePaillierKeypair_returned primes2 addr L fuel2 pk sk h

/-- C20 (amended), at `L = 10`: the first draw fails, then 29, 29 and 31 are drawn. The
loop ends after these four draws with `N = 29 * 31 = 899`, of 10 bits, and the key of the
primes 29 and 31 is returned. -/
theorem C20_keypair_generation_witness :
    keypairLoop
        (fun t => match t with
          | 0 => none
          | 1 => some 29
          | 2 => some 29
          | _ => some 31) 10 5 ⟨0, none, none, none, 0⟩
      = some ⟨10, some 899, some 29, some 31, 4⟩ ∧
    bitLen 899 = 10 ∧
    ∃ sk, GeneratePaillierKeypair
        (fun t => match t with
          | 0 => none
          | 1 => some 29
          | 2 => some 29
          | _ => some 31) 0 10 5
        = some (.ok (PaillierPublicKey.Init 0 899, sk)) ∧
      sk.HoldsPrimes 29 31 :=
  (C20_keypair_generation
    (fun t => match t with
      | 0 => none
      | 1 => some 29
      | 2 => some 29
      | _ => some 31) 0 5 29 31 1 1 5 (by decide) (by norm_num) (by norm_num)
    (by unfold HasTopTwoBits; decide) (by unfold HasTopTwoBits; decide) (by decide)
    (fun t ht => by
      have : t = 0 := by omega
      subst this
      rfl)
    rfl
    (fun t ht => by
      have : t = 0 := by omega
      subst this
      exact Or.inr rfl)
    rfl (by decide)).1

end Paillier
